import Mathlib

/-! Memory management, scheduling and synchronisation simulators.

A shallow embedding of the page-replacement and TLB simulators of the repository
(`LAB-8.3(FIFO).cpp`, `lab9-2.cpp`, `LAB9/LAB9-3.cpp`, `LAB9-5.cpp`, `LAB-8.4TLB.cpp`), of the
page table of `LAB9-1.cpp`, of the memory allocator of `LAB-8.2MEMORY ALLOCATION SIMULATOR .cpp`,
of the working-set simulator of `LAB9-4.cpp`, of the memory-mapped file of `Lab9-6.cpp`, of
the four dining-philosophers classes of `Lab6-1.cpp`, of the constructor of the page table of
`LAB-8.1ADDRESS.cpp` and of the round-robin scheduler of `CompleteSchedulingAlgorithms.cpp`.

Conventions of the embedding:
* a C++ `int` is an `Int`; counters are not wrapped, the theorems that depend on the
  range of `int` carry the bound as a hypothesis; where a method computes an address or a
  time from its arguments, a result outside the range of `int` is `none` (`fitsInt`);
* `std::queue<int>` is a `List Int` whose head is the front of the queue;
* `std::unordered_set<int>` is a `Finset Int`;
* `std::map<int,int>` read through `operator[]` is a function `Int → Int` (absent keys read `0`);
* printing is left out; a call that runs into undefined behaviour (`front()` of an empty
  queue) or throws returns `none`;
* a loop without a bound runs on `fuel`, and `none` is a loop that has not ended;
* threads run interleaved: a state holds the shared variables and the program point of each
  thread, and a run is the list of the threads in the order of their atomic steps.
-/

/-- Largest value of a C++ `int` (`numeric_limits<int>::max()`). -/
def INT_MAX : Int := 2147483647

/-- Smallest value of a C++ `int` (`numeric_limits<int>::min()`). -/
def INT_MIN : Int := -2147483648

/-- The number `x` is a value of a C++ `int`. An operation on `int`s whose result is not has
undefined behaviour (signed overflow). -/
def fitsInt (x : Int) : Bool := decide (INT_MIN ≤ x ∧ x ≤ INT_MAX)

/-- Value of an `int` after the implicit conversion to the 64-bit `size_t`. -/
def toSizeT (n : Int) : Nat := (n % 18446744073709551616).toNat

/-! ## `LAB-8.3(FIFO).cpp`: `PageReplacementFIFO` -/

namespace PageReplacementFIFO

/-- Data members of `class PageReplacementFIFO`. -/
structure State where
  numFrames : Int
  frameQueue : List Int
  frameSet : Finset Int
  pageFaults : Int
  frameHistory : List (List Int)

/-- Constructor `PageReplacementFIFO(int frames)`. -/
def new (frames : Int) : State :=
  { numFrames := frames, frameQueue := [], frameSet := ∅, pageFaults := 0, frameHistory := [] }

/-- Method `referencePage(int page)`; `none` is `frameQueue.front()` on an empty queue. -/
def referencePage (s : State) (page : Int) : Option State :=
  if page ∈ s.frameSet then
    some { s with frameHistory := s.frameHistory ++ [s.frameQueue] }
  else
    if toSizeT s.numFrames ≤ s.frameQueue.length then
      match s.frameQueue with
      | [] => none
      | removedPage :: rest =>
        some { numFrames := s.numFrames
               frameQueue := rest ++ [page]
               frameSet := insert page (s.frameSet.erase removedPage)
               pageFaults := s.pageFaults + 1
               frameHistory := s.frameHistory ++ [rest ++ [page]] }
    else
      some { numFrames := s.numFrames
             frameQueue := s.frameQueue ++ [page]
             frameSet := insert page s.frameSet
             pageFaults := s.pageFaults + 1
             frameHistory := s.frameHistory ++ [s.frameQueue ++ [page]] }

/-- The loop `for (int page : referenceString) referencePage(page);` of `simulate`. -/
def simulate (s : State) : List Int → Option State
  | [] => some s
  | page :: rest => (referencePage s page).bind (fun s1 => simulate s1 rest)

/-- The representation invariant of the queue and the set of resident pages. -/
def Inv (s : State) : Prop :=
  (s.frameQueue.length : Int) ≤ s.numFrames ∧ s.frameQueue.Nodup ∧
    s.frameSet = s.frameQueue.toFinset

end PageReplacementFIFO

/-! ## Helpers shared by the frame-vector simulators (`lab9-2.cpp`, `LAB9/LAB9-3.cpp`)

Both classes keep `vector<int> frames` of size `numFrames` (set by `resize` in the
constructor and never changed), so the loops `for (int i = 0; i < numFrames; i++)` over
`frames[i]` are recursions over the list `frames`. -/

/-- Body of `findEmptyFrame()`, started at index `i`: the first index whose frame holds `-1`,
or `-1` when there is none. -/
def findEmptyFrameFrom (i : Nat) : List Int → Int
  | [] => -1
  | f :: rest => if f = -1 then (i : Int) else findEmptyFrameFrom (i + 1) rest

/-- The loop `for i: if (frames[i] == victim) { frames[i] = page; break; }`. -/
def replaceFirst (victim page : Int) : List Int → List Int
  | [] => []
  | f :: rest => if f = victim then page :: rest else f :: replaceFirst victim page rest

/-- The occupied frames: the entries of `frames` other than the empty marker `-1`. -/
def occupied (frames : List Int) : List Int := frames.filter (fun q => decide (q ≠ -1))

/-! ## `lab9-2.cpp`: `FIFOPageReplacement` -/

namespace FIFOPageReplacement

/-- Data members of `class FIFOPageReplacement`. -/
structure State where
  numFrames : Int
  frames : List Int
  fifoQueue : List Int
  pageFaults : Int
  totalReferences : Int

/-- Constructor `FIFOPageReplacement(int frames)`: `frames.resize(frames, -1)` throws
`std::length_error` for a negative count (converted to a huge `size_t`). -/
def new (frames : Int) : Option State :=
  if frames < 0 then none
  else some { numFrames := frames, frames := List.replicate frames.toNat (-1), fifoQueue := [],
              pageFaults := 0, totalReferences := 0 }

/-- Method `isPageInMemory(int page)`. -/
def isPageInMemory (s : State) (page : Int) : Bool := decide (page ∈ s.frames)

/-- Method `findEmptyFrame()`. -/
def findEmptyFrame (s : State) : Int := findEmptyFrameFrom 0 s.frames

/-- Method `referencePage(int page)`; `none` is `fifoQueue.front()` on an empty queue. -/
def referencePage (s : State) (page : Int) : Option State :=
  let s1 := { s with totalReferences := s.totalReferences + 1 }
  if isPageInMemory s1 page then some s1
  else
    let s2 := { s1 with pageFaults := s1.pageFaults + 1 }
    let emptyFrame := findEmptyFrame s2
    if emptyFrame ≠ -1 then
      some { s2 with frames := s2.frames.set emptyFrame.toNat page
                     fifoQueue := s2.fifoQueue ++ [page] }
    else
      match s2.fifoQueue with
      | [] => none
      | victimPage :: rest =>
        some { s2 with frames := replaceFirst victimPage page s2.frames
                       fifoQueue := rest ++ [page] }

/-- Method `processReferenceString(refString)`. -/
def processReferenceString (s : State) : List Int → Option State
  | [] => some s
  | page :: rest => (referencePage s page).bind (fun s1 => processReferenceString s1 rest)

/-- Page faults shown by `displayStatistics()` after
`FIFOPageReplacement f(frames); f.processReferenceString(refString);`. -/
def faults (frames : Int) (refString : List Int) : Option Int :=
  ((new frames).bind (fun s => processReferenceString s refString)).map (fun s => s.pageFaults)

end FIFOPageReplacement

/-! ## `LAB9/LAB9-3.cpp`: `LRUPageReplacement` -/

namespace LRUPageReplacement

/-- Data members of `class LRUPageReplacement`. -/
structure State where
  numFrames : Int
  frames : List Int
  lastAccessTime : Int → Int
  currentTime : Int
  pageFaults : Int
  totalReferences : Int

/-- Constructor `LRUPageReplacement(int frames)`: `frames.resize(frames, -1)` throws
`std::length_error` for a negative count. -/
def new (frames : Int) : Option State :=
  if frames < 0 then none
  else some { numFrames := frames, frames := List.replicate frames.toNat (-1),
              lastAccessTime := fun _ => 0, currentTime := 0, pageFaults := 0,
              totalReferences := 0 }

/-- Method `isPageInMemory(int page)`. -/
def isPageInMemory (s : State) (page : Int) : Bool := decide (page ∈ s.frames)

/-- Method `findEmptyFrame()`. -/
def findEmptyFrame (s : State) : Int := findEmptyFrameFrom 0 s.frames

/-- One iteration of the loop of `findLRUPage()` on the pair `(lruPage, minTime)`. -/
def lruStep (last : Int → Int) (acc : Int × Int) (page : Int) : Int × Int :=
  if page ≠ -1 ∧ last page < acc.2 then (page, last page) else acc

/-- Method `findLRUPage()`. -/
def findLRUPage (s : State) : Int :=
  (s.frames.foldl (lruStep s.lastAccessTime) (-1, INT_MAX)).1

/-- Method `referencePage(int page)`. -/
def referencePage (s : State) (page : Int) : State :=
  let s1 := { s with totalReferences := s.totalReferences + 1
                     currentTime := s.currentTime + 1 }
  let s2 := { s1 with
    lastAccessTime := fun q => if q = page then s1.currentTime else s1.lastAccessTime q }
  if isPageInMemory s2 page then s2
  else
    let s3 := { s2 with pageFaults := s2.pageFaults + 1 }
    let emptyFrame := findEmptyFrame s3
    if emptyFrame ≠ -1 then
      { s3 with frames := s3.frames.set emptyFrame.toNat page }
    else
      let lruPage := findLRUPage s3
      { s3 with frames := replaceFirst lruPage page s3.frames }

/-- Method `processReferenceString(refString)`. -/
def processReferenceString (s : State) (refString : List Int) : State :=
  refString.foldl referencePage s

/-- Value of `getPageFaults()` after
`LRUPageReplacement l(frames); l.processReferenceString(refString);`. -/
def faults (frames : Int) (refString : List Int) : Option Int :=
  (new frames).map (fun s => (processReferenceString s refString).pageFaults)

/-- Invariant tying the frames to the recency stack `st` (the distinct pages referenced so far,
most recent first): the occupied frames are the first `frames.length` pages of the stack. -/
def StackInv (s : State) (st : List Int) : Prop :=
  0 ≤ s.currentTime ∧ st.Nodup ∧ (∀ q ∈ st, 0 ≤ q) ∧
  st.Pairwise (fun a b => s.lastAccessTime b < s.lastAccessTime a) ∧
  (∀ q ∈ st, 0 < s.lastAccessTime q ∧ s.lastAccessTime q ≤ s.currentTime) ∧
  (occupied s.frames).Perm (st.take s.frames.length)

/-- The recency stack after `refs`: every reference moves its page to the top. -/
def lruStackFrom (st : List Int) (refs : List Int) : List Int :=
  refs.foldl (fun acc p => p :: acc.erase p) st

/-- Specification of the most recent reference: scanning `refs` (whose first element has
position `i`), the position of the last reference to page `q`; `acc` is the value before the
scan. -/
def lastReferenceFrom (q : Int) : Nat → Option Nat → List Int → Option Nat
  | _, acc, [] => acc
  | i, acc, p :: rest => lastReferenceFrom q (i + 1) (if p = q then some i else acc) rest

/-- Position in `refs` (counted from 0) of the most recent reference to page `q`. -/
def lastReference (refs : List Int) (q : Int) : Option Nat := lastReferenceFrom q 0 none refs

/-- The timestamps of `s` are the positions `acc` of the most recent references, plus one;
a page that was never referenced reads `0`. -/
def TimesAgree (s : State) (acc : Int → Option Nat) : Prop :=
  ∀ q, s.lastAccessTime q = match acc q with
    | none => 0
    | some k => (k : Int) + 1

end LRUPageReplacement

namespace PageReplacementFIFO

/-- Specification of the load time of page `q`: scanning `refs` from state `s` (reached after
`i` references), the position of the last reference to `q` that was a page fault, i.e. the
reference that loaded the copy of `q` now in memory; `acc` is the value before the scan. -/
def loadTimeFrom (q : Int) : State → Nat → Option Nat → List Int → Option Nat
  | _, _, acc, [] => acc
  | s, i, acc, page :: rest =>
    match referencePage s page with
    | none => none
    | some s1 =>
      loadTimeFrom q s1 (i + 1) (if page = q ∧ page ∉ s.frameSet then some i else acc) rest

/-- Load time of `q` after `refs` were referenced on a fresh `PageReplacementFIFO(numFrames)`. -/
def loadTime (numFrames : Int) (refs : List Int) (q : Int) : Option Nat :=
  loadTimeFrom q (new numFrames) 0 none refs

/-- Page `a` was loaded strictly before page `b` according to the table `lt` of load times. -/
def LoadedBefore (lt : Int → Option Nat) (a b : Int) : Prop :=
  ∃ ta tb, lt a = some ta ∧ lt b = some tb ∧ ta < tb

/-- The queue lists the resident pages in the order of their load times, all before `i`. -/
def LoadInv (s : State) (i : Nat) (lt : Int → Option Nat) : Prop :=
  s.frameQueue.Pairwise (LoadedBefore lt) ∧ ∀ q ∈ s.frameQueue, ∃ t, lt q = some t ∧ t < i

end PageReplacementFIFO

/-! ## `LAB9-5.cpp`: `TLBSimulator`

`vector<TLBEntry> tlb` has size `tlbSize` (set by `resize` in the constructor and never
changed), so the loops `for (int i = 0; i < tlbSize; i++)` over `tlb[i]` are recursions over
the list `tlb`. -/

namespace TLBSimulator

/-- Data members of `struct TLBEntry`. -/
structure TLBEntry where
  pageNumber : Int
  frameNumber : Int
  lastAccessTime : Int
  valid : Bool

/-- Default constructor `TLBEntry()`. -/
def TLBEntry.empty : TLBEntry :=
  { pageNumber := -1, frameNumber := -1, lastAccessTime := 0, valid := false }

/-- Data members of `class TLBSimulator`; `pageTable` is the `map<int,int>` read through
`find` and `operator[]`. -/
structure State where
  tlbSize : Int
  tlb : List TLBEntry
  pageTable : Int → Option Int
  currentTime : Int
  tlbHits : Int
  tlbMisses : Int
  totalAccesses : Int

/-- Constructor `TLBSimulator(int size)`: `tlb.resize(size)` throws `std::length_error` for a
negative size. -/
def new (size : Int) : Option State :=
  if size < 0 then none
  else some { tlbSize := size, tlb := List.replicate size.toNat TLBEntry.empty,
              pageTable := fun _ => none, currentTime := 0, tlbHits := 0, tlbMisses := 0,
              totalAccesses := 0 }

/-- Method `initializePageTable(pt)`. -/
def initializePageTable (s : State) (pt : Int → Option Int) : State :=
  { s with pageTable := pt }

/-- Body of `findInTLB(pageNumber)`, started at index `i`. -/
def findInTLBFrom (pageNumber : Int) (i : Nat) : List TLBEntry → Int
  | [] => -1
  | e :: rest =>
    if e.valid = true ∧ e.pageNumber = pageNumber then (i : Int)
    else findInTLBFrom pageNumber (i + 1) rest

/-- Method `findInTLB(pageNumber)`. -/
def findInTLB (s : State) (pageNumber : Int) : Int := findInTLBFrom pageNumber 0 s.tlb

/-- Body of `findEmptyTLBEntry()`, started at index `i`. -/
def findEmptyTLBEntryFrom (i : Nat) : List TLBEntry → Int
  | [] => -1
  | e :: rest => if e.valid = false then (i : Int) else findEmptyTLBEntryFrom (i + 1) rest

/-- Method `findEmptyTLBEntry()`. -/
def findEmptyTLBEntry (s : State) : Int := findEmptyTLBEntryFrom 0 s.tlb

/-- The loop of `findLRUEntry()` from index `i` on, with the current `lruIndex` and `minTime`;
the list holds `tlb[i]`, `tlb[i+1]`, ... -/
def findLRUEntryLoop : Nat → Nat → Int → List TLBEntry → Nat
  | _, lruIndex, _, [] => lruIndex
  | i, lruIndex, minTime, e :: rest =>
    if e.lastAccessTime < minTime then findLRUEntryLoop (i + 1) i e.lastAccessTime rest
    else findLRUEntryLoop (i + 1) lruIndex minTime rest

/-- Method `findLRUEntry()`; `none` is the read of `tlb[0]` in an empty vector. -/
def findLRUEntry (s : State) : Option Nat :=
  match s.tlb with
  | [] => none
  | e0 :: rest => some (findLRUEntryLoop 1 0 e0.lastAccessTime rest)

/-- The four assignments to `tlb[index]` at the end of `addToTLB`. -/
def writeEntry (s : State) (index : Nat) (pageNumber frameNumber : Int) : State :=
  { s with tlb := s.tlb.set index { pageNumber := pageNumber, frameNumber := frameNumber,
                                    lastAccessTime := s.currentTime, valid := true } }

/-- Method `addToTLB(pageNumber, frameNumber)`. -/
def addToTLB (s : State) (pageNumber frameNumber : Int) : Option State :=
  let index := findEmptyTLBEntry s
  if index = -1 then
    (findLRUEntry s).map (fun lru => writeEntry s lru pageNumber frameNumber)
  else some (writeEntry s index.toNat pageNumber frameNumber)

/-- Method `translate(pageNumber)`: the new state and the returned frame number. -/
def translate (s : State) (pageNumber : Int) : Option (State × Int) :=
  let s1 := { s with totalAccesses := s.totalAccesses + 1, currentTime := s.currentTime + 1 }
  let tlbIndex := findInTLB s1 pageNumber
  if tlbIndex ≠ -1 then
    match s1.tlb[tlbIndex.toNat]? with
    | none => none
    | some e =>
      some ({ s1 with tlbHits := s1.tlbHits + 1
                      tlb := s1.tlb.set tlbIndex.toNat
                        { e with lastAccessTime := s1.currentTime } },
            e.frameNumber)
  else
    let s2 := { s1 with tlbMisses := s1.tlbMisses + 1 }
    match s2.pageTable pageNumber with
    | some frameNumber =>
      (addToTLB s2 pageNumber frameNumber).map (fun s3 => (s3, frameNumber))
    | none => some (s2, -1)

end TLBSimulator

namespace TLBSimulator

/-- Every valid TLB entry agrees with the page table. -/
def Coherent (s : State) : Prop :=
  ∀ e ∈ s.tlb, e.valid = true → s.pageTable e.pageNumber = some e.frameNumber

/-- States of a `TLBSimulator` that was constructed, given its page table with
`initializePageTable`, and then used through `translate`. -/
inductive Reachable : State → Prop
  | init (size : Int) (s0 : State) (pt : Int → Option Int) :
      new size = some s0 → Reachable (initializePageTable s0 pt)
  | step (s s1 : State) (pageNumber r : Int) :
      Reachable s → translate s pageNumber = some (s1, r) → Reachable s1

/-- States of a `TLBSimulator` reached from the constructor by calls of the public methods
`initializePageTable` and `translate` in any order. -/
inductive Used : State → Prop
  | init (size : Int) (s0 : State) : new size = some s0 → Used s0
  | table (s : State) (pt : Int → Option Int) : Used s → Used (initializePageTable s pt)
  | step (s s1 : State) (pageNumber r : Int) :
      Used s → translate s pageNumber = some (s1, r) → Used s1

end TLBSimulator

/-! ## `LAB-8.4TLB.cpp`: `TLB` and `MemorySystem` -/

/-- The constant `const int TLB_SIZE = 8;`. -/
def TLB_SIZE : Int := 8

namespace TLB

/-- Data members of `struct TLBEntry`. -/
structure TLBEntry where
  pageNumber : Int
  frameNumber : Int

/-- Data members of `class TLB`. `tlbCache` is the `std::list`, most recently used entry at
the head. `tlbMap` maps a page number to an iterator into `tlbCache`: the embedding keeps its
set of keys and reads the iterator stored under the key `p` as the first entry of `tlbCache`
whose page number is `p`. -/
structure State where
  tlbCache : List TLBEntry
  tlbMap : Finset Int
  hits : Int
  misses : Int

/-- Constructor `TLB()`. -/
def new : State := { tlbCache := [], tlbMap := ∅, hits := 0, misses := 0 }

/-- Unlinks the entry designated by the iterator stored under key `p`: the entry and the
rest of the list, or `none` when no entry has page number `p` (a dangling iterator). -/
def detach (p : Int) : List TLBEntry → Option (TLBEntry × List TLBEntry)
  | [] => none
  | e :: rest =>
    if e.pageNumber = p then some (e, rest)
    else (detach p rest).map (fun r => (r.1, e :: r.2))

/-- Method `lookup(pageNumber)`: the new state and the returned frame number (`-1` on a
miss); the `splice` moves the entry found to the front. -/
def lookup (s : State) (pageNumber : Int) : Option (State × Int) :=
  if pageNumber ∈ s.tlbMap then
    (detach pageNumber s.tlbCache).map (fun r =>
      ({ s with hits := s.hits + 1, tlbCache := r.1 :: r.2 }, r.1.frameNumber))
  else
    some ({ s with misses := s.misses + 1 }, -1)

/-- Method `insert(pageNumber, frameNumber)`. -/
def insert (s : State) (pageNumber frameNumber : Int) : Option State :=
  if pageNumber ∈ s.tlbMap then
    (detach pageNumber s.tlbCache).map (fun r =>
      { s with tlbCache := { r.1 with frameNumber := frameNumber } :: r.2 })
  else
    let s1 : Option State :=
      if toSizeT TLB_SIZE ≤ s.tlbCache.length then
        s.tlbCache.getLast?.map (fun back =>
          { s with tlbMap := s.tlbMap.erase back.pageNumber
                   tlbCache := s.tlbCache.dropLast })
      else some s
    s1.map (fun s2 =>
      { s2 with tlbCache := { pageNumber := pageNumber, frameNumber := frameNumber } ::
                  s2.tlbCache
                tlbMap := Insert.insert pageNumber s2.tlbMap })

/-- Method `reset()`. -/
def reset (s : State) : State := { s with hits := 0, misses := 0 }

/-- Representation invariant of a `TLB` used in front of the page table `pt`: the keys of
`tlbMap` are the page numbers in `tlbCache`, no page is cached twice, and every cached entry
agrees with `pt`. -/
def Inv (pt : Int → Option Int) (s : State) : Prop :=
  (∀ q, q ∈ s.tlbMap ↔ ∃ e ∈ s.tlbCache, e.pageNumber = q) ∧
  (s.tlbCache.map (fun e => e.pageNumber)).Nodup ∧
  (∀ e ∈ s.tlbCache, pt e.pageNumber = some e.frameNumber)

end TLB

namespace MemorySystem

/-- Data members of `class MemorySystem`; `pageTable` is the `unordered_map<int,int>`. -/
structure State where
  tlb : TLB.State
  pageTable : Int → Option Int

/-- The page table filled in by the constructor `MemorySystem()`. -/
def initialPageTable (p : Int) : Option Int :=
  if p = 0 then some 5
  else if p = 1 then some 2
  else if p = 2 then some 8
  else if p = 3 then some 1
  else if p = 4 then some 9
  else if p = 5 then some 3
  else if p = 6 then some 7
  else if p = 7 then some 4
  else none

/-- Constructor `MemorySystem()`. -/
def new : State := { tlb := TLB.new, pageTable := initialPageTable }

/-- Method `translateAddress(pageNumber)`: the new state and the returned frame number. -/
def translateAddress (s : State) (pageNumber : Int) : Option (State × Int) :=
  (TLB.lookup s.tlb pageNumber).bind (fun r =>
    if r.2 = -1 then
      match s.pageTable pageNumber with
      | some frame =>
        (TLB.insert r.1 pageNumber frame).map (fun t => ({ s with tlb := t }, frame))
      | none => some ({ s with tlb := r.1 }, -1)
    else some ({ s with tlb := r.1 }, r.2))

/-- States of a `MemorySystem` reached from the constructor through `translateAddress`. -/
inductive Reachable : State → Prop
  | init : Reachable new
  | step (s s1 : State) (pageNumber r : Int) :
      Reachable s → translateAddress s pageNumber = some (s1, r) → Reachable s1

end MemorySystem

namespace TLB

/-- Representation invariant of `class TLB`: the keys of `tlbMap` are the page numbers in
`tlbCache`, and no page is cached twice. -/
def WF (s : State) : Prop :=
  (∀ q, q ∈ s.tlbMap ↔ ∃ e ∈ s.tlbCache, e.pageNumber = q) ∧
  (s.tlbCache.map (fun e => e.pageNumber)).Nodup

/-- A call of `lookup` or of `insert`. -/
inductive Op where
  | lookup (pageNumber : Int)
  | insert (pageNumber frameNumber : Int)

/-- Replays a sequence of `lookup`/`insert` calls: the final state and the values returned
by the lookups, in order. -/
def replay : State → List Op → Option (State × List Int)
  | s, [] => some (s, [])
  | s, Op.lookup p :: rest =>
    (lookup s p).bind (fun r => (replay r.1 rest).map (fun q => (q.1, r.2 :: q.2)))
  | s, Op.insert p f :: rest => (insert s p f).bind (fun s1 => replay s1 rest)

/-- The state `s` with its two counters lowered by `dh` and `dm`. -/
def shift (dh dm : Int) (s : State) : State :=
  { s with hits := s.hits - dh, misses := s.misses - dm }

/-- States of a `TLB` reached from the constructor through its public methods. -/
inductive Reachable : State → Prop
  | init : Reachable new
  | lookup (s s1 : State) (p r : Int) : Reachable s → lookup s p = some (s1, r) → Reachable s1
  | insert (s s1 : State) (p f : Int) : Reachable s → insert s p f = some s1 → Reachable s1
  | reset (s : State) : Reachable s → Reachable (reset s)

end TLB

/-! ## `LAB9-1.cpp`: `PageTableEntry` and `PageTable`

`vector<PageTableEntry> entries` has size `numPages` (set by `resize` in the constructor and
never changed); every access `entries[pageNumber]` is guarded by
`0 <= pageNumber < numPages`. -/

namespace PageTable

/-- Data members of `class PageTableEntry`. -/
structure PageTableEntry where
  frameNumber : Int
  valid : Bool
  dirty : Bool
  referenced : Bool
deriving DecidableEq

/-- Constructor `PageTableEntry()`. -/
def PageTableEntry.empty : PageTableEntry :=
  { frameNumber := -1, valid := false, dirty := false, referenced := false }

/-- Data members of `class PageTable`. -/
structure State where
  entries : List PageTableEntry
  pageSize : Int
  numPages : Int
deriving DecidableEq

/-- Constructor `PageTable(int numPages, int pageSize)`: `entries.resize(numPages)` throws
`std::length_error` for a negative count. -/
def new (numPages pageSize : Int) : Option State :=
  if numPages < 0 then none
  else some { entries := List.replicate numPages.toNat PageTableEntry.empty,
              pageSize := pageSize, numPages := numPages }

/-- The update `entries[i] = f(entries[i])` of one entry. -/
def modifyAt (f : PageTableEntry → PageTableEntry) : Nat → List PageTableEntry →
    List PageTableEntry
  | _, [] => []
  | 0, e :: rest => f e :: rest
  | i + 1, e :: rest => e :: modifyAt f i rest

/-- Method `addMapping(pageNumber, frameNumber)`. -/
def addMapping (s : State) (pageNumber frameNumber : Int) : State :=
  if 0 ≤ pageNumber ∧ pageNumber < s.numPages then
    { s with entries := (modifyAt (fun e => { e with frameNumber := frameNumber, valid := true })
        pageNumber.toNat s.entries) }
  else s

/-- Method `removeMapping(pageNumber)`. -/
def removeMapping (s : State) (pageNumber : Int) : State :=
  if 0 ≤ pageNumber ∧ pageNumber < s.numPages then
    { s with entries := modifyAt (fun e => { e with valid := false }) pageNumber.toNat s.entries }
  else s

/-- Method `translate(virtualAddress)`: the new state and the returned physical address
(`-1` on failure). `/` and `%` of C++ truncate towards zero (`Int.tdiv`, `Int.tmod`); `none`
is the division by a zero `pageSize`, the division of `INT_MIN` by `-1`, an index outside
`entries`, or a product `frameNumber * pageSize` or a sum `frameNumber * pageSize + offset`
that is not a value of an `int`. -/
def translate (s : State) (virtualAddress : Int) : Option (State × Int) :=
  if s.pageSize = 0 ∨ (virtualAddress = INT_MIN ∧ s.pageSize = -1) then none
  else
    let pageNumber := Int.tdiv virtualAddress s.pageSize
    let offset := Int.tmod virtualAddress s.pageSize
    if pageNumber < 0 ∨ pageNumber ≥ s.numPages then some (s, -1)
    else
      match s.entries[pageNumber.toNat]? with
      | none => none
      | some e =>
        if e.valid = false then some (s, -1)
        else
          let product := e.frameNumber * s.pageSize
          let physicalAddress := product + offset
          if fitsInt product = false ∨ fitsInt physicalAddress = false then none
          else
            some ({ s with entries := (modifyAt (fun x => { x with referenced := true })
                      pageNumber.toNat s.entries) },
                  physicalAddress)

/-- Method `write(virtualAddress)`; `none` is the division by a zero `pageSize`, the division
of `INT_MIN` by `-1`, or an index outside `entries`. -/
def write (s : State) (virtualAddress : Int) : Option State :=
  if s.pageSize = 0 ∨ (virtualAddress = INT_MIN ∧ s.pageSize = -1) then none
  else
    let pageNumber := Int.tdiv virtualAddress s.pageSize
    if 0 ≤ pageNumber ∧ pageNumber < s.numPages then
      match s.entries[pageNumber.toNat]? with
      | none => none
      | some e =>
        if e.valid = true then
          some { s with entries := (modifyAt
                   (fun x => { x with dirty := true, referenced := true })
                   pageNumber.toNat s.entries) }
        else some s
    else some s

/-- The page table built at the start of `main`: 16 pages of 512 bytes with the mappings
0→5, 1→2, 2→10, 3→7, 5→3. -/
def mainTable : Option State :=
  (new 16 512).map (fun s =>
    addMapping (addMapping (addMapping (addMapping (addMapping s 0 5) 1 2) 2 10) 3 7) 5 3)

end PageTable

/-! ## `LAB-8.2MEMORY ALLOCATION SIMULATOR .cpp`: `MemoryManager`

The state of a `MemoryManager` is its `vector<MemoryBlock> blocks`, a `List MemoryBlock`. -/

namespace MemoryManager

/-- Data members of `struct MemoryBlock`. -/
structure MemoryBlock where
  startAddress : Int
  size : Int
  isFree : Bool
  processID : Int
deriving DecidableEq

/-- The member `const int TOTAL_MEMORY = 1048576;`. -/
def TOTAL_MEMORY : Int := 1048576

/-- Constructor `MemoryManager()`: one free block of `TOTAL_MEMORY` bytes (the `MemoryBlock`
constructor defaults `processID` to `-1`). -/
def new : List MemoryBlock :=
  [{ startAddress := 0, size := TOTAL_MEMORY, isFree := true, processID := -1 }]

/-- The allocation out of the chosen block `b` (the `if (blocks[i].size > size) ... else ...`
shared by the three allocators): the allocated block, followed by the free remainder when
the block is larger than the request. -/
def allocateFrom (b : MemoryBlock) (processID size : Int) : List MemoryBlock :=
  if b.size > size then
    [{ b with size := size, isFree := false, processID := processID },
     { startAddress := b.startAddress + size, size := b.size - size, isFree := true,
       processID := -1 }]
  else
    [{ b with isFree := false, processID := processID }]

/-- Method `allocateFirstFit(processID, size)`: the new block list and the returned flag. -/
def allocateFirstFit (processID size : Int) : List MemoryBlock → List MemoryBlock × Bool
  | [] => ([], false)
  | b :: rest =>
    if b.isFree = true ∧ b.size ≥ size then (allocateFrom b processID size ++ rest, true)
    else ((b :: (allocateFirstFit processID size rest).1),
          (allocateFirstFit processID size rest).2)

/-- The search loop of `allocateBestFit` from index `i` on, with the current `bestIndex` and
`bestSize`; the list holds `blocks[i]`, `blocks[i+1]`, ... -/
def bestFitLoop (size : Int) : Nat → Int → Int → List MemoryBlock → Int
  | _, bestIndex, _, [] => bestIndex
  | i, bestIndex, bestSize, b :: rest =>
    if b.isFree = true ∧ b.size ≥ size ∧ b.size < bestSize then
      bestFitLoop size (i + 1) (i : Int) b.size rest
    else bestFitLoop size (i + 1) bestIndex bestSize rest

/-- The search loop of `allocateWorstFit` from index `i` on. -/
def worstFitLoop (size : Int) : Nat → Int → Int → List MemoryBlock → Int
  | _, worstIndex, _, [] => worstIndex
  | i, worstIndex, worstSize, b :: rest =>
    if b.isFree = true ∧ b.size ≥ size ∧ b.size > worstSize then
      worstFitLoop size (i + 1) (i : Int) b.size rest
    else worstFitLoop size (i + 1) worstIndex worstSize rest

/-- The allocation out of `blocks[index]`, the second half of `allocateBestFit` and of
`allocateWorstFit`. -/
def allocateAt (blocks : List MemoryBlock) (index : Nat) (processID size : Int) :
    List MemoryBlock :=
  match blocks[index]? with
  | none => blocks
  | some b => blocks.take index ++ allocateFrom b processID size ++ blocks.drop (index + 1)

/-- Method `allocateBestFit(processID, size)`. -/
def allocateBestFit (processID size : Int) (blocks : List MemoryBlock) :
    List MemoryBlock × Bool :=
  let bestIndex := bestFitLoop size 0 (-1) (TOTAL_MEMORY + 1) blocks
  if bestIndex = -1 then (blocks, false)
  else (allocateAt blocks bestIndex.toNat processID size, true)

/-- Method `allocateWorstFit(processID, size)`. -/
def allocateWorstFit (processID size : Int) (blocks : List MemoryBlock) :
    List MemoryBlock × Bool :=
  let worstIndex := worstFitLoop size 0 (-1) (-1) blocks
  if worstIndex = -1 then (blocks, false)
  else (allocateAt blocks worstIndex.toNat processID size, true)

/-- The loop of `mergeAdjacentFreeBlocks()` standing at `blocks[i] = b`, with the blocks after
it: two free neighbours are merged into `blocks[i]` (and `i` stays), otherwise `i` advances. -/
def mergeLoop : MemoryBlock → List MemoryBlock → List MemoryBlock
  | b, [] => [b]
  | b, c :: rest =>
    if b.isFree = true ∧ c.isFree = true then mergeLoop { b with size := b.size + c.size } rest
    else b :: mergeLoop c rest

/-- Method `mergeAdjacentFreeBlocks()`; on an empty vector `blocks.size() - 1` wraps around
and `blocks[0]` is read: `none`. -/
def mergeAdjacentFreeBlocks : List MemoryBlock → Option (List MemoryBlock)
  | [] => none
  | b :: rest => some (mergeLoop b rest)

/-- The first loop of `deallocate(processID)`: every block of the process becomes free. -/
def freeBlocks (processID : Int) (blocks : List MemoryBlock) : List MemoryBlock :=
  blocks.map (fun b =>
    if b.isFree = false ∧ b.processID = processID then
      { b with isFree := true, processID := -1 }
    else b)

/-- The flag `found` of `deallocate(processID)`. -/
def found (processID : Int) (blocks : List MemoryBlock) : Bool :=
  blocks.any (fun b => decide (b.isFree = false ∧ b.processID = processID))

/-- Method `deallocate(processID)`. -/
def deallocate (processID : Int) (blocks : List MemoryBlock) : Option (List MemoryBlock) :=
  if found processID blocks = true then mergeAdjacentFreeBlocks (freeBlocks processID blocks)
  else some blocks

/-- Block `b` is free and large enough for a request of `size` bytes. -/
def Fits (size : Int) (b : MemoryBlock) : Prop := b.isFree = true ∧ size ≤ b.size

/-- The blocks `l` tile the address range from `a` to `z`: each block starts where the
previous one ends and has a positive size. -/
def Tiles : Int → List MemoryBlock → Int → Prop
  | a, [], z => a = z
  | a, b :: rest, z => b.startAddress = a ∧ 0 < b.size ∧ Tiles (a + b.size) rest z

/-- States of a `MemoryManager` reached from the constructor by allocations of a positive
number of bytes and by deallocations. -/
inductive Reachable : List MemoryBlock → Prop
  | init : Reachable new
  | firstFit (blocks : List MemoryBlock) (processID size : Int) :
      Reachable blocks → 0 < size → Reachable (allocateFirstFit processID size blocks).1
  | bestFit (blocks : List MemoryBlock) (processID size : Int) :
      Reachable blocks → 0 < size → Reachable (allocateBestFit processID size blocks).1
  | worstFit (blocks : List MemoryBlock) (processID size : Int) :
      Reachable blocks → 0 < size → Reachable (allocateWorstFit processID size blocks).1
  | dealloc (blocks blocks1 : List MemoryBlock) (processID : Int) :
      Reachable blocks → deallocate processID blocks = some blocks1 → Reachable blocks1

end MemoryManager

/-! ## `LAB9-4.cpp`: `WorkingSetSimulator` -/

namespace WorkingSetSimulator

/-- Data members of `class WorkingSetSimulator`; a `set<int>` is a `Finset Int`. -/
structure State where
  windowSize : Int
  referenceString : List Int
  workingSets : List (Finset Int)
  workingSetSizes : List Int

/-- Constructor `WorkingSetSimulator(int delta)`. -/
def new (delta : Int) : State :=
  { windowSize := delta, referenceString := [], workingSets := [], workingSetSizes := [] }

/-- The loop `for (i = startTime; i <= currentTime; i++) ws.insert(referenceString[i]);`
standing at index `i` with `n` iterations left; `none` is an index outside the vector. -/
def insertLoop (referenceString : List Int) : Nat → Nat → Finset Int → Option (Finset Int)
  | _, 0, ws => some ws
  | i, n + 1, ws =>
    match referenceString[i]? with
    | none => none
    | some page => insertLoop referenceString (i + 1) n (insert page ws)

/-- Method `calculateWorkingSet(currentTime)`. -/
def calculateWorkingSet (s : State) (currentTime : Int) : Option (Finset Int) :=
  let startTime := max 0 (currentTime - s.windowSize)
  insertLoop s.referenceString startTime.toNat (currentTime - startTime + 1).toNat ∅

/-- Method `processReferenceString(refString)`. -/
def processReferenceString (s : State) (refString : List Int) : Option State :=
  let s1 := { s with referenceString := refString, workingSets := [], workingSetSizes := [] }
  ((List.range refString.length).mapM (fun t => calculateWorkingSet s1 (t : Int))).map
    (fun wss => { s1 with workingSets := wss
                          workingSetSizes := wss.map (fun ws => (ws.card : Int)) })

end WorkingSetSimulator

/-! ## `Lab9-6.cpp`: `MemoryMappedFile`

A `vector<char>` and a `string` are a `List Char`. `map<int, bool> pagesInMemory` is read and
written through `operator[]` only; it is the `Finset Int` of the keys whose value is `true`. -/

namespace MemoryMappedFile

/-- Constant `DISK_ACCESS_TIME`. -/
def DISK_ACCESS_TIME : Int := 1000

/-- Constant `MEMORY_ACCESS_TIME`. -/
def MEMORY_ACCESS_TIME : Int := 1

/-- Data members of `class MemoryMappedFile` (the file name is left out). -/
structure State where
  fileContent : List Char
  fileSize : Int
  pageSize : Int
  numPages : Int
  pagesInMemory : Finset Int
  pages : List (List Char)
  pageLoads : Int
  reads : Int
  totalReadTime : Int

/-- Constructor `MemoryMappedFile(file, pgSize)`. It leaves `fileSize` and `numPages`
uninitialised: their indeterminate values are the arguments `fileSize` and `numPages`. -/
def new (pgSize fileSize numPages : Int) : State :=
  { fileContent := [], fileSize := fileSize, pageSize := pgSize, numPages := numPages,
    pagesInMemory := ∅, pages := [], pageLoads := 0, reads := 0, totalReadTime := 0 }

/-- The text `sampleContent` of `initialize`. -/
def sampleContent : List Char :=
  ("This is a sample file for memory-mapped I/O demonstration. " ++
   "Memory-mapped files allow treating file content as if it were in memory. " ++
   "This provides efficient file access through demand paging. " ++
   "Pages are loaded only when accessed, reducing initial overhead. " ++
   "This is particularly useful for large files where only portions are needed. " ++
   "The operating system handles the complexity of loading and unloading pages. " ++
   "This technique is commonly used in databases, executables, and shared libraries. ").toList

/-- The call `pages.resize(n)` of `std::vector`. -/
def resize (pages : List (List Char)) (n : Nat) : List (List Char) :=
  pages.take n ++ List.replicate (n - pages.length) []

/-- The bytes that `initialize(content)` stores in `fileContent`: `content` when it is not
empty, else the content `file` of the file `filename` when it can be opened, else the sample
text. -/
def initialContent (content : List Char) (file : Option (List Char)) : List Char :=
  if content ≠ [] then content
  else match file with
    | some bytes => bytes
    | none => sampleContent

/-- Method `initialize(content)` (the name is a reserved word of Lean). `none` is undefined
behaviour or an exception: the size does not fit an `int`, the division by a page size of
zero, the overflow of `fileSize + pageSize - 1`, and `pages.resize` with a negative count
(`std::length_error`). -/
def initializeFile (s : State) (content : List Char) (file : Option (List Char)) :
    Option State :=
  let fileContent := initialContent content file
  let fileSize : Int := fileContent.length
  if INT_MAX < fileSize then none
  else if s.pageSize = 0 then none
  else if fileSize + s.pageSize - 1 < -INT_MAX - 1 ∨ INT_MAX < fileSize + s.pageSize - 1 then
    none
  else
    let numPages := Int.tdiv (fileSize + s.pageSize - 1) s.pageSize
    if numPages < 0 then none
    else some { s with fileContent := fileContent, fileSize := fileSize, numPages := numPages,
                       pages := resize s.pages numPages.toNat }

/-- The loop `for (int i = start; i < end; i++) out.push_back(fileContent[i]);` standing at
index `i` with `n` iterations left; `none` is an index outside the vector. -/
def copyLoop (fileContent : List Char) : Int → Nat → List Char → Option (List Char)
  | _, 0, acc => some acc
  | i, n + 1, acc =>
    if 0 ≤ i then
      match fileContent[i.toNat]? with
      | none => none
      | some c => copyLoop fileContent (i + 1) n (acc ++ [c])
    else none

/-- Method `loadPage(pageNumber)`; `none` is an index outside `fileContent` or `pages`. -/
def loadPage (s : State) (pageNumber : Int) : Option State :=
  if pageNumber < 0 ∨ pageNumber ≥ s.numPages then some s
  else if pageNumber ∈ s.pagesInMemory then some s
  else
    let startByte := pageNumber * s.pageSize
    let endByte := min (startByte + s.pageSize) s.fileSize
    match copyLoop s.fileContent startByte (endByte - startByte).toNat [] with
    | none => none
    | some pageContent =>
      if pageNumber.toNat < s.pages.length then
        some { s with pages := s.pages.set pageNumber.toNat pageContent
                      pagesInMemory := insert pageNumber s.pagesInMemory
                      pageLoads := s.pageLoads + 1
                      totalReadTime := s.totalReadTime + DISK_ACCESS_TIME }
      else none

/-- The loop `for (int p = startPage; p <= endPage; p++) { loadPage(p); totalReadTime +=
MEMORY_ACCESS_TIME; }` standing at page `p` with `n` iterations left. -/
def loadLoop : Int → Nat → State → Option State
  | _, 0, s => some s
  | p, n + 1, s =>
    match loadPage s p with
    | none => none
    | some s1 =>
      loadLoop (p + 1) n { s1 with totalReadTime := s1.totalReadTime + MEMORY_ACCESS_TIME }

/-- Method `read(offset, length)`: the new state and the string returned; `none` is the
division by a page size of zero or an index outside a vector. -/
def read (s : State) (offset length : Int) : Option (State × List Char) :=
  let s1 := { s with reads := s.reads + 1 }
  if offset < 0 ∨ offset ≥ s1.fileSize then some (s1, [])
  else
    let length := min length (s1.fileSize - offset)
    if s1.pageSize = 0 then none
    else
      let startPage := Int.tdiv offset s1.pageSize
      let endPage := Int.tdiv (offset + length - 1) s1.pageSize
      match loadLoop startPage (endPage - startPage + 1).toNat s1 with
      | none => none
      | some s2 =>
        match copyLoop s2.fileContent offset length.toNat [] with
        | none => none
        | some result => some (s2, result)

/-- What no call of `initialize` or `read` changes once `initialize` has returned: the page
size is not zero, `fileSize` is the size of `fileContent`, and `pages` has `numPages` slots. -/
def Inv (s : State) : Prop :=
  s.pageSize ≠ 0 ∧ s.fileSize = (s.fileContent.length : Int) ∧
    s.numPages = (s.pages.length : Int)

/-- The states of an initialised `MemoryMappedFile`: `initialize` has returned at least once
after the constructor; any calls of `initialize` and `read` may follow. -/
inductive Initialised : State → Prop
  | first (pgSize fileSize numPages : Int) (content : List Char) (file : Option (List Char))
      (s : State) :
      initializeFile (new pgSize fileSize numPages) content file = some s → Initialised s
  | again (s s1 : State) (content : List Char) (file : Option (List Char)) :
      Initialised s → initializeFile s content file = some s1 → Initialised s1
  | read (s s1 : State) (offset length : Int) (r : List Char) :
      Initialised s → read s offset length = some (s1, r) → Initialised s1

/-- The text `content` of test 1 of `main`. -/
def mainContent : List Char :=
  ("Memory-mapped files provide an efficient way to access file data. " ++
   "The file is divided into pages and loaded on demand. " ++
   "This reduces memory usage and improves performance for large files. " ++
   "Only the pages that are actually accessed need to be loaded. " ++
   "This is similar to how virtual memory works for program code and data.").toList

end MemoryMappedFile

/-! ## `Lab6-1.cpp`: the dining philosophers

`NUM_PHILOSOPHERS` is 5 in every class. Philosopher ids and chopstick indices are values of
`Fin 5`, whose addition is the addition modulo 5: `(id + 1) % NUM_PHILOSOPHERS` is `id + 1`.
The five threads `philosopher(0)`, ..., `philosopher(4)` started by `demonstrate()` run
interleaved: a state holds the shared variables and the local state of each thread, the
function `philosopher s id` is the next atomic step of thread `id` in state `s` (`none` when
the thread is blocked or has returned), and a run is a list of thread ids, the order in which
the threads take their steps. Thinking, eating and sleeping change no variable and are left
out. -/

/-! ### `DiningPhilosophersWaiter` -/

namespace DiningPhilosophersWaiter

/-- Local state of the thread `philosopher(id)`: the loop counter `meal` and whether the
thread stands between the return of `request_chopsticks(id)` and the call of
`return_chopsticks(id)`. -/
structure Thread where
  meal : Nat
  eating : Bool
deriving DecidableEq

/-- The shared array `chopstick_available` and the five threads. -/
structure State where
  chopstick_available : Fin 5 → Bool
  threads : Fin 5 → Thread

/-- State in which `demonstrate()` starts the threads: `fill(chopstick_available, ..., true)`,
every thread before its first iteration. -/
def init : State :=
  { chopstick_available := fun _ => true, threads := fun _ => { meal := 0, eating := false } }

/-- Function `can_eat(philosopher_id)`. -/
def can_eat (s : State) (philosopher_id : Fin 5) : Bool :=
  s.chopstick_available philosopher_id && s.chopstick_available (philosopher_id + 1)

/-- Function `request_chopsticks(philosopher_id)`, executed under `waiter_mutex` as one atomic
step; `none` when `can_eat` is false: `waiter_cv.wait` does not return in this state. -/
def request_chopsticks (s : State) (philosopher_id : Fin 5) : Option State :=
  if can_eat s philosopher_id then
    some { s with chopstick_available :=
      (Function.update (Function.update s.chopstick_available philosopher_id false)
        (philosopher_id + 1) false) }
  else none

/-- Function `return_chopsticks(philosopher_id)`, executed under `waiter_mutex`. -/
def return_chopsticks (s : State) (philosopher_id : Fin 5) : State :=
  { s with chopstick_available :=
      (Function.update (Function.update s.chopstick_available philosopher_id true)
        (philosopher_id + 1) true) }

/-- Next step of the thread `philosopher(id)`: `return_chopsticks(id)` and `++meal` when it is
eating, else `request_chopsticks(id)` when `meal < 3`; `none` when the request blocks or the
loop has ended. -/
def philosopher (s : State) (id : Fin 5) : Option State :=
  let t := s.threads id
  if t.eating then
    let s1 := return_chopsticks s id
    some { s1 with threads :=
      (Function.update s1.threads id { meal := t.meal + 1, eating := false }) }
  else if t.meal < 3 then
    match request_chopsticks s id with
    | none => none
    | some s1 =>
      some { s1 with threads :=
        (Function.update s1.threads id { meal := t.meal, eating := true }) }
  else none

/-- The state after the threads took their steps in the order `sched`, starting in `s`;
`none` when a thread of the list cannot take its step. -/
def run (s : State) : List (Fin 5) → Option State
  | [] => some s
  | id :: rest =>
    match philosopher s id with
    | none => none
    | some s1 => run s1 rest

/-- Invariant of the waiter: a chopstick is unavailable exactly when its left or its right
user is eating, and no two neighbours are eating. -/
def Inv (s : State) : Prop :=
  (∀ c, s.chopstick_available c = !((s.threads c).eating || (s.threads (c + 4)).eating)) ∧
  (∀ i, ¬ ((s.threads i).eating = true ∧ (s.threads (i + 1)).eating = true))

end DiningPhilosophersWaiter

/-! ### `DiningPhilosophersTimeout` -/

namespace DiningPhilosophersTimeout

/-- Program points of the thread `philosopher(id)`: `loop` is the test of the `while`, `first`
and `second` are the two calls of `try_lock_with_timeout`, `eat` is the point before
`chopsticks[right].unlock()` of a successful attempt and `unlockLeft` the point before its
`chopsticks[left].unlock()`, `backoff` is the point before `chopsticks[left].unlock()` after a
timeout on the second chopstick, `done` is the end of the function. -/
inductive PC where
  | loop | first | second | eat | unlockLeft | backoff | done
deriving DecidableEq

/-- Local variables of the thread `philosopher(id)`. -/
structure Thread where
  pc : PC
  meals_eaten : Int
  attempts : Int
deriving DecidableEq

/-- The mutexes `chopsticks` (`true` is locked), the atomic counters and the five threads. -/
structure State where
  chopsticks : Fin 5 → Bool
  successful_meals : Int
  timeouts : Int
  threads : Fin 5 → Thread

/-- State in which `demonstrate()` starts the threads: both counters are 0, every mutex is
free, every thread has `meals_eaten = 0` and `attempts = 0`. -/
def init : State :=
  { chopsticks := fun _ => false, successful_meals := 0, timeouts := 0,
    threads := fun _ => { pc := PC.loop, meals_eaten := 0, attempts := 0 } }

/-- The local variable `left` after `if (left > right) swap(left, right);`. -/
def left (id : Fin 5) : Fin 5 := if id > id + 1 then id + 1 else id

/-- The local variable `right` after `if (left > right) swap(left, right);`. -/
def right (id : Fin 5) : Fin 5 := if id > id + 1 then id else id + 1

/-- Next step of the thread `philosopher(id)`; `acquired` is the value returned by
`try_lock_with_timeout` when the step is such a call. The value `true` needs the mutex to be
free (`none` otherwise); the value `false` is possible in every state. `none` also when the
thread has returned. -/
def philosopher (s : State) (id : Fin 5) (acquired : Bool) : Option State :=
  let t := s.threads id
  match t.pc with
  | PC.loop =>
    if t.meals_eaten < 3 ∧ t.attempts < 10 then
      some { s with threads :=
        (Function.update s.threads id { t with pc := PC.first, attempts := t.attempts + 1 }) }
    else
      some { s with threads := (Function.update s.threads id { t with pc := PC.done }) }
  | PC.first =>
    if acquired then
      if s.chopsticks (left id) then none
      else
        some { s with chopsticks := (Function.update s.chopsticks (left id) true)
                      threads := (Function.update s.threads id { t with pc := PC.second }) }
    else
      some { s with timeouts := s.timeouts + 1
                    threads := (Function.update s.threads id { t with pc := PC.loop }) }
  | PC.second =>
    if acquired then
      if s.chopsticks (right id) then none
      else
        some { s with chopsticks := (Function.update s.chopsticks (right id) true)
                      successful_meals := s.successful_meals + 1
                      threads := (Function.update s.threads id
                        { t with pc := PC.eat, meals_eaten := t.meals_eaten + 1 }) }
    else
      some { s with timeouts := s.timeouts + 1
                    threads := (Function.update s.threads id { t with pc := PC.backoff }) }
  | PC.eat =>
    some { s with chopsticks := (Function.update s.chopsticks (right id) false)
                  threads := (Function.update s.threads id { t with pc := PC.unlockLeft }) }
  | PC.unlockLeft =>
    some { s with chopsticks := (Function.update s.chopsticks (left id) false)
                  threads := (Function.update s.threads id { t with pc := PC.loop }) }
  | PC.backoff =>
    some { s with chopsticks := (Function.update s.chopsticks (left id) false)
                  threads := (Function.update s.threads id { t with pc := PC.loop }) }
  | PC.done => none

/-- The state after the steps of `sched` (thread id and lock outcome), starting in `s`. -/
def run (s : State) : List (Fin 5 × Bool) → Option State
  | [] => some s
  | (id, acquired) :: rest =>
    match philosopher s id acquired with
    | none => none
    | some s1 => run s1 rest

/-- Number (0 or 1) of attempts of a thread that have begun and recorded no outcome yet. -/
def pending (t : Thread) : Int := if t.pc = PC.first ∨ t.pc = PC.second then 1 else 0

/-- Invariant of the counters. -/
def Inv (s : State) : Prop :=
  (∀ id, 0 ≤ (s.threads id).meals_eaten ∧ (s.threads id).meals_eaten ≤ 3 ∧
    0 ≤ (s.threads id).attempts ∧ (s.threads id).attempts ≤ 10 ∧
    (pending (s.threads id) = 1 → (s.threads id).meals_eaten < 3)) ∧
  s.successful_meals = ∑ id, (s.threads id).meals_eaten ∧
  s.successful_meals + s.timeouts + ∑ id, pending (s.threads id) =
    ∑ id, (s.threads id).attempts

/-- The run in which every call of `try_lock_with_timeout` times out: each thread makes its
10 attempts and leaves the loop. -/
def allTimeouts : List (Fin 5 × Bool) :=
  (List.finRange 5).flatMap (fun id => List.replicate 21 (id, false))

end DiningPhilosophersTimeout

/-! ### `Semaphore` and `DiningPhilosophersSemaphore` -/

namespace Semaphore

/-- Method `acquire()` on the counter `count`, as one atomic step; `none` when `count > 0` is
false: `cv.wait` does not return in this state. -/
def acquire (count : Int) : Option Int := if count > 0 then some (count - 1) else none

/-- Method `release()` on the counter `count`. -/
def release (count : Int) : Int := count + 1

end Semaphore

namespace DiningPhilosophersSemaphore

/-- Program points of the thread `philosopher(id)`, each named after the statement that the
thread executes next: `dining_semaphore.acquire()`, `chopsticks[left_chopstick].lock()`,
`chopsticks[right_chopstick].lock()`, `chopsticks[right_chopstick].unlock()` (the thread is
eating), `chopsticks[left_chopstick].unlock()` and `dining_semaphore.release()`. -/
inductive PC where
  | acquire | lockLeft | lockRight | unlockRight | unlockLeft | release
deriving DecidableEq

/-- Local state of the thread `philosopher(id)`: the program point and the loop counter
`meal`. -/
structure Thread where
  pc : PC
  meal : Nat
deriving DecidableEq

/-- The counter of `dining_semaphore`, the mutexes `chopsticks` (`true` is locked) and the
five threads. -/
structure State where
  count : Int
  chopsticks : Fin 5 → Bool
  threads : Fin 5 → Thread

/-- State in which `demonstrate()` starts the threads: the semaphore was constructed with
`NUM_PHILOSOPHERS - 1`, every mutex is free. -/
def init : State :=
  { count := 4, chopsticks := fun _ => false,
    threads := fun _ => { pc := PC.acquire, meal := 0 } }

/-- Next step of the thread `philosopher(id)`, with `left_chopstick = id` and
`right_chopstick = (id + 1) % NUM_PHILOSOPHERS`; `none` when the thread is blocked (in
`acquire()` or in `lock()` of a locked mutex) or when its loop has ended. The increment
`++meal` is part of the last step of the iteration. -/
def philosopher (s : State) (id : Fin 5) : Option State :=
  let t := s.threads id
  match t.pc with
  | PC.acquire =>
    if t.meal < 3 then
      match Semaphore.acquire s.count with
      | none => none
      | some count =>
        some { s with count := count
                      threads := (Function.update s.threads id { t with pc := PC.lockLeft }) }
    else none
  | PC.lockLeft =>
    if s.chopsticks id then none
    else
      some { s with chopsticks := (Function.update s.chopsticks id true)
                    threads := (Function.update s.threads id { t with pc := PC.lockRight }) }
  | PC.lockRight =>
    if s.chopsticks (id + 1) then none
    else
      some { s with chopsticks := (Function.update s.chopsticks (id + 1) true)
                    threads := (Function.update s.threads id { t with pc := PC.unlockRight }) }
  | PC.unlockRight =>
    some { s with chopsticks := (Function.update s.chopsticks (id + 1) false)
                  threads := (Function.update s.threads id { t with pc := PC.unlockLeft }) }
  | PC.unlockLeft =>
    some { s with chopsticks := (Function.update s.chopsticks id false)
                  threads := (Function.update s.threads id { t with pc := PC.release }) }
  | PC.release =>
    some { s with count := Semaphore.release s.count
                  threads := (Function.update s.threads id
                    { pc := PC.acquire, meal := t.meal + 1 }) }

/-- The state after the threads took their steps in the order `sched`, starting in `s`;
`none` when a thread of the list cannot take its step. -/
def run (s : State) : List (Fin 5) → Option State
  | [] => some s
  | id :: rest =>
    match philosopher s id with
    | none => none
    | some s1 => run s1 rest

/-- The thread holds a permit of the semaphore (1) or not (0). -/
def admitted (t : Thread) : Int := if t.pc = PC.acquire then 0 else 1

/-- The thread holds its left chopstick. -/
def holdsLeft (t : Thread) : Bool :=
  decide (t.pc = PC.lockRight ∨ t.pc = PC.unlockRight ∨ t.pc = PC.unlockLeft)

/-- The thread holds its right chopstick. -/
def holdsRight (t : Thread) : Bool := decide (t.pc = PC.unlockRight)

/-- Number of steps that the thread has taken: six for each iteration. -/
def progress (t : Thread) : Int :=
  6 * (t.meal : Int) +
    match t.pc with
    | PC.acquire => 0
    | PC.lockLeft => 1
    | PC.lockRight => 2
    | PC.unlockRight => 3
    | PC.unlockLeft => 4
    | PC.release => 5

/-- Invariant: the semaphore counts the free permits; a mutex is locked exactly when its left
user holds it as left chopstick or its right user holds it as right chopstick, never both;
no thread is inside the loop after three meals. -/
def Inv (s : State) : Prop :=
  0 ≤ s.count ∧ s.count + ∑ id, admitted (s.threads id) = 4 ∧
  (∀ c, s.chopsticks c = (holdsLeft (s.threads c) || holdsRight (s.threads (c + 4)))) ∧
  (∀ c, ¬ (holdsLeft (s.threads c) = true ∧ holdsRight (s.threads (c + 4)) = true)) ∧
  (∀ id, (s.threads id).meal ≤ 3 ∧ ((s.threads id).pc ≠ PC.acquire → (s.threads id).meal < 3))

/-- A run in which the philosophers eat one after the other, three meals each. -/
def sequentialRun : List (Fin 5) :=
  (List.finRange 5).flatMap (fun id => List.replicate 18 id)

end DiningPhilosophersSemaphore

namespace DiningPhilosophersWaiter

/-- Number of steps that the thread has taken: two for each meal. -/
def progress (t : Thread) : Int := 2 * (t.meal : Int) + if t.eating then 1 else 0

/-- No thread has eaten more than three meals or is eating a fourth. -/
def MealInv (s : State) : Prop :=
  ∀ id, (s.threads id).meal ≤ 3 ∧ ((s.threads id).eating = true → (s.threads id).meal < 3)

/-- A run in which the philosophers eat one after the other, three meals each. -/
def sequentialRun : List (Fin 5) :=
  (List.finRange 5).flatMap (fun id => List.replicate 6 id)

end DiningPhilosophersWaiter

/-! ## `LAB9/LAB9-3.cpp`: `FIFOComparison` -/

namespace FIFOComparison

/-- Data members of `class FIFOComparison`. -/
structure State where
  numFrames : Int
  frames : List Int
  insertOrder : List Int
  pageFaults : Int

/-- Constructor `FIFOComparison(int frames)`: `frames.resize(frames, -1)` throws
`std::length_error` for a negative count. -/
def new (frames : Int) : Option State :=
  if frames < 0 then none
  else some { numFrames := frames, frames := List.replicate frames.toNat (-1),
              insertOrder := [], pageFaults := 0 }

/-- Method `isPageInMemory(int page)`. -/
def isPageInMemory (s : State) (page : Int) : Bool := decide (page ∈ s.frames)

/-- Method `findEmptyFrame()`. -/
def findEmptyFrame (s : State) : Int := findEmptyFrameFrom 0 s.frames

/-- Method `referencePage(int page)`; `none` is `insertOrder.front()` on an empty vector. -/
def referencePage (s : State) (page : Int) : Option State :=
  if isPageInMemory s page then some s
  else
    let s1 := { s with pageFaults := s.pageFaults + 1 }
    let emptyFrame := findEmptyFrame s1
    if emptyFrame ≠ -1 then
      some { s1 with frames := s1.frames.set emptyFrame.toNat page
                     insertOrder := s1.insertOrder ++ [page] }
    else
      match s1.insertOrder with
      | [] => none
      | victimPage :: rest =>
        some { s1 with frames := replaceFirst victimPage page s1.frames
                       insertOrder := rest ++ [page] }

/-- Method `processReferenceString(refString)`. -/
def processReferenceString (s : State) : List Int → Option State
  | [] => some s
  | page :: rest => (referencePage s page).bind (fun s1 => processReferenceString s1 rest)

/-- The three FIFO simulators with `n` frames are in step: the queue of
`PageReplacementFIFO`, the queue of `FIFOPageReplacement` and the insert order of
`FIFOComparison` are the same list, the two frame vectors are equal and hold the pages of the
queue (in some order) and empty markers, and the fault counters are equal. -/
def Agree (n : Int) (s1 : PageReplacementFIFO.State) (s2 : FIFOPageReplacement.State)
    (s3 : State) : Prop :=
  s1.numFrames = n ∧ PageReplacementFIFO.Inv s1 ∧
  s2.fifoQueue = s1.frameQueue ∧ s3.insertOrder = s1.frameQueue ∧ s3.frames = s2.frames ∧
  (s2.frames.length : Int) = n ∧ (occupied s2.frames).Perm s1.frameQueue ∧
  (∀ q ∈ s1.frameQueue, 0 ≤ q) ∧
  s2.pageFaults = s1.pageFaults ∧ s3.pageFaults = s1.pageFaults

end FIFOComparison

/-! ## `LAB-8.1ADDRESS.cpp`: the constructor of `PageTable`

The class has the name of the class of `LAB9-1.cpp`; its embedding is in the namespace
`AddressPageTable`. The calls of `rand()` are the values `rand 0`, `rand 1`, ... of a
stream. The `do ... while` loop of the constructor has no bound: it runs on `fuel`, and
`none` is a loop that has not ended after `fuel` iterations. -/

namespace AddressPageTable

/-- Constant `NUM_PAGES`. -/
def NUM_PAGES : Nat := 64

/-- Constant `NUM_FRAMES`. -/
def NUM_FRAMES : Nat := 32

/-- State of the constructor after the first pages: the entries `pageTable[i]` and `valid[i]`
written so far (in the order of `i`), the local array `usedFrames`, and the number of calls of
`rand()` made so far. -/
structure State where
  pageTable : List Int
  valid : List Bool
  usedFrames : Nat → Bool
  calls : Nat

/-- State before the loop: nothing written, `usedFrames = {false}`. -/
def init : State := { pageTable := [], valid := [], usedFrames := fun _ => false, calls := 0 }

/-- The loop `do { frame = rand() % NUM_FRAMES; } while (usedFrames[frame]);` started with
the call number `k` of `rand()`: the frame found and the next call number. -/
def findFrame (rand : Nat → Nat) (usedFrames : Nat → Bool) : Nat → Nat → Option (Nat × Nat)
  | 0, _ => none
  | fuel + 1, k =>
    let frame := rand k % NUM_FRAMES
    if usedFrames frame then findFrame rand usedFrames fuel (k + 1)
    else some (frame, k + 1)

/-- Body of the loop `for (int i = 0; i < NUM_PAGES; i++)` for the next page. -/
def pageStep (rand : Nat → Nat) (fuel : Nat) (s : State) : Option State :=
  if rand s.calls % 100 < 75 then
    match findFrame rand s.usedFrames fuel (s.calls + 1) with
    | none => none
    | some (frame, k) =>
      some { pageTable := s.pageTable ++ [(frame : Int)]
             valid := s.valid ++ [true]
             usedFrames := fun f => if f = frame then true else s.usedFrames f
             calls := k }
  else
    some { s with pageTable := s.pageTable ++ [-1], valid := s.valid ++ [false],
                  calls := s.calls + 1 }

/-- The loop `for (int i = 0; i < NUM_PAGES; i++)` with `n` pages left. -/
def fillFrom (rand : Nat → Nat) (fuel : Nat) : Nat → State → Option State
  | 0, s => some s
  | n + 1, s =>
    match pageStep rand fuel s with
    | none => none
    | some s1 => fillFrom rand fuel n s1

/-- Constructor `PageTable()`. -/
def construct (rand : Nat → Nat) (fuel : Nat) : Option State :=
  fillFrom rand fuel NUM_PAGES init

/-- A stream of draws: page `i` draws `0` (`0 % 100 < 75`: the page is valid) and then `i`
(the frame `i % 32`). -/
def draws (k : Nat) : Nat := if k % 2 = 0 then 0 else k / 2

/-- State of the constructor after the first `i` pages on the stream `draws`, for `i ≤ 32`:
page `j` is valid in frame `j`. -/
def after (i : Nat) : State :=
  { pageTable := (List.range i).map (fun (j : Nat) => (j : Int))
    valid := List.replicate i true
    usedFrames := fun f => decide (f < i)
    calls := 2 * i }

end AddressPageTable

/-! ## `CompleteSchedulingAlgorithms.cpp`: `SchedulingAlgorithms::RoundRobin`

The local vectors `remaining_time` and `in_queue` (of size `processes.size()`, read and
written at indices of `arrival_order` only) are functions on the indices; `ready_queue` is the
list of the queued indices, front first. `std::sort` is not stable, so `arrival_order` after
the sort is some list of the indices in the order of their arrival times: it is an argument
of the embedding. The `while` loop runs on `fuel`; `none` is a loop that has not ended after
`fuel` iterations, or one in which the clock or another `int` leaves the range of `int`. -/

namespace SchedulingAlgorithms

/-- The struct `Process`. -/
structure Process where
  pid : Int
  arrival_time : Int
  burst_time : Int
  remaining_time : Int
  completion_time : Int
  turnaround_time : Int
  waiting_time : Int
  priority : Int
deriving DecidableEq

/-- Constructor `Process(id, at, bt, pr)`. -/
def Process.new (id arrival burst pr : Int) : Process :=
  { pid := id, arrival_time := arrival, burst_time := burst, remaining_time := burst,
    priority := pr, completion_time := 0, turnaround_time := 0, waiting_time := 0 }

/-- The value `processes[idx].arrival_time` (0 outside the vector). -/
def arrivalOf (processes : List Process) (idx : Nat) : Int :=
  match processes[idx]? with
  | some p => p.arrival_time
  | none => 0

/-- The value `processes[idx].burst_time` (0 outside the vector). -/
def burstOf (processes : List Process) (idx : Nat) : Int :=
  match processes[idx]? with
  | some p => p.burst_time
  | none => 0

/-- The variables of `RoundRobin` at the test of the `while` loop. -/
structure State where
  processes : List Process
  ready_queue : List Nat
  remaining_time : Nat → Int
  in_queue : Nat → Bool
  current_time : Int
  completed : Int

/-- The loop "Add newly arrived processes" over the rest of `arrival_order`, on the pair of
`ready_queue` and `in_queue`. -/
def addArrived (processes : List Process) (remaining_time : Nat → Int) (current_time : Int)
    (current_process : Nat) : List Nat → List Nat × (Nat → Bool) → List Nat × (Nat → Bool)
  | [], acc => acc
  | idx :: rest, acc =>
    if acc.2 idx = false ∧ remaining_time idx > 0 ∧ arrivalOf processes idx ≤ current_time ∧
        idx ≠ current_process then
      addArrived processes remaining_time current_time current_process rest
        (acc.1 ++ [idx], Function.update acc.2 idx true)
    else addArrived processes remaining_time current_time current_process rest acc

/-- The three assignments to `processes[current_process]` of a completed process. -/
def complete (current_time : Int) (p : Process) : Process :=
  { p with completion_time := current_time
           turnaround_time := current_time - p.arrival_time
           waiting_time := current_time - p.arrival_time - p.burst_time }

/-- The part of the loop body that handles an empty `ready_queue`: the first process of
`arrival_order` that is unfinished and arrives later is queued and the clock jumps to its
arrival. -/
def nextArrival (arrival_order : List Nat) (s : State) : State :=
  if s.ready_queue = [] then
    match arrival_order.find? (fun idx =>
        decide (s.remaining_time idx > 0 ∧ arrivalOf s.processes idx > s.current_time)) with
    | some idx =>
      { s with current_time := arrivalOf s.processes idx
               ready_queue := s.ready_queue ++ [idx]
               in_queue := (Function.update s.in_queue idx true) }
    | none => s
  else s

/-- The part of the loop body after `ready_queue.front()` and `pop()`: `current_process` runs
for `exec_time`, the processes that have arrived are queued, and `current_process` is
completed or queued again. -/
def runSlice (arrival_order : List Nat) (quantum : Int) (s : State) (current_process : Nat)
    (rest : List Nat) : State :=
  let in_queue := Function.update s.in_queue current_process false
  let exec_time := min quantum (s.remaining_time current_process)
  let remaining_time := Function.update s.remaining_time current_process
    (s.remaining_time current_process - exec_time)
  let current_time := s.current_time + exec_time
  let added := addArrived s.processes remaining_time current_time current_process
    arrival_order (rest, in_queue)
  if remaining_time current_process = 0 then
    { processes := s.processes.modify (complete current_time) current_process
      ready_queue := added.1
      remaining_time := remaining_time
      in_queue := added.2
      current_time := current_time
      completed := s.completed + 1 }
  else
    { processes := s.processes
      ready_queue := added.1 ++ [current_process]
      remaining_time := remaining_time
      in_queue := (Function.update added.2 current_process true)
      current_time := current_time
      completed := s.completed }

/-- Every `int` that the loop body computes when `current_process` is at the front of the
queue is a value of an `int`: `remaining_time[current_process] - exec_time`,
`current_time + exec_time` and, when the process completes, `completed + 1`,
`completion_time - arrival_time` and `turnaround_time - burst_time`. -/
def sliceFits (quantum : Int) (s : State) (current_process : Nat) : Bool :=
  let exec_time := min quantum (s.remaining_time current_process)
  let remaining := s.remaining_time current_process - exec_time
  let current_time := s.current_time + exec_time
  let turnaround := current_time - arrivalOf s.processes current_process
  fitsInt remaining && fitsInt current_time &&
    (if remaining = 0 then
      fitsInt (s.completed + 1) && fitsInt turnaround &&
        fitsInt (turnaround - burstOf s.processes current_process)
    else true)

/-- The loop `while (!ready_queue.empty() || completed < (int)processes.size())`; `none` is a
loop that has not ended after `fuel` iterations, or a loop body in which an `int` overflows
(`sliceFits`). -/
def loop (arrival_order : List Nat) (quantum : Int) : Nat → State → Option State
  | 0, _ => none
  | fuel + 1, s =>
    if s.ready_queue ≠ [] ∨ s.completed < (s.processes.length : Int) then
      let s1 := nextArrival arrival_order s
      match s1.ready_queue with
      | [] => some s1
      | current_process :: rest =>
        if sliceFits quantum s1 current_process = true then
          loop arrival_order quantum fuel (runSlice arrival_order quantum s1 current_process rest)
        else none
    else some s

/-- The state at the first test of the `while` loop: the first process of `arrival_order` is
queued when it has arrived at time 0. -/
def start (arrival_order : List Nat) (processes : List Process) : State :=
  let s : State :=
    { processes := processes, ready_queue := [], remaining_time := burstOf processes,
      in_queue := fun _ => false, current_time := 0, completed := 0 }
  match arrival_order with
  | [] => s
  | first :: _ =>
    if processes ≠ [] ∧ arrivalOf processes first ≤ s.current_time then
      { s with ready_queue := [first], in_queue := (Function.update s.in_queue first true) }
    else s

/-- Function `RoundRobin(processes, quantum)`: the variables when the loop has ended. -/
def RoundRobin (arrival_order : List Nat) (fuel : Nat) (processes : List Process)
    (quantum : Int) : Option State :=
  loop arrival_order quantum fuel (start arrival_order processes)

/-- What `std::sort` guarantees of `arrival_order`: it lists the indices `0`, ..., `n - 1`,
each once, in the order of the arrival times. -/
def IsArrivalOrder (processes : List Process) (arrival_order : List Nat) : Prop :=
  arrival_order.Perm (List.range processes.length) ∧
  arrival_order.Pairwise (fun a b => arrivalOf processes a ≤ arrivalOf processes b)

/-- The entry `ps[idx]` holds the results of a completed process: the completion is not
before arrival plus burst of the process `idx` of `P0`, and turnaround and waiting time are
computed from it. -/
def Completed (P0 ps : List Process) (idx : Nat) : Prop :=
  ∃ p, ps[idx]? = some p ∧ arrivalOf P0 idx + burstOf P0 idx ≤ p.completion_time ∧
    p.turnaround_time = p.completion_time - arrivalOf P0 idx ∧
    p.waiting_time = p.turnaround_time - burstOf P0 idx

/-- The work left: the sum of the remaining times. -/
def work (n : Nat) (s : State) : Int := ∑ idx ∈ Finset.range n, s.remaining_time idx

/-- Invariant of the `while` loop of `RoundRobin` started on the vector `P0`. -/
structure Inv (P0 : List Process) (s : State) : Prop where
  len : s.processes.length = P0.length
  same : ∀ idx, arrivalOf s.processes idx = arrivalOf P0 idx ∧
    burstOf s.processes idx = burstOf P0 idx
  nodup : s.ready_queue.Nodup
  queued : ∀ idx ∈ s.ready_queue, idx < P0.length ∧ 0 < s.remaining_time idx ∧
    arrivalOf P0 idx ≤ s.current_time
  flag : ∀ idx, s.in_queue idx = true ↔ idx ∈ s.ready_queue
  bounds : ∀ idx, idx < P0.length →
    0 ≤ s.remaining_time idx ∧ s.remaining_time idx ≤ burstOf P0 idx
  ran : ∀ idx, idx < P0.length → s.remaining_time idx < burstOf P0 idx →
    arrivalOf P0 idx + (burstOf P0 idx - s.remaining_time idx) ≤ s.current_time
  finished : ∀ idx, idx < P0.length → s.remaining_time idx = 0 →
    Completed P0 s.processes idx
  count : s.completed =
    ∑ idx ∈ Finset.range P0.length, (if s.remaining_time idx = 0 then (1 : Int) else 0)
  waiting : s.ready_queue = [] → ∀ idx, idx < P0.length → 0 < s.remaining_time idx →
    s.current_time < arrivalOf P0 idx

/-- The clock is not negative, and the clock plus the work left fits an `int`. -/
def ClockInv (P0 : List Process) (s : State) : Prop :=
  0 ≤ s.current_time ∧ s.current_time + work P0.length s ≤ INT_MAX

/-- The vector `processes` of `main`. -/
def mainProcesses : List Process :=
  [Process.new 1 0 7 2, Process.new 2 2 4 1, Process.new 3 4 1 4, Process.new 4 5 4 3]

end SchedulingAlgorithms

/-! ### `DiningPhilosophersOriginalEnhanced` -/

namespace DiningPhilosophersOriginalEnhanced

/-- Program points of the thread `philosopher(id)`, each named after the statement that the
thread executes next: `philosopher_priority[id]++`, the load of the priority (with the
computation of `delay` and the sleep), `chopsticks[left].lock()`, `chopsticks[right].lock()`,
`chopsticks[right].unlock()`, `chopsticks[left].unlock()` and `philosopher_priority[id] = 0`. -/
inductive PC where
  | increment | load | lockLeft | lockRight | unlockRight | unlockLeft | reset
deriving DecidableEq

/-- Local state of the thread `philosopher(id)`: the program point, the loop counter `i`, and
the pairs of the local variables `priority` and `delay` of the iterations so far. -/
structure Thread where
  pc : PC
  i : Nat
  log : List (Int × Int)
deriving DecidableEq

/-- The mutexes `chopsticks` (`true` is locked), the atomic array `philosopher_priority` and
the five threads. -/
structure State where
  chopsticks : Fin 5 → Bool
  philosopher_priority : Fin 5 → Int
  threads : Fin 5 → Thread

/-- State in which `demonstrate()` starts the threads: every priority was set to 0, every
mutex is free. -/
def init : State :=
  { chopsticks := fun _ => false, philosopher_priority := fun _ => 0,
    threads := fun _ => { pc := PC.increment, i := 0, log := [] } }

/-- The local variable `left` after `if (left > right) swap(left, right);`. -/
def left (id : Fin 5) : Fin 5 := if id > id + 1 then id + 1 else id

/-- The local variable `right` after `if (left > right) swap(left, right);`. -/
def right (id : Fin 5) : Fin 5 := if id > id + 1 then id else id + 1

/-- Next step of the thread `philosopher(id)`; `none` when the thread is blocked in `lock()`
or its loop has ended. The increment `++i` is part of the last step of the iteration. -/
def philosopher (s : State) (id : Fin 5) : Option State :=
  let t := s.threads id
  match t.pc with
  | PC.increment =>
    if t.i < 3 then
      some { s with
        philosopher_priority :=
          (Function.update s.philosopher_priority id (s.philosopher_priority id + 1))
        threads := (Function.update s.threads id { t with pc := PC.load }) }
    else none
  | PC.load =>
    let priority := s.philosopher_priority id
    let delay := max 0 (100 - priority * 20)
    some { s with threads := (Function.update s.threads id
      { t with pc := PC.lockLeft, log := t.log ++ [(priority, delay)] }) }
  | PC.lockLeft =>
    if s.chopsticks (left id) then none
    else
      some { s with chopsticks := (Function.update s.chopsticks (left id) true)
                    threads := (Function.update s.threads id { t with pc := PC.lockRight }) }
  | PC.lockRight =>
    if s.chopsticks (right id) then none
    else
      some { s with chopsticks := (Function.update s.chopsticks (right id) true)
                    threads := (Function.update s.threads id { t with pc := PC.unlockRight }) }
  | PC.unlockRight =>
    some { s with chopsticks := (Function.update s.chopsticks (right id) false)
                  threads := (Function.update s.threads id { t with pc := PC.unlockLeft }) }
  | PC.unlockLeft =>
    some { s with chopsticks := (Function.update s.chopsticks (left id) false)
                  threads := (Function.update s.threads id { t with pc := PC.reset }) }
  | PC.reset =>
    some { s with
      philosopher_priority := (Function.update s.philosopher_priority id 0)
      threads := (Function.update s.threads id { t with pc := PC.increment, i := t.i + 1 }) }

/-- The state after the threads took their steps in the order `sched`, starting in `s`;
`none` when a thread of the list cannot take its step. -/
def run (s : State) : List (Fin 5) → Option State
  | [] => some s
  | id :: rest =>
    match philosopher s id with
    | none => none
    | some s1 => run s1 rest

/-- Invariant: the priority of a philosopher is 0 before its increment and 1 after it, until
the reset; every priority read so far was 1 and every delay 80. -/
def Inv (s : State) : Prop :=
  ∀ id, s.philosopher_priority id = (if (s.threads id).pc = PC.increment then 0 else 1) ∧
    ∀ e ∈ (s.threads id).log, e = ((1 : Int), (80 : Int))

/-- A run in which the philosophers eat one after the other, three meals each. -/
def sequentialRun : List (Fin 5) :=
  (List.finRange 5).flatMap (fun id => List.replicate 21 id)

end DiningPhilosophersOriginalEnhanced

/-! ## Theorems -/

theorem toSizeT_of_int_range (n : Int) (h0 : 0 ≤ n) (h1 : n ≤ INT_MAX) :
    (toSizeT n : Int) = n := by
  unfold toSizeT
  unfold INT_MAX at h1
  rw [Int.toNat_of_nonneg (Int.emod_nonneg _ (by norm_num))]
  exact Int.emod_eq_of_lt h0 (by omega)

namespace PageReplacementFIFO

theorem referencePage_inv (s : State) (page : Int) (h1 : 1 ≤ s.numFrames)
    (h2 : s.numFrames ≤ INT_MAX) (hI : Inv s) :
    ∃ s1, referencePage s page = some s1 ∧ s1.numFrames = s.numFrames ∧ Inv s1 := by
  obtain ⟨hlen, hnd, hset⟩ := hI
  have hsz := toSizeT_of_int_range s.numFrames (by omega) h2
  unfold referencePage
  by_cases hmem : page ∈ s.frameSet
  · simp only [hmem, if_true]
    exact ⟨_, rfl, rfl, hlen, hnd, hset⟩
  · simp only [hmem, if_false]
    have hnq : page ∉ s.frameQueue := by
      intro hq
      apply hmem
      rw [hset]
      exact List.mem_toFinset.mpr hq
    by_cases hfull : toSizeT s.numFrames ≤ s.frameQueue.length
    · simp only [hfull, if_true]
      cases hq : s.frameQueue with
      | nil =>
        rw [hq] at hfull
        simp at hfull
        omega
      | cons v rest =>
        rw [hq] at hlen hnd hnq
        refine ⟨_, rfl, rfl, ?_, ?_, ?_⟩
        · simp only [List.length_append, List.length_cons, List.length_nil] at hlen ⊢
          omega
        · have hv := List.nodup_cons.mp hnd
          rw [List.nodup_append]
          refine ⟨hv.2, List.nodup_singleton _, ?_⟩
          intro a ha hb
          rw [List.mem_singleton] at hb
          subst hb
          exact hnq (List.mem_cons_of_mem _ ha)
        · have hv := List.nodup_cons.mp hnd
          simp only [hset, hq]
          ext a
          simp only [Finset.mem_insert, Finset.mem_erase, List.mem_toFinset, List.mem_cons,
            List.mem_append, List.not_mem_nil, or_false]
          constructor
          · rintro (h | ⟨_, h | h⟩)
            · exact Or.inr h
            · contradiction
            · exact Or.inl h
          · rintro (h | h)
            · refine Or.inr ⟨?_, Or.inr h⟩
              rintro rfl
              exact hv.1 h
            · exact Or.inl h
    · simp only [hfull, if_false]
      refine ⟨_, rfl, rfl, ?_, ?_, ?_⟩
      · simp only [List.length_append, List.length_cons, List.length_nil]
        push_cast
        omega
      · rw [List.nodup_append]
        refine ⟨hnd, List.nodup_singleton _, ?_⟩
        intro a ha hb
        rw [List.mem_singleton] at hb
        subst hb
        exact hnq ha
      · simp only [hset]
        ext a
        simp only [Finset.mem_insert, List.mem_toFinset, List.mem_append, List.mem_cons,
          List.not_mem_nil, or_false]
        tauto

theorem simulate_inv (refs : List Int) : ∀ (s : State), 1 ≤ s.numFrames →
    s.numFrames ≤ INT_MAX → Inv s →
    ∃ s1, simulate s refs = some s1 ∧ s1.numFrames = s.numFrames ∧ Inv s1 := by
  induction refs with
  | nil => intro s _ _ hI; exact ⟨s, rfl, rfl, hI⟩
  | cons p rest ih =>
    intro s h1 h2 hI
    obtain ⟨s1, hs1, hn1, hI1⟩ := referencePage_inv s p h1 h2 hI
    obtain ⟨s2, hs2, hn2, hI2⟩ := ih s1 (by omega) (by omega) hI1
    refine ⟨s2, ?_, by omega, hI2⟩
    simp [simulate, hs1, hs2]

end PageReplacementFIFO

/-- C1: for every `numFrames ≥ 1` (an `int`) and every sequence of `referencePage` calls on a
fresh `PageReplacementFIFO(numFrames)`, every call returns, and afterwards `frameQueue` holds
at most `numFrames` pages, holds no page twice, and `frameSet` is exactly the set of pages in
`frameQueue`. -/
theorem C1_fifo_queue_invariant (numFrames : Int) (h1 : 1 ≤ numFrames)
    (h2 : numFrames ≤ INT_MAX) (refs : List Int) :
    ∃ s, PageReplacementFIFO.simulate (PageReplacementFIFO.new numFrames) refs = some s ∧
      (s.frameQueue.length : Int) ≤ numFrames ∧ s.frameQueue.Nodup ∧
      s.frameSet = s.frameQueue.toFinset := by
  obtain ⟨s, hs, hn, hI⟩ := PageReplacementFIFO.simulate_inv refs
    (PageReplacementFIFO.new numFrames) h1 h2
    ⟨by simp [PageReplacementFIFO.new]; omega, by simp [PageReplacementFIFO.new],
      by simp [PageReplacementFIFO.new]⟩
  have hn2 : s.numFrames = numFrames := hn
  exact ⟨s, hs, hn2 ▸ hI.1, hI.2.1, hI.2.2⟩

/-- Witness of C1 on three frames and the reference string 7,0,1,2,0,3. -/
theorem C1_fifo_queue_invariant_witness :
    (1 : Int) ≤ 3 ∧ (3 : Int) ≤ INT_MAX ∧
    ∃ s, PageReplacementFIFO.simulate (PageReplacementFIFO.new 3) [7, 0, 1, 2, 0, 3] = some s ∧
      (s.frameQueue.length : Int) ≤ 3 ∧ s.frameQueue.Nodup ∧
      s.frameSet = s.frameQueue.toFinset :=
  ⟨by decide, by decide, C1_fifo_queue_invariant 3 (by decide) (by decide) [7, 0, 1, 2, 0, 3]⟩

/-- C3 (as stated, refuted): on the reference string 7,0,1,2,0,3,0,4,2,3,0,3,2 with 3 frames
neither FIFO simulator reports 12 page faults. -/
theorem C3_fifo_not_twelve :
    (PageReplacementFIFO.simulate (PageReplacementFIFO.new 3)
        [7, 0, 1, 2, 0, 3, 0, 4, 2, 3, 0, 3, 2]).map (fun s => s.pageFaults) ≠ some 12 ∧
    FIFOPageReplacement.faults 3 [7, 0, 1, 2, 0, 3, 0, 4, 2, 3, 0, 3, 2] ≠ some 12 := by
  decide

/-- C3 (amended): on the reference string 7,0,1,2,0,3,0,4,2,3,0,3,2 with 3 frames both FIFO
simulators (`PageReplacementFIFO` and `FIFOPageReplacement`) report exactly 10 page faults. -/
theorem C3_fifo_ten_faults :
    (PageReplacementFIFO.simulate (PageReplacementFIFO.new 3)
        [7, 0, 1, 2, 0, 3, 0, 4, 2, 3, 0, 3, 2]).map (fun s => s.pageFaults) = some 10 ∧
    FIFOPageReplacement.faults 3 [7, 0, 1, 2, 0, 3, 0, 4, 2, 3, 0, 3, 2] = some 10 := by
  decide

/-- C4 (as stated, refuted): on the reference string 7,0,1,2,0,3,0,4,2,3,0,3,2 with 3 frames
`LRUPageReplacement` does not report 12 page faults, and its count differs from FIFO's. -/
theorem C4_lru_not_twelve :
    LRUPageReplacement.faults 3 [7, 0, 1, 2, 0, 3, 0, 4, 2, 3, 0, 3, 2] ≠ some 12 ∧
    LRUPageReplacement.faults 3 [7, 0, 1, 2, 0, 3, 0, 4, 2, 3, 0, 3, 2] ≠
      FIFOPageReplacement.faults 3 [7, 0, 1, 2, 0, 3, 0, 4, 2, 3, 0, 3, 2] := by
  decide

/-- C4 (amended): on the reference string 7,0,1,2,0,3,0,4,2,3,0,3,2 with 3 frames
`LRUPageReplacement` reports exactly 9 page faults, one fewer than the 10 of FIFO. -/
theorem C4_lru_nine_faults :
    LRUPageReplacement.faults 3 [7, 0, 1, 2, 0, 3, 0, 4, 2, 3, 0, 3, 2] = some 9 ∧
    FIFOPageReplacement.faults 3 [7, 0, 1, 2, 0, 3, 0, 4, 2, 3, 0, 3, 2] = some 10 := by
  decide

/-- C5: on the reference string 1,2,3,4,1,2,5,1,2,3,4,5 `FIFOPageReplacement` incurs 9 page
faults with 3 frames and 10 with 4 frames (Belady's anomaly), so its fault count is not
monotone (non-increasing) in the number of frames. -/
theorem C5_fifo_belady :
    FIFOPageReplacement.faults 3 [1, 2, 3, 4, 1, 2, 5, 1, 2, 3, 4, 5] = some 9 ∧
    FIFOPageReplacement.faults 4 [1, 2, 3, 4, 1, 2, 5, 1, 2, 3, 4, 5] = some 10 ∧
    ¬ (∀ (c c1 : Int) (refs : List Int) (a b : Int), 1 ≤ c → c ≤ c1 →
        FIFOPageReplacement.faults c refs = some a →
        FIFOPageReplacement.faults c1 refs = some b → b ≤ a) := by
  refine ⟨by decide, by decide, ?_⟩
  intro h
  have h1 := h 3 4 [1, 2, 3, 4, 1, 2, 5, 1, 2, 3, 4, 5] 9 10 (by decide) (by decide)
    (by decide) (by decide)
  exact absurd h1 (by decide)

namespace PageReplacementFIFO

theorem loadInv_snoc (l : List Int) (page : Int) (i : Nat) (lt : Int → Option Nat)
    (hp : l.Pairwise (LoadedBefore lt)) (hb : ∀ q ∈ l, ∃ t, lt q = some t ∧ t < i)
    (hnq : page ∉ l) :
    (l ++ [page]).Pairwise (LoadedBefore (fun q => if page = q then some i else lt q)) ∧
    ∀ q ∈ l ++ [page], ∃ t, (if page = q then some i else lt q) = some t ∧ t < i + 1 := by
  have hne : ∀ q ∈ l, ¬ page = q := fun q hq h => hnq (h ▸ hq)
  constructor
  · rw [List.pairwise_append]
    refine ⟨?_, List.pairwise_singleton _ _, ?_⟩
    · refine hp.imp_of_mem ?_
      intro a b ha hb2 hab
      obtain ⟨ta, tb, h1, h2, h3⟩ := hab
      exact ⟨ta, tb, by simp [hne a ha, h1], by simp [hne b hb2, h2], h3⟩
    · intro a ha b hb2
      rw [List.mem_singleton] at hb2
      subst hb2
      obtain ⟨t, ht, hti⟩ := hb a ha
      exact ⟨t, i, by simp [hne a ha, ht], by simp, hti⟩
  · intro q hq
    rw [List.mem_append, List.mem_singleton] at hq
    rcases hq with hq | hq
    · obtain ⟨t, ht, hti⟩ := hb q hq
      exact ⟨t, by simp [hne q hq, ht], by omega⟩
    · subst hq
      exact ⟨i, by simp, by omega⟩

theorem referencePage_loadInv (s s1 : State) (page : Int) (i : Nat) (lt : Int → Option Nat)
    (hI : Inv s) (hL : LoadInv s i lt) (hs1 : referencePage s page = some s1) :
    LoadInv s1 (i + 1) (fun q => if page = q ∧ page ∉ s.frameSet then some i else lt q) := by
  obtain ⟨_, hnd, hset⟩ := hI
  obtain ⟨hp, hb⟩ := hL
  unfold referencePage at hs1
  by_cases hmem : page ∈ s.frameSet
  · simp only [hmem, if_true, Option.some.injEq] at hs1
    subst hs1
    simp only [hmem, not_true_eq_false, and_false, if_false]
    exact ⟨hp, fun q hq => by obtain ⟨t, ht, hti⟩ := hb q hq; exact ⟨t, ht, by omega⟩⟩
  · simp only [hmem, if_false] at hs1
    simp only [hmem, not_false_eq_true, and_true]
    have hnq : page ∉ s.frameQueue := by
      intro hq
      apply hmem
      rw [hset]
      exact List.mem_toFinset.mpr hq
    by_cases hfull : toSizeT s.numFrames ≤ s.frameQueue.length
    · simp only [hfull, if_true] at hs1
      cases hq : s.frameQueue with
      | nil => rw [hq] at hs1; simp at hs1
      | cons v rest =>
        rw [hq] at hs1 hp hb hnq
        simp only [Option.some.injEq] at hs1
        subst hs1
        exact loadInv_snoc rest page i lt (List.Pairwise.of_cons hp)
          (fun q hq2 => hb q (List.mem_cons_of_mem _ hq2))
          (fun h => hnq (List.mem_cons_of_mem _ h))
    · simp only [hfull, if_false, Option.some.injEq] at hs1
      subst hs1
      exact loadInv_snoc s.frameQueue page i lt hp hb hnq

theorem simulate_loadInv (refs : List Int) : ∀ (s : State) (i : Nat) (lt : Int → Option Nat),
    1 ≤ s.numFrames → s.numFrames ≤ INT_MAX → Inv s → LoadInv s i lt →
    ∃ s1, simulate s refs = some s1 ∧ s1.numFrames = s.numFrames ∧ Inv s1 ∧
      LoadInv s1 (i + refs.length) (fun q => loadTimeFrom q s i (lt q) refs) := by
  induction refs with
  | nil => intro s i lt _ _ hI hL; exact ⟨s, rfl, rfl, hI, hL⟩
  | cons p rest ih =>
    intro s i lt h1 h2 hI hL
    obtain ⟨s1, hs1, hn1, hI1⟩ := referencePage_inv s p h1 h2 hI
    have hL1 := referencePage_loadInv s s1 p i lt hI hL hs1
    obtain ⟨s2, hs2, hn2, hI2, hL2⟩ := ih s1 (i + 1) _ (by omega) (by omega) hI1 hL1
    refine ⟨s2, ?_, by omega, hI2, ?_⟩
    · simp [simulate, hs1, hs2]
    · have hlen : i + (p :: rest).length = i + 1 + rest.length := by
        simp only [List.length_cons]; omega
      rw [hlen]
      simpa only [loadTimeFrom, hs1] using hL2

end PageReplacementFIFO

/-- C6: for every trace and `numFrames ≥ 1`, when the next reference to a
`PageReplacementFIFO` faults with all frames occupied, exactly one resident page is removed
and it is the one that was loaded earliest (every other resident page has a later load
time); a hit changes neither the resident pages nor the queue that fixes the next victim. -/
theorem C6_fifo_victim_is_oldest (numFrames : Int) (h1 : 1 ≤ numFrames)
    (h2 : numFrames ≤ INT_MAX) (refs : List Int) (page : Int) :
    ∃ s, PageReplacementFIFO.simulate (PageReplacementFIFO.new numFrames) refs = some s ∧
      (page ∉ s.frameSet → (s.frameQueue.length : Int) = numFrames →
        ∃ victim s1 tv, PageReplacementFIFO.referencePage s page = some s1 ∧
          victim ∈ s.frameSet ∧ victim ∉ s1.frameSet ∧
          s1.frameSet = insert page (s.frameSet.erase victim) ∧
          PageReplacementFIFO.loadTime numFrames refs victim = some tv ∧
          ∀ q ∈ s.frameSet, q ≠ victim →
            ∃ tq, PageReplacementFIFO.loadTime numFrames refs q = some tq ∧ tv < tq) ∧
      (page ∈ s.frameSet →
        ∃ s1, PageReplacementFIFO.referencePage s page = some s1 ∧
          s1.frameSet = s.frameSet ∧ s1.frameQueue = s.frameQueue ∧
          s1.pageFaults = s.pageFaults) := by
  obtain ⟨s, hs, hn, hI, hL⟩ := PageReplacementFIFO.simulate_loadInv refs
    (PageReplacementFIFO.new numFrames) 0 (fun _ => none) h1 h2
    ⟨by simp [PageReplacementFIFO.new]; omega, by simp [PageReplacementFIFO.new],
      by simp [PageReplacementFIFO.new]⟩
    ⟨by simp [PageReplacementFIFO.new], by simp [PageReplacementFIFO.new]⟩
  have hn2 : s.numFrames = numFrames := hn
  refine ⟨s, hs, ?_, ?_⟩
  · intro hmem hlen
    have hsz := toSizeT_of_int_range s.numFrames (by omega) (by omega)
    have hfull : toSizeT s.numFrames ≤ s.frameQueue.length := by omega
    obtain ⟨_, hnd, hset⟩ := hI
    obtain ⟨hp, hb⟩ := hL
    cases hq : s.frameQueue with
    | nil => rw [hq] at hlen; simp at hlen; omega
    | cons v rest =>
      rw [hq] at hp hb hnd
      have hv := List.nodup_cons.mp hnd
      have hvs : v ∈ s.frameSet := by rw [hset, hq]; simp
      have hvp : v ≠ page := fun h => hmem (h ▸ hvs)
      obtain ⟨tv, htv, _⟩ := hb v (List.mem_cons_self _ _)
      refine ⟨v, { numFrames := s.numFrames
                   frameQueue := rest ++ [page]
                   frameSet := insert page (s.frameSet.erase v)
                   pageFaults := s.pageFaults + 1
                   frameHistory := s.frameHistory ++ [rest ++ [page]] },
        tv, ?_, hvs, ?_, rfl, htv, ?_⟩
      · have hfull2 : toSizeT s.numFrames ≤ (v :: rest).length := hq ▸ hfull
        simp only [PageReplacementFIFO.referencePage, hmem, if_false, hq, hfull2, if_true]
      · simp [hvp]
      · intro q hqs hqv
        rw [hset, hq, List.mem_toFinset, List.mem_cons] at hqs
        rcases hqs with hqs | hqs
        · exact absurd hqs hqv
        · obtain ⟨ta, tb, ha, hb2, hab⟩ := List.rel_of_pairwise_cons hp hqs
          have hta : ta = tv := by
            have h3 : some ta = some tv := ha.symm.trans htv
            exact Option.some.inj h3
          exact ⟨tb, hb2, hta ▸ hab⟩
  · intro hmem
    exact ⟨{ s with frameHistory := s.frameHistory ++ [s.frameQueue] },
      by simp only [PageReplacementFIFO.referencePage, hmem, if_true], rfl, rfl, rfl⟩

/-- Witness of C6: three frames holding 7,0,1; the reference to page 2 faults with all frames
occupied, and the conclusion of C6 for a fault holds there. -/
theorem C6_fifo_victim_is_oldest_witness :
    ∃ s, PageReplacementFIFO.simulate (PageReplacementFIFO.new 3) [7, 0, 1] = some s ∧
      2 ∉ s.frameSet ∧ (s.frameQueue.length : Int) = 3 ∧
      ∃ victim s1 tv, PageReplacementFIFO.referencePage s 2 = some s1 ∧
        victim ∈ s.frameSet ∧ victim ∉ s1.frameSet ∧
        s1.frameSet = insert 2 (s.frameSet.erase victim) ∧
        PageReplacementFIFO.loadTime 3 [7, 0, 1] victim = some tv ∧
        ∀ q ∈ s.frameSet, q ≠ victim →
          ∃ tq, PageReplacementFIFO.loadTime 3 [7, 0, 1] q = some tq ∧ tv < tq := by
  obtain ⟨s, hs, h, _⟩ := C6_fifo_victim_is_oldest 3 (by decide) (by decide) [7, 0, 1] 2
  have e := Option.some.inj hs
  subst e
  exact ⟨_, rfl, by decide, by decide, h (by decide) (by decide)⟩

/-! ### `LRUPageReplacement`: the frames follow the recency stack -/

theorem findEmptyFrameFrom_none (l : List Int) : ∀ i : Nat, (-1 : Int) ∉ l →
    findEmptyFrameFrom i l = -1 := by
  induction l with
  | nil => intro i _; rfl
  | cons f rest ih =>
    intro i h
    rw [List.mem_cons, not_or] at h
    have hf : ¬ f = -1 := fun e => h.1 e.symm
    simp only [findEmptyFrameFrom, hf, if_false]
    exact ih (i + 1) h.2

theorem findEmptyFrameFrom_some (l : List Int) (page : Int) (hp : page ≠ -1) :
    ∀ i : Nat, (-1 : Int) ∈ l →
    ∃ k : Nat, findEmptyFrameFrom i l = ((i + k : Nat) : Int) ∧
      (occupied (l.set k page)).Perm (page :: occupied l) := by
  induction l with
  | nil => intro i h; simp at h
  | cons f rest ih =>
    intro i h
    by_cases hf : f = -1
    · refine ⟨0, by simp [findEmptyFrameFrom, hf], ?_⟩
      subst hf
      simp [occupied, List.filter_cons, hp]
    · rw [List.mem_cons] at h
      have h2 : (-1 : Int) ∈ rest := by
        rcases h with h | h
        · exact absurd h.symm hf
        · exact h
      obtain ⟨k, hk, hperm⟩ := ih (i + 1) h2
      refine ⟨k + 1, ?_, ?_⟩
      · simp only [findEmptyFrameFrom, hf, if_false, hk]
        congr 1
        omega
      · simp only [occupied, List.set_cons_succ, List.filter_cons, hf, ne_eq, not_false_eq_true,
          decide_True, if_true] at hperm ⊢
        exact (List.Perm.cons f hperm).trans (List.Perm.swap page f _)

theorem replaceFirst_length (v p : Int) (l : List Int) : (replaceFirst v p l).length = l.length := by
  induction l with
  | nil => rfl
  | cons f rest ih =>
    by_cases hf : f = v
    · simp [replaceFirst, hf]
    · simp [replaceFirst, hf, ih]

theorem replaceFirst_perm (v p : Int) (l : List Int) (h : v ∈ l) :
    (replaceFirst v p l).Perm (p :: l.erase v) := by
  induction l with
  | nil => simp at h
  | cons f rest ih =>
    by_cases hf : f = v
    · subst hf
      simp [replaceFirst]
    · rw [List.mem_cons] at h
      have h2 : v ∈ rest := by
        rcases h with h | h
        · exact absurd h.symm hf
        · exact h
      have he : (f :: rest).erase v = f :: rest.erase v := by
        rw [List.erase_cons_tail]
        simpa using hf
      simp only [replaceFirst, hf, if_false, he]
      exact (List.Perm.cons f (ih h2)).trans (List.Perm.swap p f _)

theorem take_erase_of_not_mem (p : Int) (l : List Int) : ∀ k : Nat, p ∉ l.take k →
    (l.erase p).take k = l.take k := by
  induction l with
  | nil => intro k _; simp
  | cons a r ih =>
    intro k h
    cases k with
    | zero => simp
    | succ k =>
      rw [List.take_succ_cons, List.mem_cons, not_or] at h
      have ha : ¬ a = p := fun e => h.1 e.symm
      have he : (a :: r).erase p = a :: r.erase p := by
        rw [List.erase_cons_tail]
        simpa using ha
      rw [he, List.take_succ_cons, List.take_succ_cons, ih k h.2]

theorem take_cons_erase_perm (p : Int) (l : List Int) : ∀ k : Nat, p ∈ l.take (k + 1) →
    (p :: (l.erase p).take k).Perm (l.take (k + 1)) := by
  induction l with
  | nil => intro k h; simp at h
  | cons a r ih =>
    intro k h
    by_cases ha : a = p
    · subst ha
      simp
    · have he : (a :: r).erase p = a :: r.erase p := by
        rw [List.erase_cons_tail]
        simpa using ha
      rw [List.take_succ_cons, List.mem_cons] at h
      have h2 : p ∈ r.take k := by
        rcases h with h | h
        · exact absurd h.symm ha
        · exact h
      cases k with
      | zero => simp at h2
      | succ k =>
        rw [he, List.take_succ_cons, List.take_succ_cons]
        exact (List.Perm.swap a p _).trans (List.Perm.cons a (ih k h2))

namespace LRUPageReplacement

theorem foldl_lruStep (last : Int → Int) (l : List Int) : ∀ acc : Int × Int,
    (∀ q ∈ l, q ≠ -1) →
    (l.foldl (lruStep last) acc).2 ≤ acc.2 ∧
    (∀ q ∈ l, (l.foldl (lruStep last) acc).2 ≤ last q) ∧
    (l.foldl (lruStep last) acc = acc ∨
      ((l.foldl (lruStep last) acc).1 ∈ l ∧
        (l.foldl (lruStep last) acc).2 = last (l.foldl (lruStep last) acc).1)) := by
  induction l with
  | nil => intro acc _; simp
  | cons a r ih =>
    intro acc h
    have ha : a ≠ -1 := h a (List.mem_cons_self _ _)
    have hr : ∀ q ∈ r, q ≠ -1 := fun q hq => h q (List.mem_cons_of_mem _ hq)
    rw [List.foldl_cons]
    obtain ⟨h1, h2, h3⟩ := ih (lruStep last acc a) hr
    by_cases hlt : last a < acc.2
    · have hs : lruStep last acc a = (a, last a) := by simp [lruStep, ha, hlt]
      rw [hs] at h1 h2 h3 ⊢
      simp only at h1
      refine ⟨by omega, ?_, Or.inr ?_⟩
      · intro q hq
        rw [List.mem_cons] at hq
        rcases hq with hq | hq
        · subst hq; exact h1
        · exact h2 q hq
      · rcases h3 with h3 | h3
        · rw [h3]; simp
        · exact ⟨List.mem_cons_of_mem _ h3.1, h3.2⟩
    · have hs : lruStep last acc a = acc := by simp [lruStep, hlt]
      rw [hs] at h1 h2 h3 ⊢
      refine ⟨h1, ?_, ?_⟩
      · intro q hq
        rw [List.mem_cons] at hq
        rcases hq with hq | hq
        · subst hq; omega
        · exact h2 q hq
      · rcases h3 with h3 | h3
        · exact Or.inl h3
        · exact Or.inr ⟨List.mem_cons_of_mem _ h3.1, h3.2⟩

theorem occupied_eq_self (l : List Int) (h : (-1 : Int) ∉ l) : occupied l = l := by
  unfold occupied
  rw [List.filter_eq_self]
  intro q hq
  simp only [ne_eq, decide_not, Bool.not_eq_true', decide_eq_false_iff_not]
  rintro rfl
  exact h hq

theorem mem_occupied (l : List Int) (q : Int) : q ∈ occupied l ↔ q ∈ l ∧ q ≠ -1 := by
  simp [occupied]

theorem occupied_length_lt (l : List Int) (h : (-1 : Int) ∈ l) :
    (occupied l).length < l.length := by
  unfold occupied
  apply List.length_filter_lt_length_iff_exists.mpr
  exact ⟨-1, h, by simp⟩


theorem take_succ_snoc (l : List Int) (n : Nat) (h : n < l.length) :
    ∃ z, l.take (n + 1) = l.take n ++ [z] := by
  refine ⟨l[n], ?_⟩
  rw [List.take_succ, List.getElem?_eq_getElem h]
  rfl

theorem stackInv_frames_mem (s : State) (st : List Int) (hK : StackInv s st) (q : Int) :
    q ∈ st.take s.frames.length ↔ q ∈ s.frames ∧ q ≠ -1 := by
  rw [← mem_occupied]
  exact (hK.2.2.2.2.2.mem_iff).symm

/-- With every frame occupied, the scan of `findLRUPage` ends on the page at the bottom of the
resident part of the recency stack, whose last access is strictly the oldest. -/
theorem findLRU_spec (s : State) (st : List Int) (hK : StackInv s st)
    (hno : (-1 : Int) ∉ s.frames) (hne : s.frames ≠ []) (ht : s.currentTime < INT_MAX)
    (last1 : Int → Int) (hl : ∀ q ∈ s.frames, last1 q = s.lastAccessTime q) :
    ∃ v, (s.frames.foldl (lruStep last1) (-1, INT_MAX)).1 = v ∧ v ∈ s.frames ∧
      st.take s.frames.length = st.take (s.frames.length - 1) ++ [v] ∧
      ∀ q ∈ s.frames, q ≠ v → s.lastAccessTime v < s.lastAccessTime q := by
  obtain ⟨_, hnd, hpos, hpw, hle, hperm⟩ := hK
  rw [occupied_eq_self _ hno] at hperm
  have hc : 0 < s.frames.length := List.length_pos.mpr hne
  have hlen : s.frames.length ≤ st.length := by
    have := hperm.length_eq
    rw [List.length_take] at this
    omega
  obtain ⟨z, hz⟩ := take_succ_snoc st (s.frames.length - 1) (by omega)
  have hc1 : s.frames.length - 1 + 1 = s.frames.length := by omega
  rw [hc1] at hz
  have hmem : ∀ q, q ∈ s.frames ↔ q ∈ st.take (s.frames.length - 1) ∨ q = z := by
    intro q
    rw [hperm.mem_iff, hz, List.mem_append, List.mem_singleton]
  have hpwT : (st.take s.frames.length).Pairwise
      (fun a b => s.lastAccessTime b < s.lastAccessTime a) :=
    hpw.sublist (List.take_sublist _ _)
  rw [hz, List.pairwise_append] at hpwT
  have hzlt : ∀ a ∈ st.take (s.frames.length - 1), s.lastAccessTime z < s.lastAccessTime a :=
    fun a ha => hpwT.2.2 a ha z (List.mem_singleton_self z)
  have hall : ∀ q ∈ s.frames, q ≠ -1 := fun q hq e => hno (e ▸ hq)
  obtain ⟨_, h2, h3⟩ := foldl_lruStep last1 s.frames (-1, INT_MAX) hall
  have hzf : z ∈ s.frames := (hmem z).mpr (Or.inr rfl)
  have hzt : s.lastAccessTime z < INT_MAX := by
    have h4 := (hle z (List.mem_of_mem_take (hperm.mem_iff.mp hzf))).2
    omega
  have hr2 := h2 z hzf
  rw [hl z hzf] at hr2
  rcases h3 with h3 | h3
  · rw [h3] at hr2
    simp only at hr2
    omega
  · obtain ⟨hv, hv2⟩ := h3
    rw [hl _ hv] at hv2
    have hvz : (s.frames.foldl (lruStep last1) (-1, INT_MAX)).1 = z := by
      rcases (hmem _).mp hv with h5 | h5
      · have := hzlt _ h5
        omega
      · exact h5
    refine ⟨z, hvz, hzf, hz, ?_⟩
    intro q hq hqz
    rcases (hmem q).mp hq with h5 | h5
    · exact hzlt q h5
    · exact absurd h5 hqz


theorem referencePage_fields (s : State) (page : Int) :
    (referencePage s page).currentTime = s.currentTime + 1 ∧
    (referencePage s page).numFrames = s.numFrames ∧
    (referencePage s page).lastAccessTime =
      (fun q => if q = page then s.currentTime + 1 else s.lastAccessTime q) ∧
    (referencePage s page).pageFaults = s.pageFaults + (if page ∈ s.frames then 0 else 1) := by
  unfold referencePage
  by_cases hm : page ∈ s.frames
  · simp [isPageInMemory, hm]
  · by_cases he : findEmptyFrame { s with pageFaults := s.pageFaults + 1 } = -1
    · simp [isPageInMemory, hm, findEmptyFrame] at he ⊢
      simp [he]
    · simp [isPageInMemory, hm, findEmptyFrame] at he ⊢
      simp [he]

theorem referencePage_frames_hit (s : State) (page : Int) (hm : page ∈ s.frames) :
    (referencePage s page).frames = s.frames := by
  simp [referencePage, isPageInMemory, hm]

theorem referencePage_frames_empty (s : State) (page : Int) (hm : page ∉ s.frames)
    (he : (-1 : Int) ∈ s.frames) (hp : page ≠ -1) :
    ∃ k : Nat, (referencePage s page).frames = s.frames.set k page ∧
      (occupied (s.frames.set k page)).Perm (page :: occupied s.frames) := by
  obtain ⟨k, hk, hperm⟩ := findEmptyFrameFrom_some s.frames page hp 0 he
  refine ⟨k, ?_, hperm⟩
  have hk2 : findEmptyFrameFrom 0 s.frames ≠ -1 := by rw [hk]; omega
  have hk3 : (findEmptyFrameFrom 0 s.frames).toNat = k := by rw [hk]; simp
  simp [referencePage, isPageInMemory, hm, findEmptyFrame, hk2, hk3]

theorem referencePage_frames_replace (s : State) (page : Int) (hm : page ∉ s.frames)
    (he : (-1 : Int) ∉ s.frames) :
    (referencePage s page).frames =
      replaceFirst (s.frames.foldl (lruStep
        (fun q => if q = page then s.currentTime + 1 else s.lastAccessTime q)) (-1, INT_MAX)).1
        page s.frames := by
  have hk := findEmptyFrameFrom_none s.frames 0 he
  simp [referencePage, isPageInMemory, hm, findEmptyFrame, hk, findLRUPage]

theorem referencePage_length (s : State) (page : Int) :
    (referencePage s page).frames.length = s.frames.length := by
  by_cases hm : page ∈ s.frames
  · rw [referencePage_frames_hit s page hm]
  · by_cases he : findEmptyFrame { s with pageFaults := s.pageFaults + 1 } = -1
    · simp [referencePage, isPageInMemory, hm, findEmptyFrame] at he ⊢
      simp [he, replaceFirst_length]
    · simp [referencePage, isPageInMemory, hm, findEmptyFrame] at he ⊢
      simp [he]


theorem referencePage_stackInv (s : State) (st : List Int) (page : Int) (hK : StackInv s st)
    (hp : 0 ≤ page) (hne : s.frames ≠ []) (ht : s.currentTime < INT_MAX) :
    StackInv (referencePage s page) (page :: st.erase page) := by
  have hK0 := hK
  obtain ⟨hct0, hnd, hpos, hpw, hle, hperm⟩ := hK
  obtain ⟨hct, _, hlast, _⟩ := referencePage_fields s page
  have hpm : page ≠ -1 := by omega
  have hc : 0 < s.frames.length := List.length_pos.mpr hne
  have hne2 : ∀ q ∈ st.erase page, q ≠ page := fun q hq => ((hnd.mem_erase_iff).mp hq).1
  have hin : ∀ q ∈ st.erase page, q ∈ st := fun q hq => List.mem_of_mem_erase hq
  refine ⟨by omega, ?_, ?_, ?_, ?_, ?_⟩
  · exact List.nodup_cons.mpr ⟨hnd.not_mem_erase, hnd.erase page⟩
  · intro q hq
    rw [List.mem_cons] at hq
    rcases hq with hq | hq
    · omega
    · exact hpos q (hin q hq)
  · rw [hlast, List.pairwise_cons]
    constructor
    · intro b hb
      have := (hle b (hin b hb)).2
      simp only [hne2 b hb, if_false, if_true]
      omega
    · refine (hpw.sublist (List.erase_sublist _ _)).imp_of_mem ?_
      intro a b ha hb hab
      simp only [hne2 a ha, hne2 b hb, if_false]
      exact hab
  · rw [hlast, hct]
    intro q hq
    rw [List.mem_cons] at hq
    rcases hq with hq | hq
    · simp only [hq, if_true]
      omega
    · have := hle q (hin q hq)
      simp only [hne2 q hq, if_false]
      omega
  · rw [referencePage_length]
    obtain ⟨k, hk⟩ : ∃ k, s.frames.length = k + 1 := ⟨s.frames.length - 1, by omega⟩
    rw [hk, List.take_succ_cons]
    rw [hk] at hperm
    by_cases hm : page ∈ s.frames
    · rw [referencePage_frames_hit s page hm]
      have hmt : page ∈ st.take (k + 1) := by
        have := (stackInv_frames_mem s st hK0 page).mpr ⟨hm, hpm⟩
        rwa [hk] at this
      exact hperm.trans (take_cons_erase_perm page st k hmt).symm
    · have hmt : page ∉ st.take (k + 1) := by
        intro h
        rw [← hk] at h
        exact hm ((stackInv_frames_mem s st hK0 page).mp h).1
      by_cases he : (-1 : Int) ∈ s.frames
      · obtain ⟨j, hj, hjp⟩ := referencePage_frames_empty s page hm he hpm
        rw [hj]
        have hlt := occupied_length_lt s.frames he
        have hlen := hperm.length_eq
        rw [List.length_take] at hlen
        have hst : st.length ≤ k := by omega
        have htk : st.take (k + 1) = st := List.take_of_length_le (by omega)
        rw [htk] at hmt hperm
        rw [List.erase_of_not_mem hmt, List.take_of_length_le hst]
        exact hjp.trans (List.Perm.cons page hperm)
      · rw [referencePage_frames_replace s page hm he]
        obtain ⟨v, hv, hvf, hvt, _⟩ := findLRU_spec s st hK0 he hne ht
          (fun q => if q = page then s.currentTime + 1 else s.lastAccessTime q)
          (fun q hq => by
            have : q ≠ page := fun e => hm (e ▸ hq)
            simp [this])
        rw [hv]
        rw [occupied_eq_self _ he] at hperm
        rw [hk, Nat.add_sub_cancel] at hvt
        have hrl : (replaceFirst v page s.frames).length = s.frames.length :=
          replaceFirst_length v page s.frames
        have hno2 : (-1 : Int) ∉ replaceFirst v page s.frames := by
          intro h
          have := ((replaceFirst_perm v page s.frames hvf).mem_iff).mp h
          rw [List.mem_cons] at this
          rcases this with h1 | h1
          · omega
          · exact he (List.mem_of_mem_erase h1)
        rw [occupied_eq_self _ hno2]
        have hpk : page ∉ st.take k := fun h =>
          hmt (List.take_subset_take_left st (Nat.le_succ k) h)
        rw [take_erase_of_not_mem page st k hpk]
        have hndT : (st.take k ++ [v]).Nodup := hvt ▸ hnd.sublist (List.take_sublist _ _)
        have hvk : v ∉ st.take k := by
          intro h
          exact (List.nodup_append.mp hndT).2.2 h (List.mem_singleton_self v)
        have herase : (st.take k ++ [v]).erase v = st.take k := by
          rw [List.erase_append_right _ hvk]
          simp
        have h1 : (s.frames.erase v).Perm (st.take k) := by
          have := (hperm.trans (List.Perm.of_eq hvt)).erase v
          rwa [herase] at this
        exact (replaceFirst_perm v page s.frames hvf).trans (List.Perm.cons page h1)


theorem new_eq (c : Int) (h : 0 ≤ c) :
    new c = some { numFrames := c, frames := List.replicate c.toNat (-1),
                   lastAccessTime := fun _ => 0, currentTime := 0, pageFaults := 0,
                   totalReferences := 0 } := by
  have : ¬ c < 0 := by omega
  simp [new, this]

theorem stackInv_init (c : Int) :
    StackInv { numFrames := c, frames := List.replicate c.toNat (-1),
               lastAccessTime := fun _ => 0, currentTime := 0, pageFaults := 0,
               totalReferences := 0 } [] := by
  refine ⟨le_refl _, List.nodup_nil, by simp, List.Pairwise.nil, by simp, ?_⟩
  simp [occupied]

theorem process_stackInv (refs : List Int) : ∀ (s : State) (st : List Int),
    StackInv s st → (∀ p ∈ refs, 0 ≤ p) → s.frames ≠ [] →
    s.currentTime + refs.length ≤ INT_MAX →
    StackInv (processReferenceString s refs) (lruStackFrom st refs) ∧
      (processReferenceString s refs).frames.length = s.frames.length ∧
      (processReferenceString s refs).currentTime = s.currentTime + refs.length := by
  induction refs with
  | nil => intro s st hK _ _ _; exact ⟨hK, rfl, by simp [processReferenceString]⟩
  | cons p rest ih =>
    intro s st hK hnn hne ht
    simp only [List.length_cons, Nat.cast_add, Nat.cast_one] at ht
    have hK1 := referencePage_stackInv s st p hK (hnn p (List.mem_cons_self _ _)) hne
      (by have := hK.1; omega)
    have hl1 := referencePage_length s p
    have hc1 := (referencePage_fields s p).1
    have hne1 : (referencePage s p).frames ≠ [] := by
      intro h
      rw [h] at hl1
      exact hne (List.length_eq_zero.mp hl1.symm)
    obtain ⟨h1, h2, h3⟩ := ih (referencePage s p) _ hK1
      (fun q hq => hnn q (List.mem_cons_of_mem _ hq)) hne1 (by omega)
    refine ⟨h1, by rw [← hl1]; exact h2, ?_⟩
    simp only [processReferenceString, List.foldl_cons, List.length_cons, Nat.cast_add,
      Nat.cast_one] at h3 ⊢
    omega

theorem faults_mono_aux (refs : List Int) : ∀ (s t : State) (st : List Int),
    StackInv s st → StackInv t st → s.frames.length ≤ t.frames.length → s.frames ≠ [] →
    s.currentTime + refs.length ≤ INT_MAX → t.currentTime + refs.length ≤ INT_MAX →
    (∀ p ∈ refs, 0 ≤ p) → t.pageFaults ≤ s.pageFaults →
    (processReferenceString t refs).pageFaults ≤ (processReferenceString s refs).pageFaults := by
  induction refs with
  | nil => intro s t st _ _ _ _ _ _ _ h; exact h
  | cons p rest ih =>
    intro s t st hKs hKt hlen hne hts htt hnn hf
    simp only [List.length_cons, Nat.cast_add, Nat.cast_one] at hts htt
    have hp := hnn p (List.mem_cons_self _ _)
    have hpm : p ≠ -1 := by omega
    have hnet : t.frames ≠ [] := by
      intro h
      rw [h] at hlen
      exact hne (List.length_eq_zero.mp (Nat.le_zero.mp hlen))
    have hKs1 := referencePage_stackInv s st p hKs hp hne (by have := hKs.1; omega)
    have hKt1 := referencePage_stackInv t st p hKt hp hnet (by have := hKt.1; omega)
    have hls := referencePage_length s p
    have hlt := referencePage_length t p
    obtain ⟨hcs, _, _, hfs⟩ := referencePage_fields s p
    obtain ⟨hct, _, _, hft⟩ := referencePage_fields t p
    have hmem : p ∈ s.frames → p ∈ t.frames := by
      intro h
      have h1 := (stackInv_frames_mem s st hKs p).mpr ⟨h, hpm⟩
      exact ((stackInv_frames_mem t st hKt p).mp (List.take_subset_take_left st hlen h1)).1
    have hne1 : (referencePage s p).frames ≠ [] := by
      intro h
      rw [h] at hls
      exact hne (List.length_eq_zero.mp hls.symm)
    refine ih (referencePage s p) (referencePage t p) _ hKs1 hKt1 (by omega) hne1 (by omega)
      (by omega) (fun q hq => hnn q (List.mem_cons_of_mem _ hq)) ?_
    rw [hfs, hft]
    by_cases h : p ∈ s.frames
    · simp only [h, hmem h, if_true]
      omega
    · simp only [h, if_false]
      split_ifs <;> omega

end LRUPageReplacement

/-- C2: for every reference string of non-negative page numbers (short enough for the `int`
clock `currentTime`) and all frame counts `1 ≤ c ≤ c1`, both `LRUPageReplacement(c)` and
`LRUPageReplacement(c1)` process the string, and the page-fault count with `c1` frames is
less than or equal to the count with `c` frames. -/
theorem C2_lru_faults_monotone (c c1 : Int) (refs : List Int) (h1 : 1 ≤ c) (h2 : c ≤ c1)
    (hnn : ∀ p ∈ refs, 0 ≤ p) (hlen : (refs.length : Int) ≤ INT_MAX) :
    ∃ a b, LRUPageReplacement.faults c refs = some a ∧
      LRUPageReplacement.faults c1 refs = some b ∧ b ≤ a := by
  refine ⟨_, _, by rw [LRUPageReplacement.faults, LRUPageReplacement.new_eq c (by omega)]; rfl,
    by rw [LRUPageReplacement.faults, LRUPageReplacement.new_eq c1 (by omega)]; rfl, ?_⟩
  refine LRUPageReplacement.faults_mono_aux refs _ _ []
    (LRUPageReplacement.stackInv_init c) (LRUPageReplacement.stackInv_init c1) ?_ ?_
    (by simpa using hlen) (by simpa using hlen) hnn (le_refl _)
  · simp only [List.length_replicate]
    omega
  · intro h
    have h3 := congrArg List.length h
    simp only [List.length_replicate, List.length_nil] at h3
    omega

/-- Witness of C2: the string 1,2,3,4,1,2,5,1,2,3,4,5 with 3 and 4 frames. -/
theorem C2_lru_faults_monotone_witness :
    (1 : Int) ≤ 3 ∧ (3 : Int) ≤ 4 ∧
    (∀ p ∈ [1, 2, 3, 4, 1, 2, 5, 1, 2, 3, 4, 5], (0 : Int) ≤ p) ∧
    (([1, 2, 3, 4, 1, 2, 5, 1, 2, 3, 4, 5] : List Int).length : Int) ≤ INT_MAX ∧
    ∃ a b, LRUPageReplacement.faults 3 [1, 2, 3, 4, 1, 2, 5, 1, 2, 3, 4, 5] = some a ∧
      LRUPageReplacement.faults 4 [1, 2, 3, 4, 1, 2, 5, 1, 2, 3, 4, 5] = some b ∧ b ≤ a :=
  ⟨by decide, by decide, by decide, by decide,
    C2_lru_faults_monotone 3 4 [1, 2, 3, 4, 1, 2, 5, 1, 2, 3, 4, 5] (by decide) (by decide)
      (by decide) (by decide)⟩

namespace LRUPageReplacement

theorem process_timesAgree (refs : List Int) : ∀ (s : State) (i : Nat)
    (acc : Int → Option Nat), s.currentTime = i → TimesAgree s acc →
    TimesAgree (processReferenceString s refs) (fun q => lastReferenceFrom q i (acc q) refs) := by
  induction refs with
  | nil => intro s i acc _ h; exact h
  | cons p rest ih =>
    intro s i acc hi h
    obtain ⟨hct, _, hlast, _⟩ := referencePage_fields s p
    have h1 : TimesAgree (referencePage s p) (fun q => if p = q then some i else acc q) := by
      intro q
      rw [hlast]
      by_cases hq : q = p
      · subst hq
        simp [hi]
      · have hq2 : ¬ p = q := fun e => hq e.symm
        simp only [hq, hq2, if_false]
        exact h q
    exact ih (referencePage s p) (i + 1) _ (by rw [hct, hi]; push_cast; ring) h1

theorem findEmptyFrame_eq_neg_one (s : State) (h : findEmptyFrame s = -1) :
    (-1 : Int) ∉ s.frames := by
  intro hm
  obtain ⟨k, hk, _⟩ := findEmptyFrameFrom_some s.frames 0 (by decide) 0 hm
  rw [findEmptyFrame, hk] at h
  omega

theorem reach_stackInv (c : Int) (hc : 1 ≤ c) (refs : List Int) (hnn : ∀ p ∈ refs, 0 ≤ p)
    (hlen : (refs.length : Int) ≤ INT_MAX) :
    ∃ s st, (new c).map (fun s0 => processReferenceString s0 refs) = some s ∧
      StackInv s st ∧ (s.frames.length : Int) = c ∧ s.currentTime = refs.length ∧
      TimesAgree s (lastReference refs) := by
  have hne : (List.replicate c.toNat (-1 : Int)) ≠ [] := by
    intro h
    have h3 := congrArg List.length h
    simp only [List.length_replicate, List.length_nil] at h3
    omega
  obtain ⟨h1, h2, h3⟩ := process_stackInv refs _ [] (stackInv_init c) hnn hne
    (by simpa using hlen)
  refine ⟨_, _, by rw [new_eq c (by omega)]; rfl, h1, ?_, by simpa using h3, ?_⟩
  · rw [h2]
    simp only [List.length_replicate]
    omega
  · exact process_timesAgree refs _ 0 (fun _ => none) rfl (fun _ => rfl)

end LRUPageReplacement

/-- C7: for every trace of non-negative page numbers and `numFrames ≥ 1`, when the next
reference to an `LRUPageReplacement` faults with all frames occupied, the page replaced is a
resident page `v` whose last-access time is strictly smaller than that of every other
resident page, i.e. whose most recent reference in the trace is the earliest. -/
theorem C7_lru_victim_least_recent (numFrames : Int) (h1 : 1 ≤ numFrames) (refs : List Int)
    (page : Int) (hnn : ∀ p ∈ refs, 0 ≤ p) (hlen : (refs.length : Int) < INT_MAX) :
    ∃ s, (LRUPageReplacement.new numFrames).map
        (fun s0 => LRUPageReplacement.processReferenceString s0 refs) = some s ∧
      (LRUPageReplacement.isPageInMemory s page = false →
        LRUPageReplacement.findEmptyFrame s = -1 →
        ∃ v, v ∈ s.frames ∧
          (LRUPageReplacement.referencePage s page).frames = replaceFirst v page s.frames ∧
          v ∉ (LRUPageReplacement.referencePage s page).frames ∧
          ∀ q ∈ s.frames, q ≠ v →
            q ∈ (LRUPageReplacement.referencePage s page).frames ∧
            s.lastAccessTime v < s.lastAccessTime q ∧
            ∃ kv kq, LRUPageReplacement.lastReference refs v = some kv ∧
              LRUPageReplacement.lastReference refs q = some kq ∧
              s.lastAccessTime v = kv + 1 ∧ s.lastAccessTime q = kq + 1 ∧ kv < kq) := by
  obtain ⟨s, st, hs, hK, hc, hct, hT⟩ :=
    LRUPageReplacement.reach_stackInv numFrames h1 refs hnn (by omega)
  refine ⟨s, hs, ?_⟩
  intro hm he
  have hm2 : page ∉ s.frames := by simpa [LRUPageReplacement.isPageInMemory] using hm
  have he2 := LRUPageReplacement.findEmptyFrame_eq_neg_one s he
  have hne : s.frames ≠ [] := by
    intro h
    rw [h] at hc
    simp at hc
    omega
  obtain ⟨v, hv, hvf, hvt, hmin⟩ := LRUPageReplacement.findLRU_spec s st hK he2 hne
    (by omega) (fun q => if q = page then s.currentTime + 1 else s.lastAccessTime q)
    (fun q hq => by
      have : q ≠ page := fun e => hm2 (e ▸ hq)
      simp [this])
  have hfr := LRUPageReplacement.referencePage_frames_replace s page hm2 he2
  rw [hv] at hfr
  have hperm := replaceFirst_perm v page s.frames hvf
  have hndf : s.frames.Nodup := by
    have h5 := hK.2.2.2.2.2
    rw [LRUPageReplacement.occupied_eq_self _ he2] at h5
    exact h5.nodup_iff.mpr (hK.2.1.sublist (List.take_sublist _ _))
  have hpos : ∀ q ∈ s.frames, ∃ k, LRUPageReplacement.lastReference refs q = some k ∧
      s.lastAccessTime q = k + 1 := by
    intro q hq
    have hq1 : q ≠ -1 := fun e => he2 (e ▸ hq)
    have hq2 := List.mem_of_mem_take
      ((LRUPageReplacement.stackInv_frames_mem s st hK q).mpr ⟨hq, hq1⟩)
    have hq3 := (hK.2.2.2.2.1 q hq2).1
    have hq4 := hT q
    cases hl : LRUPageReplacement.lastReference refs q with
    | none => rw [hl] at hq4; simp only at hq4; omega
    | some k => rw [hl] at hq4; exact ⟨k, rfl, hq4⟩
  refine ⟨v, hvf, hfr, ?_, ?_⟩
  · rw [hfr]
    intro h
    have h2 := hperm.mem_iff.mp h
    rw [List.mem_cons] at h2
    rcases h2 with h2 | h2
    · exact hm2 (h2 ▸ hvf)
    · exact (hndf.not_mem_erase) h2
  · intro q hq hqv
    obtain ⟨kv, hkv, hkv2⟩ := hpos v hvf
    obtain ⟨kq, hkq, hkq2⟩ := hpos q hq
    have hlt := hmin q hq hqv
    refine ⟨?_, hlt, kv, kq, hkv, hkq, hkv2, hkq2, by omega⟩
    rw [hfr]
    exact hperm.mem_iff.mpr (List.mem_cons_of_mem _ ((List.mem_erase_of_ne hqv).mpr hq))

/-- Witness of C7: three frames after 7,0,1; the reference to page 2 faults with all frames
occupied, and the conclusion of C7 holds there. -/
theorem C7_lru_victim_least_recent_witness :
    ∃ s, (LRUPageReplacement.new 3).map
        (fun s0 => LRUPageReplacement.processReferenceString s0 [7, 0, 1]) = some s ∧
      LRUPageReplacement.isPageInMemory s 2 = false ∧
      LRUPageReplacement.findEmptyFrame s = -1 ∧
      ∃ v, v ∈ s.frames ∧
        (LRUPageReplacement.referencePage s 2).frames = replaceFirst v 2 s.frames ∧
        v ∉ (LRUPageReplacement.referencePage s 2).frames ∧
        ∀ q ∈ s.frames, q ≠ v →
          q ∈ (LRUPageReplacement.referencePage s 2).frames ∧
          s.lastAccessTime v < s.lastAccessTime q ∧
          ∃ kv kq, LRUPageReplacement.lastReference [7, 0, 1] v = some kv ∧
            LRUPageReplacement.lastReference [7, 0, 1] q = some kq ∧
            s.lastAccessTime v = kv + 1 ∧ s.lastAccessTime q = kq + 1 ∧ kv < kq := by
  obtain ⟨s, hs, h⟩ := C7_lru_victim_least_recent 3 (by decide) [7, 0, 1] 2 (by decide)
    (by decide)
  have e := Option.some.inj hs
  subst e
  exact ⟨_, rfl, by decide, by decide, h (by decide) (by decide)⟩

/-- C9: in `LRUPageReplacement` with `numFrames ≥ 2` and a trace of non-negative pages, if a
reference faults and loads `p` and the next reference (to `q`) faults as well, then `p` is
still in the frames afterwards: the page replaced by the second fault is not `p`. -/
theorem C9_lru_fresh_page_survives (numFrames : Int) (h2 : 2 ≤ numFrames) (refs : List Int)
    (p q : Int) (hnn : ∀ r ∈ refs, 0 ≤ r) (hp : 0 ≤ p) (hq : 0 ≤ q)
    (hlen : (refs.length : Int) + 1 < INT_MAX) :
    ∃ s, (LRUPageReplacement.new numFrames).map
        (fun s0 => LRUPageReplacement.processReferenceString s0 refs) = some s ∧
      (LRUPageReplacement.isPageInMemory s p = false →
        LRUPageReplacement.isPageInMemory (LRUPageReplacement.referencePage s p) q = false →
        p ∈ (LRUPageReplacement.referencePage s p).frames ∧
        p ∈ (LRUPageReplacement.referencePage (LRUPageReplacement.referencePage s p) q).frames ∧
        ∀ v, v ∈ (LRUPageReplacement.referencePage s p).frames →
          v ∉ (LRUPageReplacement.referencePage
            (LRUPageReplacement.referencePage s p) q).frames → v ≠ p) := by
  obtain ⟨s, st, hs, hK, hc, hct, _⟩ :=
    LRUPageReplacement.reach_stackInv numFrames (by omega) refs hnn (by omega)
  refine ⟨s, hs, ?_⟩
  intro _ hmq
  have hne : s.frames ≠ [] := by
    intro h
    rw [h] at hc
    simp at hc
    omega
  have hK1 := LRUPageReplacement.referencePage_stackInv s st p hK hp hne (by omega)
  have hl1 := LRUPageReplacement.referencePage_length s p
  have hc1 := (LRUPageReplacement.referencePage_fields s p).1
  obtain ⟨k, hk⟩ : ∃ k, (LRUPageReplacement.referencePage s p).frames.length = k + 2 :=
    ⟨s.frames.length - 2, by omega⟩
  have hpm : p ≠ -1 := by omega
  have hqm : q ≠ -1 := by omega
  have hp1 : p ∈ (LRUPageReplacement.referencePage s p).frames := by
    have := (LRUPageReplacement.stackInv_frames_mem _ _ hK1 p).mp
      (by rw [hk, List.take_succ_cons]; exact List.mem_cons_self _ _)
    exact this.1
  have hmq2 : q ∉ (LRUPageReplacement.referencePage s p).frames := by
    simpa [LRUPageReplacement.isPageInMemory] using hmq
  have hp2 : p ∈ (LRUPageReplacement.referencePage
      (LRUPageReplacement.referencePage s p) q).frames := by
    by_cases he : (-1 : Int) ∈ (LRUPageReplacement.referencePage s p).frames
    · obtain ⟨j, hj, hjp⟩ := LRUPageReplacement.referencePage_frames_empty _ q hmq2 he hqm
      rw [hj]
      have h3 : p ∈ occupied ((LRUPageReplacement.referencePage s p).frames.set j q) :=
        hjp.mem_iff.mpr (List.mem_cons_of_mem _
          ((LRUPageReplacement.mem_occupied _ p).mpr ⟨hp1, hpm⟩))
      exact ((LRUPageReplacement.mem_occupied _ p).mp h3).1
    · have hne1 : (LRUPageReplacement.referencePage s p).frames ≠ [] := by
        intro h
        rw [h] at hk
        simp at hk
      obtain ⟨v, hv, hvf, hvt, _⟩ := LRUPageReplacement.findLRU_spec _ _ hK1 he hne1
        (by omega)
        (fun r => if r = q then (LRUPageReplacement.referencePage s p).currentTime + 1
          else (LRUPageReplacement.referencePage s p).lastAccessTime r)
        (fun r hr => by
          have : r ≠ q := fun e => hmq2 (e ▸ hr)
          simp [this])
      have hfr := LRUPageReplacement.referencePage_frames_replace _ q hmq2 he
      rw [hv] at hfr
      rw [hfr]
      have hvp : p ≠ v := by
        intro e
        have hnd : ((p :: st.erase p).take (k + 2)).Nodup :=
          hK1.2.1.sublist (List.take_sublist _ _)
        rw [hk] at hvt
        rw [hvt] at hnd
        have hpin : p ∈ (p :: st.erase p).take (k + 2 - 1) := by
          have : k + 2 - 1 = k + 1 := by omega
          rw [this, List.take_succ_cons]
          exact List.mem_cons_self _ _
        exact (List.nodup_append.mp hnd).2.2 hpin (by rw [e]; exact List.mem_singleton_self v)
      exact (replaceFirst_perm v q _ hvf).mem_iff.mpr
        (List.mem_cons_of_mem _ ((List.mem_erase_of_ne hvp).mpr hp1))
  exact ⟨hp1, hp2, fun v _ hv2 e => hv2 (e ▸ hp2)⟩

/-- Witness of C9: two frames after 1,2; page 3 faults, then page 4 faults, and page 3 is
still resident. -/
theorem C9_lru_fresh_page_survives_witness :
    ∃ s, (LRUPageReplacement.new 2).map
        (fun s0 => LRUPageReplacement.processReferenceString s0 [1, 2]) = some s ∧
      LRUPageReplacement.isPageInMemory s 3 = false ∧
      LRUPageReplacement.isPageInMemory (LRUPageReplacement.referencePage s 3) 4 = false ∧
      3 ∈ (LRUPageReplacement.referencePage s 3).frames ∧
      3 ∈ (LRUPageReplacement.referencePage (LRUPageReplacement.referencePage s 3) 4).frames ∧
      ∀ v, v ∈ (LRUPageReplacement.referencePage s 3).frames →
        v ∉ (LRUPageReplacement.referencePage
          (LRUPageReplacement.referencePage s 3) 4).frames → v ≠ 3 := by
  obtain ⟨s, hs, h⟩ := C9_lru_fresh_page_survives 2 (by decide) [1, 2] 3 4 (by decide)
    (by decide) (by decide) (by decide)
  have e := Option.some.inj hs
  subst e
  exact ⟨_, rfl, by decide, by decide, h (by decide) (by decide)⟩

/-! ### `TLBSimulator::findLRUEntry` -/

namespace TLBSimulator

theorem findLRUEntryLoop_spec (rest : List TLBEntry) : ∀ (A : List TLBEntry) (e : TLBEntry)
    (B : List TLBEntry) (i : Nat), i = (A ++ e :: B).length →
    (∀ a ∈ A, e.lastAccessTime < a.lastAccessTime) →
    (∀ b ∈ B, e.lastAccessTime ≤ b.lastAccessTime) →
    ∃ A1 e1 B1, A ++ e :: B ++ rest = A1 ++ e1 :: B1 ∧
      findLRUEntryLoop i A.length e.lastAccessTime rest = A1.length ∧
      (∀ a ∈ A1, e1.lastAccessTime < a.lastAccessTime) ∧
      (∀ b ∈ B1, e1.lastAccessTime ≤ b.lastAccessTime) := by
  induction rest with
  | nil =>
    intro A e B i _ hA hB
    exact ⟨A, e, B, by simp, rfl, hA, hB⟩
  | cons x xs ih =>
    intro A e B i hi hA hB
    by_cases hx : x.lastAccessTime < e.lastAccessTime
    · obtain ⟨A1, e1, B1, h1, h2, h3, h4⟩ := ih (A ++ e :: B) x [] (i + 1)
        (by simp [hi]; omega)
        (by
          intro a ha
          rw [List.mem_append, List.mem_cons] at ha
          rcases ha with ha | ha | ha
          · have := hA a ha; omega
          · rw [ha]; exact hx
          · have := hB a ha; omega)
        (by simp)
      refine ⟨A1, e1, B1, ?_, ?_, h3, h4⟩
      · rw [← h1]; simp
      · simp only [findLRUEntryLoop, hx, if_true]
        rw [← h2, hi]
    · obtain ⟨A1, e1, B1, h1, h2, h3, h4⟩ := ih A e (B ++ [x]) (i + 1)
        (by simp [hi]; omega) hA
        (by
          intro b hb
          rw [List.mem_append, List.mem_singleton] at hb
          rcases hb with hb | hb
          · exact hB b hb
          · rw [hb]; omega)
      refine ⟨A1, e1, B1, ?_, ?_, h3, h4⟩
      · rw [← h1]; simp
      · simp only [findLRUEntryLoop, hx, if_false]
        exact h2

end TLBSimulator

/-- C8: for every `TLBSimulator` state with `tlbSize ≥ 1` (and `tlb` of that size),
`findLRUEntry` returns an index `i` such that `tlb[i]` has the smallest `lastAccessTime` of
all entries and every entry in a lower slot has a strictly larger one: the lowest index
among the entries of minimal timestamp. -/
theorem C8_findLRUEntry_lowest_min (s : TLBSimulator.State) (h1 : 1 ≤ s.tlbSize)
    (hsz : (s.tlb.length : Int) = s.tlbSize) :
    ∃ A e B, s.tlb = A ++ e :: B ∧ TLBSimulator.findLRUEntry s = some A.length ∧
      (∀ a ∈ A, e.lastAccessTime < a.lastAccessTime) ∧
      (∀ b ∈ B, e.lastAccessTime ≤ b.lastAccessTime) := by
  cases ht : s.tlb with
  | nil => rw [ht] at hsz; simp at hsz; omega
  | cons e0 rest =>
    obtain ⟨A1, e1, B1, h2, h3, h4, h5⟩ :=
      TLBSimulator.findLRUEntryLoop_spec rest [] e0 [] 1 rfl (by simp) (by simp)
    refine ⟨A1, e1, B1, by simpa using h2, ?_, h4, h5⟩
    simp only [TLBSimulator.findLRUEntry, ht]
    exact congrArg some h3

/-- Witness of C8: three slots with timestamps 5, 2, 2; slot 1 is returned. -/
theorem C8_findLRUEntry_lowest_min_witness :
    TLBSimulator.findLRUEntry
      { tlbSize := 3,
        tlb := [⟨0, 5, 5, true⟩, ⟨1, 2, 2, true⟩, ⟨2, 10, 2, true⟩],
        pageTable := fun _ => none, currentTime := 5, tlbHits := 0, tlbMisses := 3,
        totalAccesses := 3 } = some 1 ∧
    ∃ A e B, [(⟨0, 5, 5, true⟩ : TLBSimulator.TLBEntry), ⟨1, 2, 2, true⟩, ⟨2, 10, 2, true⟩] =
        A ++ e :: B ∧
      TLBSimulator.findLRUEntry
        { tlbSize := 3,
          tlb := [⟨0, 5, 5, true⟩, ⟨1, 2, 2, true⟩, ⟨2, 10, 2, true⟩],
          pageTable := fun _ => none, currentTime := 5, tlbHits := 0, tlbMisses := 3,
          totalAccesses := 3 } = some A.length ∧
      (∀ a ∈ A, e.lastAccessTime < a.lastAccessTime) ∧
      (∀ b ∈ B, e.lastAccessTime ≤ b.lastAccessTime) :=
  ⟨by decide, C8_findLRUEntry_lowest_min
    { tlbSize := 3,
      tlb := [⟨0, 5, 5, true⟩, ⟨1, 2, 2, true⟩, ⟨2, 10, 2, true⟩],
      pageTable := fun _ => none, currentTime := 5, tlbHits := 0, tlbMisses := 3,
      totalAccesses := 3 } (by decide) (by decide)⟩

/-! ### `TLBSimulator::translate` -/

namespace TLBSimulator

theorem findInTLBFrom_spec (p : Int) (l : List TLBEntry) : ∀ i : Nat,
    (findInTLBFrom p i l = -1 ∧ ∀ e ∈ l, ¬ (e.valid = true ∧ e.pageNumber = p)) ∨
    ∃ k e, findInTLBFrom p i l = ((i + k : Nat) : Int) ∧ l[k]? = some e ∧
      e.valid = true ∧ e.pageNumber = p := by
  induction l with
  | nil => intro i; exact Or.inl ⟨rfl, by simp⟩
  | cons x xs ih =>
    intro i
    by_cases hx : x.valid = true ∧ x.pageNumber = p
    · exact Or.inr ⟨0, x, by simp [findInTLBFrom, hx], by simp, hx.1, hx.2⟩
    · rcases ih (i + 1) with ⟨h1, h2⟩ | ⟨k, e, h1, h2, h3, h4⟩
      · refine Or.inl ⟨by simp only [findInTLBFrom, hx, if_false]; exact h1, ?_⟩
        intro e he
        rw [List.mem_cons] at he
        rcases he with he | he
        · rw [he]; exact hx
        · exact h2 e he
      · refine Or.inr ⟨k + 1, e, ?_, by simpa using h2, h3, h4⟩
        simp only [findInTLBFrom, hx, if_false, h1]
        congr 1
        omega

theorem findEmptyTLBEntryFrom_spec (l : List TLBEntry) : ∀ i : Nat,
    findEmptyTLBEntryFrom i l = -1 ∨
    ∃ k, findEmptyTLBEntryFrom i l = ((i + k : Nat) : Int) ∧ k < l.length := by
  induction l with
  | nil => intro i; exact Or.inl rfl
  | cons x xs ih =>
    intro i
    cases hx : x.valid with
    | false => exact Or.inr ⟨0, by simp [findEmptyTLBEntryFrom, hx], by simp⟩
    | true =>
      rcases ih (i + 1) with h1 | ⟨k, h1, h2⟩
      · exact Or.inl (by simp [findEmptyTLBEntryFrom, hx, h1])
      · refine Or.inr ⟨k + 1, ?_, by simp only [List.length_cons]; omega⟩
        simp only [findEmptyTLBEntryFrom, hx, Bool.true_eq_false, if_false, h1]
        congr 1
        omega

theorem addToTLB_spec (s : State) (p f : Int) (hne : s.tlb ≠ []) :
    ∃ idx, idx < s.tlb.length ∧ addToTLB s p f = some (writeEntry s idx p f) := by
  unfold addToTLB
  rcases findEmptyTLBEntryFrom_spec s.tlb 0 with h | ⟨k, h, hk⟩
  · cases ht : s.tlb with
    | nil => exact absurd ht hne
    | cons e0 rest =>
      obtain ⟨A1, e1, B1, h2, h3, _, _⟩ :=
        findLRUEntryLoop_spec rest [] e0 [] 1 rfl (by simp) (by simp)
      refine ⟨A1.length, ?_, ?_⟩
      · have h4 := congrArg List.length h2
        simp only [List.nil_append, List.length_cons, List.length_append,
          List.length_nil] at h4 ⊢
        omega
      · have h5 : findEmptyTLBEntry s = -1 := h
        have h6 : findLRUEntry s = some A1.length := by
          simp only [findLRUEntry, ht]
          exact congrArg some h3
        simp only [h5, if_true, h6, Option.map_some']
  · refine ⟨k, hk, ?_⟩
    have h5 : findEmptyTLBEntry s = ((0 + k : Nat) : Int) := h
    have h6 : ¬ (((0 + k : Nat) : Int) = -1) := by omega
    simp only [h5, h6, if_false]
    congr 2
    simp

theorem coherent_set (s : State) (k : Nat) (e1 : TLBEntry) (hC : Coherent s)
    (h1 : e1.valid = true → s.pageTable e1.pageNumber = some e1.frameNumber) :
    ∀ e ∈ s.tlb.set k e1, e.valid = true → s.pageTable e.pageNumber = some e.frameNumber := by
  intro e he hv
  rcases List.mem_or_eq_of_mem_set he with h | h
  · exact hC e h hv
  · rw [h] at hv ⊢
    exact h1 hv

theorem translate_hit (s : State) (p f : Int) (hC : Coherent s)
    (hpt : s.pageTable p = some f)
    (hex : ∃ e ∈ s.tlb, e.valid = true ∧ e.pageNumber = p) :
    ∃ s1, translate s p = some (s1, f) ∧ s1.tlbHits = s.tlbHits + 1 ∧
      s1.tlbMisses = s.tlbMisses ∧ s1.pageTable = s.pageTable ∧ s1.tlbSize = s.tlbSize ∧
      s1.tlb.length = s.tlb.length ∧ Coherent s1 ∧
      ∃ e ∈ s1.tlb, e.valid = true ∧ e.pageNumber = p := by
  rcases findInTLBFrom_spec p s.tlb 0 with ⟨_, h2⟩ | ⟨k, e, h1, h2, h3, h4⟩
  · obtain ⟨e, he, hv⟩ := hex
    exact absurd hv (h2 e he)
  · have hf : e.frameNumber = f := by
      have := hC e (List.getElem?_mem h2) h3
      rw [h4, hpt] at this
      exact (Option.some.inj this).symm
    have hk : k < s.tlb.length := (List.getElem?_eq_some.mp h2).1
    have h5 : findInTLBFrom p 0 s.tlb ≠ -1 := by rw [h1]; omega
    have h6 : (findInTLBFrom p 0 s.tlb).toNat = k := by rw [h1]; simp
    refine ⟨{ s with totalAccesses := s.totalAccesses + 1
                     currentTime := s.currentTime + 1
                     tlbHits := s.tlbHits + 1
                     tlb := s.tlb.set k { e with lastAccessTime := s.currentTime + 1 } },
      ?_, rfl, rfl, rfl, rfl, by simp, ?_, ?_⟩
    · simp only [translate, findInTLB, h5, ne_eq, not_false_eq_true, if_true, h6, h2, hf]
    · exact coherent_set s k _ hC (fun hv => by
        have := hC e (List.getElem?_mem h2) hv
        exact this)
    · exact ⟨_, List.mem_set _ k hk _, h3, h4⟩

theorem translate_miss (s : State) (p f : Int) (hC : Coherent s) (hne : s.tlb ≠ [])
    (hpt : s.pageTable p = some f)
    (hno : ∀ e ∈ s.tlb, ¬ (e.valid = true ∧ e.pageNumber = p)) :
    ∃ s1, translate s p = some (s1, f) ∧ s1.pageTable = s.pageTable ∧
      s1.tlbSize = s.tlbSize ∧ s1.tlb.length = s.tlb.length ∧ Coherent s1 ∧
      ∃ e ∈ s1.tlb, e.valid = true ∧ e.pageNumber = p := by
  have h5 : findInTLBFrom p 0 s.tlb = -1 := by
    rcases findInTLBFrom_spec p s.tlb 0 with ⟨h1, _⟩ | ⟨k, e, _, h2, h3, h4⟩
    · exact h1
    · exact absurd ⟨h3, h4⟩ (hno e (List.getElem?_mem h2))
  obtain ⟨idx, hidx, hadd⟩ := addToTLB_spec
    { s with totalAccesses := s.totalAccesses + 1, currentTime := s.currentTime + 1,
             tlbMisses := s.tlbMisses + 1 } p f hne
  refine ⟨writeEntry { s with totalAccesses := s.totalAccesses + 1
                              currentTime := s.currentTime + 1
                              tlbMisses := s.tlbMisses + 1 } idx p f, ?_, ?_, ?_, ?_, ?_, ?_⟩
  · simp only [translate, findInTLB, h5, ne_eq, not_true_eq_false, if_false, hpt, hadd,
      Option.map_some']
  · rfl
  · rfl
  · simp [writeEntry]
  · exact coherent_set s idx _ hC (fun _ => hpt)
  · exact ⟨_, List.mem_set _ idx hidx _, rfl, rfl⟩

theorem translate_inv (s s1 : State) (p r : Int) (hC : Coherent s)
    (ht : translate s p = some (s1, r)) :
    Coherent s1 ∧ s1.pageTable = s.pageTable ∧ s1.tlbSize = s.tlbSize ∧
      s1.tlb.length = s.tlb.length := by
  by_cases hex : ∃ e ∈ s.tlb, e.valid = true ∧ e.pageNumber = p
  · obtain ⟨e, he, hv, hp⟩ := hex
    have hpt := hC e he hv
    rw [hp] at hpt
    obtain ⟨s2, h1, _, _, h4, h5, h6, h7, _⟩ := translate_hit s p _ hC hpt ⟨e, he, hv, hp⟩
    rw [h1] at ht
    have h8 : s2 = s1 := (Prod.mk.inj (Option.some.inj ht)).1
    subst h8
    exact ⟨h7, h4, h5, h6⟩
  · have hno : ∀ e ∈ s.tlb, ¬ (e.valid = true ∧ e.pageNumber = p) :=
      fun e he hv => hex ⟨e, he, hv⟩
    cases hpt : s.pageTable p with
    | some f =>
      by_cases hne : s.tlb = []
      · have h5 : findInTLBFrom p 0 s.tlb = -1 := by rw [hne]; rfl
        simp [translate, findInTLB, h5, hpt, addToTLB, findEmptyTLBEntry, findLRUEntry, hne,
          findEmptyTLBEntryFrom] at ht
      · obtain ⟨s2, h1, h4, h5, h6, h7, _⟩ := translate_miss s p f hC hne hpt hno
        rw [h1] at ht
        have h8 : s2 = s1 := (Prod.mk.inj (Option.some.inj ht)).1
        subst h8
        exact ⟨h7, h4, h5, h6⟩
    | none =>
      have h5 : findInTLBFrom p 0 s.tlb = -1 := by
        rcases findInTLBFrom_spec p s.tlb 0 with ⟨h1, _⟩ | ⟨k, e, _, h2, h3, h4⟩
        · exact h1
        · exact absurd ⟨h3, h4⟩ (hno e (List.getElem?_mem h2))
      simp only [translate, findInTLB, h5, ne_eq, not_true_eq_false, if_false, hpt,
        Option.some.injEq, Prod.mk.injEq] at ht
      rw [← ht.1]
      exact ⟨hC, rfl, rfl, rfl⟩

theorem reachable_inv (s : State) (h : Reachable s) :
    Coherent s ∧ (s.tlb.length : Int) = s.tlbSize := by
  induction h with
  | init size s0 pt h0 =>
    unfold new at h0
    by_cases hs : size < 0
    · simp [hs] at h0
    · simp only [hs, if_false, Option.some.injEq] at h0
      subst h0
      refine ⟨?_, ?_⟩
      · intro e he hv
        simp only [initializePageTable] at he
        rw [List.eq_of_mem_replicate he] at hv
        simp [TLBEntry.empty] at hv
      · simp only [initializePageTable, List.length_replicate]
        omega
  | step s s1 p r _ ht ih =>
    obtain ⟨h1, _, h3, h4⟩ := translate_inv s s1 p r ih.1 ht
    exact ⟨h1, by rw [h4, h3]; exact ih.2⟩

end TLBSimulator

namespace TLBSimulator

/-- The search `findInTLB` reads the fields `valid` and `pageNumber` only. -/
theorem findInTLBFrom_set (p : Int) (e1 : TLBEntry) (l : List TLBEntry) :
    ∀ (i k : Nat) (e : TLBEntry), l[k]? = some e → e1.valid = e.valid →
      e1.pageNumber = e.pageNumber →
      findInTLBFrom p i (l.set k e1) = findInTLBFrom p i l := by
  induction l with
  | nil => intro i k e h; simp at h
  | cons x xs ih =>
    intro i k e h hv hp
    cases k with
    | zero =>
      simp only [List.getElem?_cons_zero, Option.some.injEq] at h
      subst h
      simp only [List.set_cons_zero, findInTLBFrom, hv, hp]
    | succ k =>
      simp only [List.getElem?_cons_succ] at h
      simp only [List.set_cons_succ, findInTLBFrom, ih (i + 1) k e h hv hp]

/-- A TLB hit: the entry found is stamped and its frame returned. -/
theorem translate_found (s : State) (p : Int) (k : Nat) (e : TLBEntry)
    (h1 : findInTLBFrom p 0 s.tlb = ((0 + k : Nat) : Int)) (h2 : s.tlb[k]? = some e) :
    translate s p =
      some ({ s with totalAccesses := s.totalAccesses + 1
                     currentTime := s.currentTime + 1
                     tlbHits := s.tlbHits + 1
                     tlb := s.tlb.set k { e with lastAccessTime := s.currentTime + 1 } },
        e.frameNumber) := by
  have h5 : findInTLBFrom p 0 s.tlb ≠ -1 := by rw [h1]; omega
  have h6 : (findInTLBFrom p 0 s.tlb).toNat = k := by rw [h1]; simp
  simp only [translate, findInTLB, h5, ne_eq, not_false_eq_true, if_true, h6, h2]

/-- Two calls of `translate(p)` in a row, in any state with a TLB entry and `p` in the page
table: the second call is a TLB hit that returns the frame of the first call; the frame is
the one of the page table unless the TLB holds a valid entry of `p` with another frame. -/
theorem translate_twice (s : State) (p f : Int) (hne : s.tlb ≠ [])
    (hpt : s.pageTable p = some f) :
    ∃ s1 s2 r, translate s p = some (s1, r) ∧ translate s1 p = some (s2, r) ∧
      s2.tlbHits = s1.tlbHits + 1 ∧ s2.tlbMisses = s1.tlbMisses ∧
      ((∀ e ∈ s.tlb, e.valid = true → e.pageNumber = p → e.frameNumber = f) → r = f) := by
  rcases findInTLBFrom_spec p s.tlb 0 with ⟨h1, h2⟩ | ⟨k, e, h1, h2, h3, h4⟩
  · obtain ⟨idx, hidx, hadd⟩ := addToTLB_spec
      { s with totalAccesses := s.totalAccesses + 1, currentTime := s.currentTime + 1,
               tlbMisses := s.tlbMisses + 1 } p f hne
    have hfirst : translate s p =
        some (writeEntry { s with totalAccesses := s.totalAccesses + 1
                                  currentTime := s.currentTime + 1
                                  tlbMisses := s.tlbMisses + 1 } idx p f, f) := by
      simp only [translate, findInTLB, h1, ne_eq, not_true_eq_false, if_false, hpt, hadd,
        Option.map_some']
    rcases findInTLBFrom_spec p
        (writeEntry { s with totalAccesses := s.totalAccesses + 1,
                             currentTime := s.currentTime + 1,
                             tlbMisses := s.tlbMisses + 1 } idx p f).tlb 0 with
      ⟨_, g2⟩ | ⟨k, e, g1, g2, g3, g4⟩
    · exact absurd ⟨rfl, rfl⟩ (g2 _ (List.mem_set _ idx hidx _))
    · have hf : e.frameNumber = f := by
        simp only [writeEntry] at g2
        by_cases hk : idx = k
        · subst hk
          rw [List.getElem?_set_self hidx] at g2
          rw [← Option.some.inj g2]
        · rw [List.getElem?_set_ne hk] at g2
          exact absurd ⟨g3, g4⟩ (h2 e (List.getElem?_mem g2))
      have hsecond := translate_found _ p k e g1 g2
      rw [hf] at hsecond
      exact ⟨_, _, f, hfirst, hsecond, rfl, rfl, fun _ => rfl⟩
  · have hk : k < s.tlb.length := (List.getElem?_eq_some.mp h2).1
    have hfirst := translate_found s p k e h1 h2
    have g1 : findInTLBFrom p 0
        (s.tlb.set k { e with lastAccessTime := s.currentTime + 1 }) =
        ((0 + k : Nat) : Int) := by
      exact (findInTLBFrom_set p { e with lastAccessTime := s.currentTime + 1 } s.tlb 0 k e h2
        rfl rfl).trans h1
    have g2 : (s.tlb.set k { e with lastAccessTime := s.currentTime + 1 })[k]? =
        some { e with lastAccessTime := s.currentTime + 1 } := List.getElem?_set_self hk
    have hsecond := translate_found
      { s with totalAccesses := s.totalAccesses + 1
               currentTime := s.currentTime + 1
               tlbHits := s.tlbHits + 1
               tlb := s.tlb.set k { e with lastAccessTime := s.currentTime + 1 } }
      p k { e with lastAccessTime := s.currentTime + 1 } g1 g2
    exact ⟨_, _, e.frameNumber, hfirst, hsecond, rfl, rfl,
      fun h => h e (List.getElem?_mem h2) h3 h4⟩

theorem translate_length (s s1 : State) (p r : Int) (ht : translate s p = some (s1, r)) :
    s1.tlbSize = s.tlbSize ∧ s1.tlb.length = s.tlb.length := by
  rcases findInTLBFrom_spec p s.tlb 0 with ⟨h1, _⟩ | ⟨k, e, h1, h2, _, _⟩
  · cases hpt : s.pageTable p with
    | some f =>
      by_cases hne : s.tlb = []
      · simp [translate, findInTLB, h1, hpt, addToTLB, findEmptyTLBEntry, findLRUEntry, hne,
          findEmptyTLBEntryFrom] at ht
      · obtain ⟨idx, _, hadd⟩ := addToTLB_spec
          { s with totalAccesses := s.totalAccesses + 1, currentTime := s.currentTime + 1,
                   tlbMisses := s.tlbMisses + 1 } p f hne
        simp only [translate, findInTLB, h1, ne_eq, not_true_eq_false, if_false, hpt, hadd,
          Option.map_some', Option.some.injEq, Prod.mk.injEq] at ht
        rw [← ht.1]
        exact ⟨rfl, by simp [writeEntry]⟩
    | none =>
      simp only [translate, findInTLB, h1, ne_eq, not_true_eq_false, if_false, hpt,
        Option.some.injEq, Prod.mk.injEq] at ht
      rw [← ht.1]
      exact ⟨rfl, rfl⟩
  · rw [translate_found s p k e h1 h2] at ht
    simp only [Option.some.injEq, Prod.mk.injEq] at ht
    rw [← ht.1]
    exact ⟨rfl, by simp⟩

theorem used_length (s : State) (h : Used s) : (s.tlb.length : Int) = s.tlbSize := by
  induction h with
  | init size s0 h0 =>
    unfold new at h0
    by_cases hs : size < 0
    · simp [hs] at h0
    · simp only [hs, if_false, Option.some.injEq] at h0
      subst h0
      simp only [List.length_replicate]
      omega
  | table s pt _ ih => exact ih
  | step s s1 p r _ ht ih =>
    obtain ⟨h3, h4⟩ := translate_length s s1 p r ht
    rw [h4, h3]
    exact ih

end TLBSimulator

/-! ### `TLB` and `MemorySystem::translateAddress` -/

namespace TLB

theorem detach_none (p : Int) (l : List TLBEntry) (h : detach p l = none) :
    ∀ e ∈ l, e.pageNumber ≠ p := by
  induction l with
  | nil => simp
  | cons x xs ih =>
    by_cases hx : x.pageNumber = p
    · simp [detach, hx] at h
    · simp only [detach, hx, if_false, Option.map_eq_none'] at h
      intro e he
      rw [List.mem_cons] at he
      rcases he with he | he
      · rw [he]; exact hx
      · exact ih h e he

theorem detach_some (p : Int) (l : List TLBEntry) : ∀ (e : TLBEntry) (rest : List TLBEntry),
    detach p l = some (e, rest) → e.pageNumber = p ∧ (e :: rest).Perm l := by
  induction l with
  | nil => intro e rest h; simp [detach] at h
  | cons x xs ih =>
    intro e rest h
    by_cases hx : x.pageNumber = p
    · simp only [detach, hx, if_true, Option.some.injEq, Prod.mk.injEq] at h
      rw [← h.1, ← h.2]
      exact ⟨hx, List.Perm.refl _⟩
    · simp only [detach, hx, if_false, Option.map_eq_some', Prod.mk.injEq] at h
      obtain ⟨⟨e1, r1⟩, h1, h2, h3⟩ := h
      obtain ⟨h4, h5⟩ := ih e1 r1 h1
      simp only at h2 h3
      rw [← h2, ← h3]
      exact ⟨h4, (List.Perm.swap x e1 r1).trans (List.Perm.cons x h5)⟩

theorem inv_of_perm (pt : Int → Option Int) (s : State) (l : List TLBEntry)
    (hI : Inv pt s) (hp : l.Perm s.tlbCache) :
    (∀ q, q ∈ s.tlbMap ↔ ∃ e ∈ l, e.pageNumber = q) ∧
    (l.map (fun e => e.pageNumber)).Nodup ∧
    (∀ e ∈ l, pt e.pageNumber = some e.frameNumber) := by
  obtain ⟨h1, h2, h3⟩ := hI
  refine ⟨?_, ?_, ?_⟩
  · intro q
    rw [h1 q]
    constructor
    · rintro ⟨e, he, hq⟩; exact ⟨e, hp.mem_iff.mpr he, hq⟩
    · rintro ⟨e, he, hq⟩; exact ⟨e, hp.mem_iff.mp he, hq⟩
  · exact ((hp.map _).nodup_iff).mpr h2
  · intro e he
    exact h3 e (hp.mem_iff.mp he)

theorem lookup_hit (pt : Int → Option Int) (s : State) (p : Int) (hI : Inv pt s)
    (hp : p ∈ s.tlbMap) :
    ∃ s1 f, pt p = some f ∧ lookup s p = some (s1, f) ∧ s1.hits = s.hits + 1 ∧
      s1.misses = s.misses ∧ s1.tlbMap = s.tlbMap ∧ Inv pt s1 := by
  cases hd : detach p s.tlbCache with
  | none =>
    obtain ⟨e, he, hq⟩ := (hI.1 p).mp hp
    exact absurd hq (detach_none p _ hd e he)
  | some r =>
    obtain ⟨e, rest⟩ := r
    obtain ⟨h1, h2⟩ := detach_some p _ e rest hd
    have h3 := inv_of_perm pt s _ hI h2
    have h4 := h3.2.2 e (List.mem_cons_self _ _)
    rw [h1] at h4
    refine ⟨{ s with hits := s.hits + 1, tlbCache := e :: rest }, e.frameNumber, h4, ?_, rfl,
      rfl, rfl, h3⟩
    simp only [lookup, hp, if_true, hd, Option.map_some']

theorem lookup_miss (s : State) (p : Int) (hp : p ∉ s.tlbMap) :
    lookup s p = some ({ s with misses := s.misses + 1 }, -1) := by
  simp only [lookup, hp, if_false]

theorem insert_new (pt : Int → Option Int) (s : State) (p f : Int) (hI : Inv pt s)
    (hp : p ∉ s.tlbMap) (hpt : pt p = some f) :
    ∃ s1, insert s p f = some s1 ∧ s1.hits = s.hits ∧ s1.misses = s.misses ∧
      p ∈ s1.tlbMap ∧ Inv pt s1 := by
  obtain ⟨h1, h2, h3⟩ := hI
  have hpc : ∀ e ∈ s.tlbCache, e.pageNumber ≠ p := fun e he hq => hp ((h1 p).mpr ⟨e, he, hq⟩)
  by_cases hfull : toSizeT TLB_SIZE ≤ s.tlbCache.length
  · cases hl : s.tlbCache.getLast? with
    | none =>
      rw [List.getLast?_eq_none_iff] at hl
      rw [hl] at hfull
      exact absurd hfull (by decide)
    | some back =>
      have hsplit := List.dropLast_append_getLast? back hl
      have hbnot : ∀ e ∈ s.tlbCache.dropLast, e.pageNumber ≠ back.pageNumber := by
        intro e he hq
        rw [← hsplit, List.map_append, List.nodup_append] at h2
        exact h2.2.2 (List.mem_map_of_mem _ he) (by simp [hq])
      refine ⟨{ s with tlbMap := Insert.insert p (s.tlbMap.erase back.pageNumber)
                       tlbCache := { pageNumber := p, frameNumber := f } ::
                         s.tlbCache.dropLast },
        ?_, rfl, rfl, by simp, ?_, ?_, ?_⟩
      · simp only [insert, hp, if_false, hfull, if_true, hl, Option.map_some']
      · intro q
        simp only [Finset.mem_insert, Finset.mem_erase, List.mem_cons, exists_eq_or_imp]
        rw [h1 q]
        constructor
        · rintro (hq | ⟨hq1, e, he, hq2⟩)
          · exact Or.inl hq.symm
          · rw [← hsplit, List.mem_append, List.mem_singleton] at he
            rcases he with he | he
            · exact Or.inr ⟨e, he, hq2⟩
            · rw [he] at hq2; exact absurd hq2.symm hq1
        · rintro (hq | ⟨e, he, hq⟩)
          · exact Or.inl hq.symm
          · refine Or.inr ⟨?_, e, List.mem_of_mem_dropLast he, hq⟩
            rw [← hq]
            exact hbnot e he
      · simp only [List.map_cons, List.nodup_cons, List.mem_map, not_exists, not_and]
        refine ⟨fun e he => hpc e (List.mem_of_mem_dropLast he), ?_⟩
        exact h2.sublist ((List.dropLast_sublist _).map _)
      · intro e he
        rw [List.mem_cons] at he
        rcases he with he | he
        · rw [he]; exact hpt
        · exact h3 e (List.mem_of_mem_dropLast he)
  · refine ⟨{ s with tlbMap := Insert.insert p s.tlbMap
                     tlbCache := { pageNumber := p, frameNumber := f } :: s.tlbCache },
      ?_, rfl, rfl, by simp, ?_, ?_, ?_⟩
    · simp only [insert, hp, if_false, hfull, Option.map_some']
    · intro q
      simp only [Finset.mem_insert, List.mem_cons, exists_eq_or_imp]
      rw [h1 q]
      constructor
      · rintro (hq | hq)
        · exact Or.inl hq.symm
        · exact Or.inr hq
      · rintro (hq | hq)
        · exact Or.inl hq.symm
        · exact Or.inr hq
    · simp only [List.map_cons, List.nodup_cons, List.mem_map, not_exists, not_and]
      exact ⟨fun e he => hpc e he, h2⟩
    · intro e he
      rw [List.mem_cons] at he
      rcases he with he | he
      · rw [he]; exact hpt
      · exact h3 e he

end TLB

namespace MemorySystem

theorem initialPageTable_ne (p f : Int) (h : initialPageTable p = some f) : f ≠ -1 := by
  unfold initialPageTable at h
  split_ifs at h <;> simp at h <;> omega

theorem translateAddress_mapped (s : State) (p f : Int) (hpt : s.pageTable = initialPageTable)
    (hI : TLB.Inv s.pageTable s.tlb) (hp : s.pageTable p = some f) :
    ∃ s1, translateAddress s p = some (s1, f) ∧ s1.pageTable = s.pageTable ∧
      TLB.Inv s1.pageTable s1.tlb ∧ p ∈ s1.tlb.tlbMap ∧
      (p ∈ s.tlb.tlbMap → s1.tlb.hits = s.tlb.hits + 1 ∧ s1.tlb.misses = s.tlb.misses) := by
  have hf : f ≠ -1 := initialPageTable_ne p f (hpt ▸ hp)
  by_cases hm : p ∈ s.tlb.tlbMap
  · obtain ⟨t1, f1, h1, h2, h3, h4, h5, h6⟩ := TLB.lookup_hit s.pageTable s.tlb p hI hm
    have hff : f1 = f := Option.some.inj (h1.symm.trans hp)
    subst hff
    refine ⟨{ s with tlb := t1 }, ?_, rfl, h6, by rw [h5]; exact hm, fun _ => ⟨h3, h4⟩⟩
    simp only [translateAddress, h2, Option.some_bind, hf, if_false]
  · have h2 := TLB.lookup_miss s.tlb p hm
    have hI1 : TLB.Inv s.pageTable { s.tlb with misses := s.tlb.misses + 1 } := hI
    obtain ⟨t2, h3, _, _, h6, h7⟩ := TLB.insert_new s.pageTable _ p f hI1 hm hp
    refine ⟨{ s with tlb := t2 }, ?_, rfl, h7, h6, fun h => absurd h hm⟩
    simp only [translateAddress, h2, Option.some_bind, if_true, hp, h3, Option.map_some']

theorem translateAddress_inv (s s1 : State) (p r : Int) (hpt : s.pageTable = initialPageTable)
    (hI : TLB.Inv s.pageTable s.tlb) (ht : translateAddress s p = some (s1, r)) :
    s1.pageTable = initialPageTable ∧ TLB.Inv s1.pageTable s1.tlb := by
  cases hp : s.pageTable p with
  | some f =>
    obtain ⟨s2, h1, h2, h3, _, _⟩ := translateAddress_mapped s p f hpt hI hp
    rw [h1] at ht
    have h8 : s2 = s1 := (Prod.mk.inj (Option.some.inj ht)).1
    subst h8
    exact ⟨h2.trans hpt, h3⟩
  | none =>
    have hm : p ∉ s.tlb.tlbMap := by
      intro hm
      obtain ⟨_, f1, h1, _⟩ := TLB.lookup_hit s.pageTable s.tlb p hI hm
      rw [hp] at h1
      simp at h1
    have h2 := TLB.lookup_miss s.tlb p hm
    simp only [translateAddress, h2, Option.some_bind, if_true, hp, Option.some.injEq,
      Prod.mk.injEq] at ht
    rw [← ht.1]
    exact ⟨hpt, hI⟩

theorem reachable_tlb_inv (s : State) (h : Reachable s) :
    s.pageTable = initialPageTable ∧ TLB.Inv s.pageTable s.tlb := by
  induction h with
  | init => exact ⟨rfl, by simp [new, TLB.new, TLB.Inv]⟩
  | step s s1 p r _ ht ih => exact translateAddress_inv s s1 p r ih.1 ih.2 ht

end MemorySystem

/-- C10 (as stated, refuted for `TLBSimulator`): `initializePageTable` replaces the page table
and leaves the TLB as it is. `TLBSimulator(4)` with page 1 in frame 2 translates page 1 to
frame 2; after `initializePageTable` with page 1 in frame 3, `translate(1)` is a TLB hit that
returns the frame 2 of the old table, not `pageTable[1] = 3`. -/
theorem C10_stale_frame_after_initializePageTable :
    ∃ s0 s1 s2, TLBSimulator.new 4 = some s0 ∧
      TLBSimulator.translate
        (TLBSimulator.initializePageTable s0 (fun p => if p = 1 then some 2 else none)) 1 =
        some (s1, 2) ∧
      (TLBSimulator.initializePageTable s1
        (fun p => if p = 1 then some 3 else none)).pageTable 1 = some 3 ∧
      TLBSimulator.translate
        (TLBSimulator.initializePageTable s1 (fun p => if p = 1 then some 3 else none)) 1 =
        some (s2, 2) ∧
      s2.tlbHits = s1.tlbHits + 1 :=
  ⟨_, _, _, rfl, rfl, rfl, rfl, rfl⟩

/-- C10 (amended): in every reachable `MemorySystem` state, for a page `p` mapped to frame `f`
by the page table, `translateAddress(p)` returns `f` and the immediately following
`translateAddress(p)` is a TLB hit (`hits` grows by one, `misses` is unchanged) that returns
`f` again. The same holds for `TLBSimulator::translate` with `tlbSize ≥ 1` in every state
reached from the constructor and one `initializePageTable` through `translate`. In every
state reached by calls of `initializePageTable` and `translate` in any order, the second of
two calls `translate(p)` is a TLB hit that returns the frame of the first call, and this
frame is `f` when the TLB holds no valid entry of `p` with another frame (so whenever the
first call is a TLB miss). -/
theorem C10_translate_then_tlb_hit :
    (∀ (s : MemorySystem.State) (p f : Int), MemorySystem.Reachable s →
      s.pageTable p = some f →
      ∃ s1 s2, MemorySystem.translateAddress s p = some (s1, f) ∧
        MemorySystem.translateAddress s1 p = some (s2, f) ∧
        s2.tlb.hits = s1.tlb.hits + 1 ∧ s2.tlb.misses = s1.tlb.misses) ∧
    (∀ (s : TLBSimulator.State) (p f : Int), TLBSimulator.Reachable s → 1 ≤ s.tlbSize →
      s.pageTable p = some f →
      ∃ s1 s2, TLBSimulator.translate s p = some (s1, f) ∧
        TLBSimulator.translate s1 p = some (s2, f) ∧
        s2.tlbHits = s1.tlbHits + 1 ∧ s2.tlbMisses = s1.tlbMisses) ∧
    (∀ (s : TLBSimulator.State) (p f : Int), TLBSimulator.Used s → 1 ≤ s.tlbSize →
      s.pageTable p = some f →
      ∃ s1 s2 r, TLBSimulator.translate s p = some (s1, r) ∧
        TLBSimulator.translate s1 p = some (s2, r) ∧
        s2.tlbHits = s1.tlbHits + 1 ∧ s2.tlbMisses = s1.tlbMisses ∧
        ((∀ e ∈ s.tlb, e.valid = true → e.pageNumber = p → e.frameNumber = f) → r = f)) := by
  refine ⟨?_, ?_, ?_⟩
  · intro s p f hr hp
    obtain ⟨hpt, hI⟩ := MemorySystem.reachable_tlb_inv s hr
    obtain ⟨s1, h1, h2, h3, h4, _⟩ := MemorySystem.translateAddress_mapped s p f hpt hI hp
    obtain ⟨s2, h5, _, _, _, h6⟩ := MemorySystem.translateAddress_mapped s1 p f
      (h2.trans hpt) h3 (h2 ▸ hp)
    exact ⟨s1, s2, h1, h5, (h6 h4).1, (h6 h4).2⟩
  · intro s p f hr hsz hp
    obtain ⟨hC, hlen⟩ := TLBSimulator.reachable_inv s hr
    have hne : s.tlb ≠ [] := by
      intro h
      rw [h] at hlen
      simp at hlen
      omega
    obtain ⟨s1, s2, r, h1, h2, h3, h4, h5⟩ := TLBSimulator.translate_twice s p f hne hp
    have hr : r = f := by
      apply h5
      intro e he hv hpe
      have := hC e he hv
      rw [hpe, hp] at this
      exact (Option.some.inj this).symm
    subst hr
    exact ⟨s1, s2, h1, h2, h3, h4⟩
  · intro s p f hu hsz hp
    have hlen := TLBSimulator.used_length s hu
    have hne : s.tlb ≠ [] := by
      intro h
      rw [h] at hlen
      simp at hlen
      omega
    exact TLBSimulator.translate_twice s p f hne hp

/-- Witness of C10: page 0 in a fresh `MemorySystem` (frame 5); page 1 in a fresh
`TLBSimulator(4)` whose page table maps page 1 to frame 2; and page 1 again after the page
table was replaced by one that maps page 1 to frame 3 (both calls return the cached
frame 2). -/
theorem C10_translate_then_tlb_hit_witness :
    (∃ s1 s2, MemorySystem.translateAddress MemorySystem.new 0 = some (s1, 5) ∧
        MemorySystem.translateAddress s1 0 = some (s2, 5) ∧
        s2.tlb.hits = s1.tlb.hits + 1 ∧ s2.tlb.misses = s1.tlb.misses) ∧
    (∃ s0, TLBSimulator.new 4 = some s0 ∧
      ∃ s1 s2, TLBSimulator.translate
          (TLBSimulator.initializePageTable s0 (fun p => if p = 1 then some 2 else none)) 1 =
          some (s1, 2) ∧
        TLBSimulator.translate s1 1 = some (s2, 2) ∧
        s2.tlbHits = s1.tlbHits + 1 ∧ s2.tlbMisses = s1.tlbMisses ∧
        ∃ t1 t2 r, TLBSimulator.translate
            (TLBSimulator.initializePageTable s1 (fun p => if p = 1 then some 3 else none)) 1 =
            some (t1, r) ∧
          TLBSimulator.translate t1 1 = some (t2, r) ∧
          t2.tlbHits = t1.tlbHits + 1 ∧ t2.tlbMisses = t1.tlbMisses) := by
  refine ⟨C10_translate_then_tlb_hit.1 MemorySystem.new 0 5 MemorySystem.Reachable.init rfl,
    _, rfl, ?_⟩
  obtain ⟨s1, s2, h1, h2, h3, h4⟩ := C10_translate_then_tlb_hit.2.1 _ 1 2
    (TLBSimulator.Reachable.init 4 _ (fun p => if p = 1 then some 2 else none) rfl)
    (by decide) rfl
  refine ⟨s1, s2, h1, h2, h3, h4, ?_⟩
  obtain ⟨t1, t2, r, k1, k2, k3, k4, _⟩ := C10_translate_then_tlb_hit.2.2
    (TLBSimulator.initializePageTable s1 (fun p => if p = 1 then some 3 else none)) 1 3
    (TLBSimulator.Used.table _ _ (TLBSimulator.Used.step _ s1 1 2
      (TLBSimulator.Used.table _ _ (TLBSimulator.Used.init 4 _ rfl)) h1))
    (by
      have := (TLBSimulator.translate_length _ s1 1 2 h1).1
      simp only [TLBSimulator.initializePageTable] at this ⊢
      rw [this]
      decide)
    rfl
  exact ⟨t1, t2, r, k1, k2, k3, k4⟩

/-- C11: in every reachable `MemorySystem` state `translateAddress(p)` returns, and it
returns the failure value `-1` exactly when `p` is not in the page table; in that case the TLB
entries, their order and the keys of `tlbMap` are unchanged (nothing is inserted), one miss
is counted and no hit. -/
theorem C11_translate_failure_iff_unmapped (s : MemorySystem.State) (p : Int)
    (hr : MemorySystem.Reachable s) :
    ∃ s1 r, MemorySystem.translateAddress s p = some (s1, r) ∧
      (r = -1 ↔ s.pageTable p = none) ∧
      (s.pageTable p = none →
        s1.tlb.tlbCache = s.tlb.tlbCache ∧ s1.tlb.tlbMap = s.tlb.tlbMap ∧
        s1.tlb.misses = s.tlb.misses + 1 ∧ s1.tlb.hits = s.tlb.hits ∧
        s1.pageTable = s.pageTable) := by
  obtain ⟨hpt, hI⟩ := MemorySystem.reachable_tlb_inv s hr
  cases hp : s.pageTable p with
  | some f =>
    obtain ⟨s1, h1, _⟩ := MemorySystem.translateAddress_mapped s p f hpt hI hp
    have hf : f ≠ -1 := MemorySystem.initialPageTable_ne p f (hpt ▸ hp)
    exact ⟨s1, f, h1, by simp [hf], by simp⟩
  | none =>
    have hm : p ∉ s.tlb.tlbMap := by
      intro hm
      obtain ⟨_, f1, h1, _⟩ := TLB.lookup_hit s.pageTable s.tlb p hI hm
      rw [hp] at h1
      simp at h1
    have h2 := TLB.lookup_miss s.tlb p hm
    refine ⟨{ s with tlb := { s.tlb with misses := s.tlb.misses + 1 } }, -1, ?_, by simp,
      fun _ => ⟨rfl, rfl, rfl, rfl, rfl⟩⟩
    simp only [MemorySystem.translateAddress, h2, Option.some_bind, if_true, hp]

/-- Witness of C11: page 9 is not in the page table of a fresh `MemorySystem`, page 3 is. -/
theorem C11_translate_failure_iff_unmapped_witness :
    (∃ s1, MemorySystem.translateAddress MemorySystem.new 9 = some (s1, -1) ∧
      s1.tlb.tlbCache = [] ∧ s1.tlb.misses = 1 ∧ s1.tlb.hits = 0) ∧
    (∃ s1, MemorySystem.translateAddress MemorySystem.new 3 = some (s1, 1)) ∧
    ∃ s1 r, MemorySystem.translateAddress MemorySystem.new 9 = some (s1, r) ∧
      (r = -1 ↔ MemorySystem.new.pageTable 9 = none) ∧
      (MemorySystem.new.pageTable 9 = none →
        s1.tlb.tlbCache = MemorySystem.new.tlb.tlbCache ∧
        s1.tlb.tlbMap = MemorySystem.new.tlb.tlbMap ∧
        s1.tlb.misses = MemorySystem.new.tlb.misses + 1 ∧
        s1.tlb.hits = MemorySystem.new.tlb.hits ∧
        s1.pageTable = MemorySystem.new.pageTable) :=
  ⟨⟨_, rfl, rfl, rfl, rfl⟩, ⟨_, rfl⟩,
    C11_translate_failure_iff_unmapped MemorySystem.new 9 MemorySystem.Reachable.init⟩

/-! ### `TLB::lookup`, `TLB::insert` and `TLB::reset` on their own -/

namespace TLB

theorem detach_split (p : Int) (l : List TLBEntry) : ∀ (e : TLBEntry) (rest : List TLBEntry),
    detach p l = some (e, rest) →
    ∃ A B, l = A ++ e :: B ∧ rest = A ++ B ∧ e.pageNumber = p ∧
      ∀ a ∈ A, a.pageNumber ≠ p := by
  induction l with
  | nil => intro e rest h; simp [detach] at h
  | cons x xs ih =>
    intro e rest h
    by_cases hx : x.pageNumber = p
    · simp only [detach, hx, if_true, Option.some.injEq, Prod.mk.injEq] at h
      rw [← h.1, ← h.2]
      exact ⟨[], xs, rfl, rfl, hx, by simp⟩
    · simp only [detach, hx, if_false, Option.map_eq_some', Prod.mk.injEq] at h
      obtain ⟨⟨e1, r1⟩, h1, h2, h3⟩ := h
      obtain ⟨A, B, h4, h5, h6, h7⟩ := ih e1 r1 h1
      simp only at h2 h3
      rw [← h2, ← h3]
      refine ⟨x :: A, B, by rw [h4]; rfl, by rw [h5]; rfl, h6, ?_⟩
      intro a ha
      rw [List.mem_cons] at ha
      rcases ha with ha | ha
      · rw [ha]; exact hx
      · exact h7 a ha

theorem detach_of_mem (s : State) (p : Int) (hW : WF s) (hp : p ∈ s.tlbMap) :
    ∃ A e B, detach p s.tlbCache = some (e, A ++ B) ∧ s.tlbCache = A ++ e :: B ∧
      e.pageNumber = p ∧ (∀ a ∈ A, a.pageNumber ≠ p) ∧ (∀ b ∈ B, b.pageNumber ≠ p) := by
  cases hd : detach p s.tlbCache with
  | none =>
    obtain ⟨e, he, hq⟩ := (hW.1 p).mp hp
    exact absurd hq (detach_none p _ hd e he)
  | some r =>
    obtain ⟨e, rest⟩ := r
    obtain ⟨A, B, h1, h2, h3, h4⟩ := detach_split p _ e rest hd
    refine ⟨A, e, B, by rw [h2], h1, h3, h4, ?_⟩
    intro b hb hbp
    have hnd := hW.2
    rw [h1, List.map_append, List.map_cons, List.nodup_append] at hnd
    have h5 := (List.nodup_cons.mp hnd.2.1).1
    apply h5
    rw [h3, ← hbp]
    exact List.mem_map_of_mem _ hb

theorem detach_head (p : Int) (e : TLBEntry) (l : List TLBEntry) (he : e.pageNumber = p) :
    detach p (e :: l) = some (e, l) := by
  simp [detach, he]

theorem wf_move_front (s : State) (A B : List TLBEntry) (e e1 : TLBEntry) (hW : WF s)
    (hc : s.tlbCache = A ++ e :: B) (he : e1.pageNumber = e.pageNumber) (h hm : Int) :
    WF { tlbCache := e1 :: (A ++ B), tlbMap := s.tlbMap, hits := h, misses := hm } := by
  obtain ⟨h1, h2⟩ := hW
  constructor
  · intro q
    rw [h1 q, hc]
    simp only [List.mem_append, List.mem_cons, exists_eq_or_imp]
    constructor
    · rintro ⟨x, hx | hx | hx, hq⟩
      · exact Or.inr ⟨x, Or.inl hx, hq⟩
      · left; rw [he, ← hx]; exact hq
      · exact Or.inr ⟨x, Or.inr hx, hq⟩
    · rintro (hq | ⟨x, hx | hx, hq⟩)
      · exact ⟨e, Or.inr (Or.inl rfl), by rw [← he]; exact hq⟩
      · exact ⟨x, Or.inl hx, hq⟩
      · exact ⟨x, Or.inr (Or.inr hx), hq⟩
  · rw [hc] at h2
    have hp : (List.map (fun x => x.pageNumber) (e1 :: (A ++ B))).Perm
        (List.map (fun x => x.pageNumber) (A ++ e :: B)) := by
      simp only [List.map_cons, List.map_append, he]
      exact List.perm_middle.symm
    exact hp.nodup_iff.mpr h2

end TLB

/-- C12 (as stated, refuted): after `insert(0,5); insert(1,2)` the cache lists pages 1, 0
(MRU to LRU); `lookup(0)` is a hit that reorders it to 0, 1, so the entry at the LRU end (the
next one to be evicted) changes from page 0 to page 1. -/
theorem C12_lookup_reorders_cache :
    ∃ s s1 r, (TLB.insert TLB.new 0 5).bind (fun t => TLB.insert t 1 2) = some s ∧
      TLB.lookup s 0 = some (s1, r) ∧
      s.tlbCache.map (fun e => e.pageNumber) = [1, 0] ∧
      s1.tlbCache.map (fun e => e.pageNumber) = [0, 1] ∧
      s.tlbCache.getLast?.map (fun e => e.pageNumber) = some 0 ∧
      s1.tlbCache.getLast?.map (fun e => e.pageNumber) = some 1 :=
  ⟨_, _, _, rfl, rfl, by decide, by decide, by decide, by decide⟩

/-- C12 (amended): for every well-formed `TLB` state and page `p`, `lookup(p)` returns and
never changes the set of cached (page, frame) entries or the keys of `tlbMap`; a miss leaves
the MRU-to-LRU order unchanged, a hit moves the entry found to the MRU end and keeps the
relative order of the other entries; repeating the same lookup returns the same value and
changes the order no further. -/
theorem C12_lookup_keeps_entries_moves_hit (s : TLB.State) (p : Int) (hW : TLB.WF s) :
    ∃ s1 r, TLB.lookup s p = some (s1, r) ∧ TLB.WF s1 ∧ s1.tlbMap = s.tlbMap ∧
      s1.tlbCache.Perm s.tlbCache ∧
      (p ∉ s.tlbMap → r = -1 ∧ s1.tlbCache = s.tlbCache) ∧
      (p ∈ s.tlbMap → ∃ A e B, s.tlbCache = A ++ e :: B ∧ e.pageNumber = p ∧
        r = e.frameNumber ∧ s1.tlbCache = e :: (A ++ B)) ∧
      ∃ s2, TLB.lookup s1 p = some (s2, r) ∧ s2.tlbCache = s1.tlbCache ∧
        s2.tlbMap = s1.tlbMap := by
  by_cases hp : p ∈ s.tlbMap
  · obtain ⟨A, e, B, h1, h2, h3, _, _⟩ := TLB.detach_of_mem s p hW hp
    refine ⟨{ s with hits := s.hits + 1, tlbCache := e :: (A ++ B) }, e.frameNumber, ?_,
      TLB.wf_move_front s A B e e hW h2 rfl _ _, rfl, ?_, fun h => absurd hp h,
      fun _ => ⟨A, e, B, h2, h3, rfl, rfl⟩, ?_⟩
    · simp only [TLB.lookup, hp, if_true, h1, Option.map_some']
    · rw [h2]
      exact List.perm_middle.symm
    · refine ⟨{ s with hits := s.hits + 1 + 1, tlbCache := e :: (A ++ B) }, ?_, rfl, rfl⟩
      simp only [TLB.lookup, hp, if_true, TLB.detach_head p e (A ++ B) h3, Option.map_some']
  · refine ⟨{ s with misses := s.misses + 1 }, -1, TLB.lookup_miss s p hp, hW, rfl,
      List.Perm.refl _, fun _ => ⟨rfl, rfl⟩, fun h => absurd h hp, ?_⟩
    exact ⟨{ s with misses := s.misses + 1 + 1 }, TLB.lookup_miss _ p hp, rfl, rfl⟩

/-- Witness of C12 (amended): the cache holding pages 1, 0 and a lookup of page 0. -/
theorem C12_lookup_keeps_entries_moves_hit_witness :
    TLB.WF (⟨[⟨1, 2⟩, ⟨0, 5⟩], {0, 1}, 0, 0⟩ : TLB.State) ∧
    ∃ s1 r, TLB.lookup (⟨[⟨1, 2⟩, ⟨0, 5⟩], {0, 1}, 0, 0⟩ : TLB.State) 0 = some (s1, r) ∧
      TLB.WF s1 ∧ s1.tlbMap = {0, 1} ∧
      s1.tlbCache.Perm [⟨1, 2⟩, ⟨0, 5⟩] ∧
      (0 ∉ ({0, 1} : Finset Int) → r = -1 ∧ s1.tlbCache = [⟨1, 2⟩, ⟨0, 5⟩]) ∧
      (0 ∈ ({0, 1} : Finset Int) → ∃ A e B, [⟨1, 2⟩, ⟨0, 5⟩] = A ++ e :: B ∧
        e.pageNumber = 0 ∧ r = e.frameNumber ∧ s1.tlbCache = e :: (A ++ B)) ∧
      ∃ s2, TLB.lookup s1 0 = some (s2, r) ∧ s2.tlbCache = s1.tlbCache ∧
        s2.tlbMap = s1.tlbMap :=
  have hW : TLB.WF (⟨[⟨1, 2⟩, ⟨0, 5⟩], {0, 1}, 0, 0⟩ : TLB.State) :=
    ⟨fun q => by simp; omega, by decide⟩
  ⟨hW, C12_lookup_keeps_entries_moves_hit _ 0 hW⟩

/-- C13: for every well-formed `TLB` state and every page `p` already cached,
`insert(p, f)` evicts nothing: the entry of `p` is replaced by `(p, f)` and moved to the
front, so the number of entries, the keys of `tlbMap` and the cached pages are unchanged,
every entry of another page is kept as it is, and `lookup(p)` now returns `f`. -/
theorem C13_insert_cached_updates_in_place (s : TLB.State) (p f : Int) (hW : TLB.WF s)
    (hp : p ∈ s.tlbMap) :
    ∃ s1 A e B, TLB.insert s p f = some s1 ∧ s.tlbCache = A ++ e :: B ∧ e.pageNumber = p ∧
      s1.tlbCache = ⟨p, f⟩ :: (A ++ B) ∧ (∀ x ∈ A ++ B, x.pageNumber ≠ p) ∧
      s1.tlbCache.length = s.tlbCache.length ∧ s1.tlbMap = s.tlbMap ∧
      (s1.tlbCache.map (fun x => x.pageNumber)).Perm (s.tlbCache.map (fun x => x.pageNumber)) ∧
      (∀ x : TLB.TLBEntry, x.pageNumber ≠ p → (x ∈ s1.tlbCache ↔ x ∈ s.tlbCache)) ∧
      (∃ s2, TLB.lookup s1 p = some (s2, f)) ∧
      TLB.WF s1 ∧ s1.hits = s.hits ∧ s1.misses = s.misses := by
  obtain ⟨A, e, B, h1, h2, h3, h4, h5⟩ := TLB.detach_of_mem s p hW hp
  have hne : ∀ x ∈ A ++ B, x.pageNumber ≠ p := by
    intro x hx
    rw [List.mem_append] at hx
    rcases hx with hx | hx
    · exact h4 x hx
    · exact h5 x hx
  refine ⟨{ s with tlbCache := ⟨p, f⟩ :: (A ++ B) }, A, e, B, ?_, h2, h3, rfl, hne, ?_, rfl,
    ?_, ?_, ?_, TLB.wf_move_front s A B e ⟨p, f⟩ hW h2 h3.symm _ _, rfl, rfl⟩
  · simp only [TLB.insert, hp, if_true, h1, Option.map_some', h3]
  · rw [h2]
    simp only [List.length_cons, List.length_append]
    omega
  · rw [h2]
    simp only [List.map_cons, List.map_append, h3]
    exact List.perm_middle.symm
  · intro x hx
    rw [h2]
    simp only [List.mem_cons, List.mem_append]
    constructor
    · rintro (h | h | h)
      · rw [h] at hx; exact absurd rfl hx
      · exact Or.inl h
      · exact Or.inr (Or.inr h)
    · rintro (h | h | h)
      · exact Or.inr (Or.inl h)
      · rw [h, h3] at hx; exact absurd rfl hx
      · exact Or.inr (Or.inr h)
  · refine ⟨{ s with hits := s.hits + 1, tlbCache := ⟨p, f⟩ :: (A ++ B) }, ?_⟩
    have hp1 : p ∈ ({ s with tlbCache := ⟨p, f⟩ :: (A ++ B) } : TLB.State).tlbMap := hp
    simp only [TLB.lookup, hp1, if_true, TLB.detach_head p ⟨p, f⟩ (A ++ B) rfl,
      Option.map_some']

/-- Witness of C13: the cache holding pages 1, 0 and `insert(0, 9)`. -/
theorem C13_insert_cached_updates_in_place_witness :
    TLB.WF (⟨[⟨1, 2⟩, ⟨0, 5⟩], {0, 1}, 0, 0⟩ : TLB.State) ∧
    (0 : Int) ∈ ({0, 1} : Finset Int) ∧
    (TLB.insert (⟨[⟨1, 2⟩, ⟨0, 5⟩], {0, 1}, 0, 0⟩ : TLB.State) 0 9).map
      (fun t => t.tlbCache.map (fun x => (x.pageNumber, x.frameNumber))) =
      some [(0, 9), (1, 2)] ∧
    ∃ s1 A e B, TLB.insert (⟨[⟨1, 2⟩, ⟨0, 5⟩], {0, 1}, 0, 0⟩ : TLB.State) 0 9 = some s1 ∧
      [(⟨1, 2⟩ : TLB.TLBEntry), ⟨0, 5⟩] = A ++ e :: B ∧ e.pageNumber = 0 ∧
      s1.tlbCache = ⟨0, 9⟩ :: (A ++ B) ∧ (∀ x ∈ A ++ B, x.pageNumber ≠ 0) ∧
      s1.tlbCache.length = 2 ∧ s1.tlbMap = {0, 1} ∧
      (s1.tlbCache.map (fun x => x.pageNumber)).Perm [1, 0] ∧
      (∀ x : TLB.TLBEntry, x.pageNumber ≠ 0 →
        (x ∈ s1.tlbCache ↔ x ∈ [(⟨1, 2⟩ : TLB.TLBEntry), ⟨0, 5⟩])) ∧
      (∃ s2, TLB.lookup s1 0 = some (s2, 9)) ∧
      TLB.WF s1 ∧ s1.hits = 0 ∧ s1.misses = 0 :=
  have hW : TLB.WF (⟨[⟨1, 2⟩, ⟨0, 5⟩], {0, 1}, 0, 0⟩ : TLB.State) :=
    ⟨fun q => by simp; omega, by decide⟩
  ⟨hW, by decide, by decide, C13_insert_cached_updates_in_place _ 0 9 hW (by decide)⟩

namespace TLB

theorem wf_insert_absent (s : State) (p f : Int) (hW : WF s) (hp : p ∉ s.tlbMap) :
    ∃ s1, insert s p f = some s1 ∧ WF s1 := by
  obtain ⟨h1, h2⟩ := hW
  have hpc : ∀ e ∈ s.tlbCache, e.pageNumber ≠ p := fun e he hq => hp ((h1 p).mpr ⟨e, he, hq⟩)
  by_cases hfull : toSizeT TLB_SIZE ≤ s.tlbCache.length
  · cases hl : s.tlbCache.getLast? with
    | none =>
      rw [List.getLast?_eq_none_iff] at hl
      rw [hl] at hfull
      exact absurd hfull (by decide)
    | some back =>
      have hsplit := List.dropLast_append_getLast? back hl
      have hbnot : ∀ e ∈ s.tlbCache.dropLast, e.pageNumber ≠ back.pageNumber := by
        intro e he hq
        rw [← hsplit, List.map_append, List.nodup_append] at h2
        exact h2.2.2 (List.mem_map_of_mem _ he) (by simp [hq])
      refine ⟨{ s with tlbMap := Insert.insert p (s.tlbMap.erase back.pageNumber)
                       tlbCache := { pageNumber := p, frameNumber := f } ::
                         s.tlbCache.dropLast }, ?_, ?_, ?_⟩
      · simp only [insert, hp, if_false, hfull, if_true, hl, Option.map_some']
      · intro q
        simp only [Finset.mem_insert, Finset.mem_erase, List.mem_cons, exists_eq_or_imp]
        rw [h1 q]
        constructor
        · rintro (hq | ⟨hq1, e, he, hq2⟩)
          · exact Or.inl hq.symm
          · rw [← hsplit, List.mem_append, List.mem_singleton] at he
            rcases he with he | he
            · exact Or.inr ⟨e, he, hq2⟩
            · rw [he] at hq2; exact absurd hq2.symm hq1
        · rintro (hq | ⟨e, he, hq⟩)
          · exact Or.inl hq.symm
          · refine Or.inr ⟨?_, e, List.mem_of_mem_dropLast he, hq⟩
            rw [← hq]
            exact hbnot e he
      · simp only [List.map_cons, List.nodup_cons, List.mem_map, not_exists, not_and]
        exact ⟨fun e he => hpc e (List.mem_of_mem_dropLast he),
          h2.sublist ((List.dropLast_sublist _).map _)⟩
  · refine ⟨{ s with tlbMap := Insert.insert p s.tlbMap
                     tlbCache := { pageNumber := p, frameNumber := f } :: s.tlbCache },
      ?_, ?_, ?_⟩
    · simp only [insert, hp, if_false, hfull, Option.map_some']
    · intro q
      simp only [Finset.mem_insert, List.mem_cons, exists_eq_or_imp]
      rw [h1 q]
      constructor
      · rintro (hq | hq)
        · exact Or.inl hq.symm
        · exact Or.inr hq
      · rintro (hq | hq)
        · exact Or.inl hq.symm
        · exact Or.inr hq
    · simp only [List.map_cons, List.nodup_cons, List.mem_map, not_exists, not_and]
      exact ⟨fun e he => hpc e he, h2⟩

theorem wf_lookup (s s1 : State) (p r : Int) (hW : WF s) (h : lookup s p = some (s1, r)) :
    WF s1 := by
  by_cases hp : p ∈ s.tlbMap
  · obtain ⟨A, e, B, h1, h2, h3, _, _⟩ := detach_of_mem s p hW hp
    simp only [lookup, hp, if_true, h1, Option.map_some', Option.some.injEq,
      Prod.mk.injEq] at h
    rw [← h.1]
    exact wf_move_front s A B e e hW h2 rfl _ _
  · rw [lookup_miss s p hp] at h
    simp only [Option.some.injEq, Prod.mk.injEq] at h
    rw [← h.1]
    exact hW

theorem wf_insert (s s1 : State) (p f : Int) (hW : WF s) (h : insert s p f = some s1) :
    WF s1 := by
  by_cases hp : p ∈ s.tlbMap
  · obtain ⟨A, e, B, h1, h2, h3, _, _⟩ := detach_of_mem s p hW hp
    simp only [insert, hp, if_true, h1, Option.map_some', Option.some.injEq] at h
    rw [← h]
    exact wf_move_front s A B e ⟨e.pageNumber, f⟩ hW h2 rfl _ _
  · obtain ⟨s2, h1, h2⟩ := wf_insert_absent s p f hW hp
    rw [h1] at h
    exact (Option.some.inj h) ▸ h2

theorem reachable_wf (s : State) (h : Reachable s) : WF s := by
  induction h with
  | init => exact ⟨by simp [new], by simp [new]⟩
  | lookup s s1 p r _ hl ih => exact wf_lookup s s1 p r ih hl
  | insert s s1 p f _ hi ih => exact wf_insert s s1 p f ih hi
  | reset s _ ih => exact ih

theorem reset_eq_shift (s : State) : reset s = shift s.hits s.misses s := by
  simp [reset, shift]

theorem shift_tlbCache (dh dm : Int) (s : State) : (shift dh dm s).tlbCache = s.tlbCache := rfl

theorem shift_tlbMap (dh dm : Int) (s : State) : (shift dh dm s).tlbMap = s.tlbMap := rfl

theorem shift_hits (dh dm : Int) (s : State) : (shift dh dm s).hits = s.hits - dh := rfl

theorem shift_misses (dh dm : Int) (s : State) : (shift dh dm s).misses = s.misses - dm := rfl

theorem lookup_shift (dh dm : Int) (s : State) (p : Int) :
    lookup (shift dh dm s) p = (lookup s p).map (fun r => (shift dh dm r.1, r.2)) := by
  by_cases hp : p ∈ s.tlbMap
  · simp only [lookup, shift_tlbMap, shift_tlbCache, shift_hits, shift_misses, hp, if_true]
    cases detach p s.tlbCache with
    | none => rfl
    | some r =>
      simp only [shift, Option.map_some', Option.some.injEq, Prod.mk.injEq,
        State.mk.injEq, true_and, and_true]
      omega
  · simp only [lookup, shift_tlbMap, shift_hits, shift_misses, hp, if_false,
      Option.map_some', Option.some.injEq, Prod.mk.injEq, and_true]
    simp only [shift, State.mk.injEq, true_and]
    omega

theorem insert_shift (dh dm : Int) (s : State) (p f : Int) :
    insert (shift dh dm s) p f = (insert s p f).map (shift dh dm) := by
  by_cases hp : p ∈ s.tlbMap
  · simp only [insert, shift_tlbMap, shift_tlbCache, hp, if_true]
    cases detach p s.tlbCache with
    | none => rfl
    | some r => rfl
  · simp only [insert, shift_tlbMap, shift_tlbCache, hp, if_false]
    by_cases hfull : toSizeT TLB_SIZE ≤ s.tlbCache.length
    · simp only [hfull, if_true]
      cases s.tlbCache.getLast? with
      | none => rfl
      | some back => rfl
    · simp only [hfull, if_false]
      rfl

theorem replay_shift (dh dm : Int) (ops : List Op) : ∀ s : State,
    replay (shift dh dm s) ops = (replay s ops).map (fun r => (shift dh dm r.1, r.2)) := by
  induction ops with
  | nil => intro s; rfl
  | cons op rest ih =>
    intro s
    cases op with
    | lookup p =>
      simp only [replay, lookup_shift]
      cases lookup s p with
      | none => rfl
      | some r =>
        simp only [Option.map_some', Option.some_bind, ih, Option.map_map]
        rfl
    | insert p f =>
      simp only [replay, insert_shift]
      cases insert s p f with
      | none => rfl
      | some s1 => simp only [Option.map_some', Option.some_bind, ih]

end TLB

/-- C15 (as stated, refuted): after `insert(0,5)` and `reset()`, replaying `lookup(0)` is a
hit returning 5 (1 hit, 0 misses), while on a freshly constructed `TLB` it is a miss
returning -1 (0 hits, 1 miss). -/
theorem C15_reset_keeps_cache :
    ∃ s, TLB.insert TLB.new 0 5 = some s ∧
      (TLB.replay (TLB.reset s) [TLB.Op.lookup 0]).map (fun r => (r.1.hits, r.1.misses, r.2)) =
        some (1, 0, [5]) ∧
      (TLB.replay TLB.new [TLB.Op.lookup 0]).map (fun r => (r.1.hits, r.1.misses, r.2)) =
        some (0, 1, [-1]) :=
  ⟨_, rfl, by decide, by decide⟩

/-- C15 (amended): `reset()` sets `hits` and `misses` to 0 and keeps the cache. Replaying any
sequence of `lookup`/`insert` calls after `reset()` returns the same lookup results and ends
with the same cache as replaying it without the reset, with hit and miss counts lowered by
the counts before the reset (they count the replayed calls alone); it agrees with the replay
on a freshly constructed `TLB` when the cache was empty at the reset. -/
theorem C15_reset_zeroes_counters_only (s : TLB.State) (ops : List TLB.Op) :
    (TLB.reset s).tlbCache = s.tlbCache ∧ (TLB.reset s).tlbMap = s.tlbMap ∧
    (TLB.reset s).hits = 0 ∧ (TLB.reset s).misses = 0 ∧
    TLB.replay (TLB.reset s) ops =
      (TLB.replay s ops).map (fun r => (TLB.shift s.hits s.misses r.1, r.2)) ∧
    (s.tlbCache = [] → s.tlbMap = ∅ → TLB.replay (TLB.reset s) ops = TLB.replay TLB.new ops) := by
  refine ⟨rfl, rfl, rfl, rfl, ?_, ?_⟩
  · rw [TLB.reset_eq_shift]
    exact TLB.replay_shift s.hits s.misses ops s
  · intro h1 h2
    have : TLB.reset s = TLB.new := by
      simp only [TLB.reset, TLB.new, h1, h2]
    rw [this]

/-! ### Construction with a non-positive frame count -/

/-- C14 (as stated, refuted): `PageReplacementFIFO(-1)` is constructed and `referencePage(7)`
runs on it (page 7 is loaded, one fault); `FIFOPageReplacement(0)` and `LRUPageReplacement(0)`
are constructed with an empty frame vector, and `referencePage(7)` on the latter counts one
fault. -/
theorem C14_nonpositive_frames_accepted :
    (PageReplacementFIFO.referencePage (PageReplacementFIFO.new (-1)) 7).map
      (fun s => (s.numFrames, s.frameQueue, s.pageFaults)) = some (-1, [7], 1) ∧
    (FIFOPageReplacement.new 0).map (fun s => (s.numFrames, s.frames)) = some (0, []) ∧
    (LRUPageReplacement.new 0).map (fun s =>
      ((LRUPageReplacement.referencePage s 7).frames,
       (LRUPageReplacement.referencePage s 7).pageFaults)) = some ([], 1) := by
  decide

/-- C14 (amended): no simulator checks its frame count. `PageReplacementFIFO` is constructed
for every frame count; `FIFOPageReplacement` and `LRUPageReplacement` are constructed for
every frame count `≥ 0` (0 included) and fail only for a negative one, where
`vector::resize` throws. -/
theorem C14_only_negative_vector_size_fails :
    (∀ n : Int, (PageReplacementFIFO.new n).numFrames = n ∧
      (PageReplacementFIFO.new n).frameQueue = []) ∧
    (∀ n : Int, n < 0 → FIFOPageReplacement.new n = none ∧ LRUPageReplacement.new n = none) ∧
    (∀ n : Int, 0 ≤ n → ∃ s t, FIFOPageReplacement.new n = some s ∧ s.numFrames = n ∧
      LRUPageReplacement.new n = some t ∧ t.numFrames = n) := by
  refine ⟨fun n => ⟨rfl, rfl⟩, ?_, ?_⟩
  · intro n hn
    simp [FIFOPageReplacement.new, LRUPageReplacement.new, hn]
  · intro n hn
    have h : ¬ n < 0 := by omega
    exact ⟨{ numFrames := n, frames := List.replicate n.toNat (-1), fifoQueue := [],
             pageFaults := 0, totalReferences := 0 },
      { numFrames := n, frames := List.replicate n.toNat (-1), lastAccessTime := fun _ => 0,
        currentTime := 0, pageFaults := 0, totalReferences := 0 },
      by simp only [FIFOPageReplacement.new, h, if_false], rfl,
      by simp only [LRUPageReplacement.new, h, if_false], rfl⟩

/-- Witness of C14 (amended): frame counts -3 and 4. -/
theorem C14_only_negative_vector_size_fails_witness :
    (FIFOPageReplacement.new (-3) = none ∧ LRUPageReplacement.new (-3) = none) ∧
    ∃ s t, FIFOPageReplacement.new 4 = some s ∧ s.numFrames = 4 ∧
      LRUPageReplacement.new 4 = some t ∧ t.numFrames = 4 :=
  ⟨C14_only_negative_vector_size_fails.2.1 (-3) (by decide),
    C14_only_negative_vector_size_fails.2.2 4 (by decide)⟩

/-! ### `PageTable::translate` (`LAB9-1.cpp`) -/

namespace PageTable

theorem modifyAt_getElem? (f : PageTableEntry → PageTableEntry) (l : List PageTableEntry) :
    ∀ (i j : Nat), (modifyAt f i l)[j]? = if j = i then l[j]?.map f else l[j]? := by
  induction l with
  | nil => intro i j; simp [modifyAt]
  | cons e rest ih =>
    intro i j
    cases i with
    | zero =>
      cases j with
      | zero => simp [modifyAt]
      | succ j => simp [modifyAt]
    | succ i =>
      cases j with
      | zero => simp [modifyAt]
      | succ j => simp [modifyAt, ih i j]

theorem modifyAt_length (f : PageTableEntry → PageTableEntry) (l : List PageTableEntry) :
    ∀ i : Nat, (modifyAt f i l).length = l.length := by
  induction l with
  | nil => intro i; simp [modifyAt]
  | cons e rest ih =>
    intro i
    cases i with
    | zero => simp [modifyAt]
    | succ i => simp [modifyAt, ih i]

end PageTable

/-- C16: for every `PageTable` state with `pageSize > 0` (and `entries` of size `numPages`)
and every virtual address `va ≥ 0`, with `page = va / pageSize`: if `page < numPages` and the
entry of `page` is valid with frame `f`, and `f * pageSize` and
`f * pageSize + va % pageSize` are values of an `int`, then `translate(va)` returns
`f * pageSize + va % pageSize`, sets the `referenced` bit of that entry and changes nothing
else; if `page ≥ numPages` or the entry is not valid it returns `-1` and the state is
unchanged. -/
theorem C16_translate_address (s : PageTable.State) (va : Int) (hps : 0 < s.pageSize)
    (hva : 0 ≤ va) (hlen : (s.entries.length : Int) = s.numPages) :
    (va / s.pageSize < s.numPages →
      ∃ e, s.entries[(va / s.pageSize).toNat]? = some e ∧
        (e.valid = true → INT_MIN ≤ e.frameNumber * s.pageSize →
          e.frameNumber * s.pageSize + va % s.pageSize ≤ INT_MAX →
          ∃ s1, PageTable.translate s va =
              some (s1, e.frameNumber * s.pageSize + va % s.pageSize) ∧
            s1.pageSize = s.pageSize ∧ s1.numPages = s.numPages ∧
            s1.entries.length = s.entries.length ∧
            s1.entries[(va / s.pageSize).toNat]? = some { e with referenced := true } ∧
            ∀ j, j ≠ (va / s.pageSize).toNat → s1.entries[j]? = s.entries[j]?) ∧
        (e.valid = false → PageTable.translate s va = some (s, -1))) ∧
    (s.numPages ≤ va / s.pageSize → PageTable.translate s va = some (s, -1)) := by
  have hps0 : ¬ (s.pageSize = 0 ∨ (va = INT_MIN ∧ s.pageSize = -1)) := by omega
  have hdiv : Int.tdiv va s.pageSize = va / s.pageSize := Int.tdiv_eq_ediv hva (by omega)
  have hmod : Int.tmod va s.pageSize = va % s.pageSize := Int.tmod_eq_emod hva (by omega)
  have hnn : 0 ≤ va / s.pageSize := Int.ediv_nonneg hva (by omega)
  have hoff : 0 ≤ va % s.pageSize := Int.emod_nonneg va (by omega)
  constructor
  · intro hlt
    have hidx : (va / s.pageSize).toNat < s.entries.length := by omega
    have hrange : ¬ (va / s.pageSize < 0 ∨ va / s.pageSize ≥ s.numPages) := by omega
    refine ⟨s.entries[(va / s.pageSize).toNat], List.getElem?_eq_getElem hidx, ?_, ?_⟩
    · intro hv hlo hhi
      have hfit : ¬ (fitsInt (s.entries[(va / s.pageSize).toNat].frameNumber * s.pageSize) =
            false ∨
          fitsInt (s.entries[(va / s.pageSize).toNat].frameNumber * s.pageSize +
            va % s.pageSize) = false) := by
        simp only [fitsInt, decide_eq_false_iff_not, not_or, not_not]
        constructor <;> constructor <;> omega
      refine ⟨{ s with entries := (PageTable.modifyAt (fun x => { x with referenced := true })
          (va / s.pageSize).toNat s.entries) }, ?_, rfl, rfl, ?_, ?_, ?_⟩
      · simp only [PageTable.translate, hps0, if_false, hdiv, hmod, hrange,
          List.getElem?_eq_getElem hidx, hv, Bool.true_eq_false, hfit]
      · exact PageTable.modifyAt_length _ _ _
      · simp only [PageTable.modifyAt_getElem?, if_true, List.getElem?_eq_getElem hidx,
          Option.map_some']
      · intro j hj
        simp only [PageTable.modifyAt_getElem?, hj, if_false]
    · intro hv
      simp only [PageTable.translate, hps0, if_false, hdiv, hrange,
        List.getElem?_eq_getElem hidx, hv, if_true]
  · intro hge
    have hrange : va / s.pageSize < 0 ∨ va / s.pageSize ≥ s.numPages := Or.inr hge
    simp only [PageTable.translate, hps0, if_false, hdiv, hrange, if_true]

/-- Witness of C16: the page table of `main` (512-byte pages); address 1800 is page 3,
offset 264, page 3 is in frame 7, so the physical address is 7 * 512 + 264 = 3848; address
2048 is page 4, which is not mapped. -/
theorem C16_translate_address_witness :
    (1800 : Int) / 512 = 3 ∧ (1800 : Int) % 512 = 264 ∧
    ∃ s e, PageTable.mainTable = some s ∧ 0 < s.pageSize ∧
      ((s.entries.length : Int) = s.numPages) ∧
      s.entries[((1800 : Int) / s.pageSize).toNat]? = some e ∧ e.valid = true ∧
      e.frameNumber = 7 ∧
      (PageTable.translate s 1800).map (fun r => r.2) = some 3848 ∧
      (PageTable.translate s 2048).map (fun r => r.2) = some (-1) ∧
      ∃ s1, PageTable.translate s 1800 =
          some (s1, e.frameNumber * s.pageSize + 1800 % s.pageSize) ∧
        s1.entries[3]? = some { e with referenced := true } := by
  obtain ⟨e, he, h, _⟩ := (C16_translate_address
    (PageTable.addMapping (PageTable.addMapping (PageTable.addMapping (PageTable.addMapping
      (PageTable.addMapping ⟨List.replicate 16 PageTable.PageTableEntry.empty, 512, 16⟩ 0 5)
      1 2) 2 10) 3 7) 5 3) 1800 (by decide) (by decide) (by decide)).1 (by decide)
  have e1 := Option.some.inj he
  subst e1
  obtain ⟨s1, k1, _, _, _, k5, _⟩ := h (by decide) (by decide) (by decide)
  exact ⟨by decide, by decide, _, _, rfl, by decide, by decide, rfl, by decide, by decide,
    by decide, by decide, s1, k1, k5⟩

/-! ### `MemoryManager::allocateFirstFit` -/

namespace MemoryManager

theorem allocateFrom_eq (b : MemoryBlock) (processID size : Int) (h : size ≤ b.size) :
    allocateFrom b processID size =
      { startAddress := b.startAddress, size := size, isFree := false,
        processID := processID } ::
      (if size < b.size then
        [{ startAddress := b.startAddress + size, size := b.size - size, isFree := true,
           processID := -1 }]
       else []) := by
  unfold allocateFrom
  by_cases hlt : size < b.size
  · have h1 : b.size > size := hlt
    simp only [h1, hlt, if_true]
  · have h1 : ¬ b.size > size := hlt
    have h2 : size = b.size := by omega
    subst h2
    simp only [gt_iff_lt, lt_self_iff_false, if_false]

theorem allocateFirstFit_spec (processID size : Int) (blocks : List MemoryBlock) :
    ((allocateFirstFit processID size blocks).2 = false ∧
      (allocateFirstFit processID size blocks).1 = blocks ∧ ∀ b ∈ blocks, ¬ Fits size b) ∨
    ((allocateFirstFit processID size blocks).2 = true ∧
      ∃ A b B, blocks = A ++ b :: B ∧ (∀ a ∈ A, ¬ Fits size a) ∧ Fits size b ∧
        (allocateFirstFit processID size blocks).1 =
          A ++ (allocateFrom b processID size ++ B)) := by
  induction blocks with
  | nil => exact Or.inl ⟨rfl, rfl, by simp⟩
  | cons x rest ih =>
    by_cases hx : x.isFree = true ∧ x.size ≥ size
    · refine Or.inr ⟨by simp only [allocateFirstFit, hx, and_self, if_true], [], x, rest, rfl,
        by simp, hx, ?_⟩
      simp only [allocateFirstFit, hx, and_self, if_true, List.nil_append]
    · have hx2 : ¬ Fits size x := hx
      rcases ih with ⟨h1, h2, h3⟩ | ⟨h1, A, b, B, h2, h3, h4, h5⟩
      · refine Or.inl ⟨by simp only [allocateFirstFit, hx, if_false]; exact h1, ?_, ?_⟩
        · simp only [allocateFirstFit, hx, if_false, h2]
        · intro c hc
          rw [List.mem_cons] at hc
          rcases hc with hc | hc
          · rw [hc]; exact hx2
          · exact h3 c hc
      · refine Or.inr ⟨by simp only [allocateFirstFit, hx, if_false]; exact h1, x :: A, b, B,
          by rw [h2]; rfl, ?_, h4, ?_⟩
        · intro c hc
          rw [List.mem_cons] at hc
          rcases hc with hc | hc
          · rw [hc]; exact hx2
          · exact h3 c hc
        · simp only [allocateFirstFit, hx, if_false, h5, List.cons_append]

end MemoryManager

namespace MemoryManager

theorem tiles_append (l1 l2 : List MemoryBlock) : ∀ (a z : Int),
    Tiles a (l1 ++ l2) z ↔ ∃ m, Tiles a l1 m ∧ Tiles m l2 z := by
  induction l1 with
  | nil =>
    intro a z
    simp only [List.nil_append, Tiles]
    constructor
    · intro h; exact ⟨a, rfl, h⟩
    · rintro ⟨m, h1, h2⟩; rw [h1]; exact h2
  | cons b rest ih =>
    intro a z
    constructor
    · intro h
      obtain ⟨h1, h2, h3⟩ := (show Tiles a (b :: (rest ++ l2)) z from h)
      obtain ⟨m, h4, h5⟩ := (ih _ _).mp h3
      exact ⟨m, ⟨h1, h2, h4⟩, h5⟩
    · rintro ⟨m, ⟨h1, h2, h3⟩, h4⟩
      exact (show Tiles a (b :: (rest ++ l2)) z from ⟨h1, h2, (ih _ _).mpr ⟨m, h3, h4⟩⟩)

theorem tiles_bounds (l : List MemoryBlock) : ∀ (a z : Int), Tiles a l z →
    a ≤ z ∧ ∀ x ∈ l, a ≤ x.startAddress ∧ x.startAddress + x.size ≤ z ∧ 0 < x.size := by
  induction l with
  | nil => intro a z h; simp only [Tiles] at h; simp [h]
  | cons b rest ih =>
    intro a z h
    obtain ⟨h1, h2, h3⟩ := h
    obtain ⟨h4, h5⟩ := ih _ _ h3
    refine ⟨by omega, ?_⟩
    intro x hx
    rw [List.mem_cons] at hx
    rcases hx with hx | hx
    · rw [hx]; exact ⟨by omega, by omega, h2⟩
    · obtain ⟨h6, h7, h8⟩ := h5 x hx
      exact ⟨by omega, h7, h8⟩

theorem tiles_pairwise (l : List MemoryBlock) : ∀ (a z : Int), Tiles a l z →
    l.Pairwise (fun x y => x.startAddress < y.startAddress) := by
  induction l with
  | nil => intro a z _; exact List.Pairwise.nil
  | cons b rest ih =>
    intro a z h
    obtain ⟨h1, h2, h3⟩ := h
    rw [List.pairwise_cons]
    refine ⟨?_, ih _ _ h3⟩
    intro y hy
    have := ((tiles_bounds rest _ _ h3).2 y hy).1
    omega

theorem tiles_allocateFrom (b : MemoryBlock) (processID size : Int) (hs : 0 < size)
    (hf : size ≤ b.size) :
    Tiles b.startAddress (allocateFrom b processID size) (b.startAddress + b.size) := by
  unfold allocateFrom
  by_cases h : b.size > size
  · simp only [h, if_true, Tiles]
    exact ⟨trivial, hs, trivial, by omega, by omega⟩
  · simp only [h, if_false, Tiles]
    exact ⟨trivial, by omega, trivial⟩

theorem tiles_allocate_middle (A B : List MemoryBlock) (b : MemoryBlock) (processID size : Int)
    (a z : Int) (hs : 0 < size) (hf : size ≤ b.size) (h : Tiles a (A ++ b :: B) z) :
    Tiles a (A ++ (allocateFrom b processID size ++ B)) z := by
  rw [tiles_append] at h ⊢
  obtain ⟨m, h1, h2, h3, h4⟩ := h
  refine ⟨m, h1, ?_⟩
  rw [tiles_append]
  refine ⟨m + b.size, ?_, h4⟩
  rw [← h2]
  exact tiles_allocateFrom b processID size hs hf

theorem allocateAt_middle (A B : List MemoryBlock) (b : MemoryBlock) (processID size : Int) :
    allocateAt (A ++ b :: B) A.length processID size =
      A ++ (allocateFrom b processID size ++ B) := by
  have h : (A ++ b :: B)[A.length]? = some b := by
    rw [List.getElem?_append_right (le_refl _)]
    simp
  simp only [allocateAt, h]
  simp

theorem bestFitLoop_spec (size : Int) (rest : List MemoryBlock) :
    ∀ (pre : List MemoryBlock) (bi bs : Int),
    ((bi = -1 ∧ ∀ a ∈ pre, Fits size a → bs ≤ a.size) ∨
      ∃ A b B, pre = A ++ b :: B ∧ bi = (A.length : Int) ∧ bs = b.size ∧ Fits size b ∧
        (∀ a ∈ A, Fits size a → b.size < a.size) ∧
        (∀ c ∈ B, Fits size c → b.size ≤ c.size)) →
    ((bi = -1 ∧ bestFitLoop size pre.length bi bs rest = -1 ∧
        ∀ a ∈ pre ++ rest, Fits size a → bs ≤ a.size) ∨
      ∃ A b B, pre ++ rest = A ++ b :: B ∧
        bestFitLoop size pre.length bi bs rest = (A.length : Int) ∧ Fits size b ∧
        (∀ a ∈ A, Fits size a → b.size < a.size) ∧
        (∀ c ∈ B, Fits size c → b.size ≤ c.size)) := by
  induction rest with
  | nil =>
    intro pre bi bs h
    rcases h with ⟨h1, h2⟩ | ⟨A, b, B, h1, h2, _, h4, h5, h6⟩
    · exact Or.inl ⟨h1, by rw [h1]; rfl, by simpa using h2⟩
    · exact Or.inr ⟨A, b, B, by simpa using h1, h2, h4, h5, h6⟩
  | cons x xs ih =>
    intro pre bi bs h
    have hlen : (pre ++ [x]).length = pre.length + 1 := by simp
    have happ : pre ++ x :: xs = (pre ++ [x]) ++ xs := by simp
    by_cases hx : x.isFree = true ∧ x.size ≥ size ∧ x.size < bs
    · have hfx : Fits size x := ⟨hx.1, hx.2.1⟩
      have hnew : ∀ a ∈ pre, Fits size a → x.size < a.size := by
        intro a ha hfa
        rcases h with ⟨_, h2⟩ | ⟨A, b, B, h1, _, h3, _, h5, h6⟩
        · have := h2 a ha hfa; omega
        · rw [h1, List.mem_append, List.mem_cons] at ha
          rcases ha with ha | ha | ha
          · have := h5 a ha hfa; omega
          · rw [ha]; omega
          · have := h6 a ha hfa; omega
      have key := ih (pre ++ [x]) (pre.length : Int) x.size
        (Or.inr ⟨pre, x, [], rfl, rfl, rfl, hfx, hnew, by simp⟩)
      rw [hlen] at key
      simp only [bestFitLoop, hx, and_self, if_true, happ]
      rcases key with ⟨k1, _⟩ | key
      · omega
      · exact Or.inr key
    · have hstep : bestFitLoop size pre.length bi bs (x :: xs) =
          bestFitLoop size (pre.length + 1) bi bs xs := by
        simp only [bestFitLoop, hx, if_false]
      have hxb : Fits size x → bs ≤ x.size := by
        intro hfx
        by_contra hlt
        exact hx ⟨hfx.1, hfx.2, by omega⟩
      have key := ih (pre ++ [x]) bi bs (by
        rcases h with ⟨h1, h2⟩ | ⟨A, b, B, h1, h2, h3, h4, h5, h6⟩
        · refine Or.inl ⟨h1, ?_⟩
          intro a ha hfa
          rw [List.mem_append, List.mem_singleton] at ha
          rcases ha with ha | ha
          · exact h2 a ha hfa
          · rw [ha] at hfa ⊢; exact hxb hfa
        · refine Or.inr ⟨A, b, B ++ [x], by rw [h1]; simp, h2, h3, h4, h5, ?_⟩
          intro c hc hfc
          rw [List.mem_append, List.mem_singleton] at hc
          rcases hc with hc | hc
          · exact h6 c hc hfc
          · rw [hc] at hfc ⊢
            have := hxb hfc
            omega)
      rw [hlen] at key
      rw [hstep, happ]
      exact key

theorem worstFitLoop_spec (size : Int) (rest : List MemoryBlock) :
    ∀ (pre : List MemoryBlock) (wi ws : Int),
    (wi = -1 ∨ ∃ A b B, pre = A ++ b :: B ∧ wi = (A.length : Int) ∧ Fits size b) →
    (worstFitLoop size pre.length wi ws rest = -1 ∨
      ∃ A b B, pre ++ rest = A ++ b :: B ∧
        worstFitLoop size pre.length wi ws rest = (A.length : Int) ∧ Fits size b) := by
  induction rest with
  | nil =>
    intro pre wi ws h
    rcases h with h | ⟨A, b, B, h1, h2, h3⟩
    · exact Or.inl h
    · exact Or.inr ⟨A, b, B, by simpa using h1, h2, h3⟩
  | cons x xs ih =>
    intro pre wi ws h
    have hlen : (pre ++ [x]).length = pre.length + 1 := by simp
    have happ : pre ++ x :: xs = (pre ++ [x]) ++ xs := by simp
    by_cases hx : x.isFree = true ∧ x.size ≥ size ∧ x.size > ws
    · have key := ih (pre ++ [x]) (pre.length : Int) x.size
        (Or.inr ⟨pre, x, [], rfl, rfl, hx.1, hx.2.1⟩)
      rw [hlen] at key
      simp only [worstFitLoop, hx, and_self, if_true, happ]
      exact key
    · have key := ih (pre ++ [x]) wi ws (by
        rcases h with h | ⟨A, b, B, h1, h2, h3⟩
        · exact Or.inl h
        · exact Or.inr ⟨A, b, B ++ [x], by rw [h1]; simp, h2, h3⟩)
      rw [hlen] at key
      simp only [worstFitLoop, hx, if_false, happ]
      exact key

theorem tiles_freeBlocks (processID : Int) (l : List MemoryBlock) : ∀ (a z : Int),
    Tiles a l z → Tiles a (freeBlocks processID l) z := by
  induction l with
  | nil => intro a z h; exact h
  | cons b rest ih =>
    intro a z h
    obtain ⟨h1, h2, h3⟩ := h
    have h4 := ih _ _ h3
    unfold freeBlocks at h4 ⊢
    simp only [List.map_cons, Tiles]
    split_ifs
    · exact ⟨h1, h2, h4⟩
    · exact ⟨h1, h2, h4⟩

theorem tiles_mergeLoop (rest : List MemoryBlock) : ∀ (b : MemoryBlock) (a z : Int),
    Tiles a (b :: rest) z → Tiles a (mergeLoop b rest) z := by
  induction rest with
  | nil => intro b a z h; exact h
  | cons c cs ih =>
    intro b a z h
    obtain ⟨h1, h2, h3, h4, h5⟩ := h
    by_cases hm : b.isFree = true ∧ c.isFree = true
    · simp only [mergeLoop, hm, and_self, if_true]
      apply ih
      refine ⟨h1, by simp only; omega, ?_⟩
      have : a + (b.size + c.size) = a + b.size + c.size := by ring
      simp only [this]
      exact h5
    · simp only [mergeLoop, hm, if_false]
      exact ⟨h1, h2, ih c _ _ ⟨h3, h4, h5⟩⟩

theorem tiles_deallocate (processID : Int) (blocks blocks1 : List MemoryBlock) (a z : Int)
    (h : Tiles a blocks z) (hd : deallocate processID blocks = some blocks1) :
    Tiles a blocks1 z := by
  unfold deallocate at hd
  by_cases hf : found processID blocks = true
  · simp only [hf, if_true] at hd
    have h1 := tiles_freeBlocks processID blocks a z h
    cases hfb : freeBlocks processID blocks with
    | nil => rw [hfb] at hd; simp [mergeAdjacentFreeBlocks] at hd
    | cons b rest =>
      rw [hfb] at hd h1
      simp only [mergeAdjacentFreeBlocks, Option.some.injEq] at hd
      rw [← hd]
      exact tiles_mergeLoop rest b a z h1
  · simp only [hf, if_false, Option.some.injEq, Bool.false_eq_true] at hd
    rw [← hd]
    exact h

theorem reachable_tiles (blocks : List MemoryBlock) (h : Reachable blocks) :
    Tiles 0 blocks TOTAL_MEMORY := by
  induction h with
  | init =>
    simp only [new, Tiles]
    exact ⟨trivial, by decide, by simp⟩
  | firstFit blocks pid size _ hs ih =>
    rcases allocateFirstFit_spec pid size blocks with ⟨_, h2, _⟩ | ⟨_, A, b, B, h2, _, h4, h5⟩
    · rw [h2]; exact ih
    · rw [h5]
      rw [h2] at ih
      exact tiles_allocate_middle A B b pid size _ _ hs h4.2 ih
  | bestFit blocks pid size _ hs ih =>
    unfold allocateBestFit
    rcases bestFitLoop_spec size blocks [] (-1) (TOTAL_MEMORY + 1) (Or.inl ⟨rfl, by simp⟩) with
      ⟨_, h1, _⟩ | ⟨A, b, B, h1, h2, h3, _, _⟩
    · simp only [List.length_nil] at h1
      simp only [h1, if_true]
      exact ih
    · simp only [List.length_nil, List.nil_append] at h1 h2
      have hne : ¬ ((A.length : Int) = -1) := by omega
      simp only [h2, hne, if_false, Int.toNat_ofNat]
      rw [h1, allocateAt_middle]
      rw [h1] at ih
      exact tiles_allocate_middle A B b pid size _ _ hs h3.2 ih
  | worstFit blocks pid size _ hs ih =>
    unfold allocateWorstFit
    rcases worstFitLoop_spec size blocks [] (-1) (-1) (Or.inl rfl) with
      h1 | ⟨A, b, B, h1, h2, h3⟩
    · simp only [List.length_nil] at h1
      simp only [h1, if_true]
      exact ih
    · simp only [List.length_nil, List.nil_append] at h1 h2
      have hne : ¬ ((A.length : Int) = -1) := by omega
      simp only [h2, hne, if_false, Int.toNat_ofNat]
      rw [h1, allocateAt_middle]
      rw [h1] at ih
      exact tiles_allocate_middle A B b pid size _ _ hs h3.2 ih
  | dealloc blocks blocks1 pid _ hd ih => exact tiles_deallocate pid blocks blocks1 _ _ ih hd

end MemoryManager

/-- C18 (as stated, refuted): the allocators take every `int` as a size. From a fresh manager,
`allocateFirstFit(1, -5)` succeeds and leaves a free block of 1048581 bytes, more than
`TOTAL_MEMORY`; `allocateBestFit(2, 100)` then returns false and changes nothing although
this free block has 100 bytes and more: its size is not below the initial
`bestSize = TOTAL_MEMORY + 1`. -/
theorem C18_best_fit_misses_oversized_block :
    MemoryManager.allocateFirstFit 1 (-5) MemoryManager.new =
      ([⟨0, -5, false, 1⟩, ⟨-5, 1048581, true, -1⟩], true) ∧
    (∃ b ∈ ([⟨0, -5, false, 1⟩, ⟨-5, 1048581, true, -1⟩] : List MemoryManager.MemoryBlock),
      b.isFree = true ∧ (100 : Int) ≤ b.size) ∧
    MemoryManager.allocateBestFit 2 100 [⟨0, -5, false, 1⟩, ⟨-5, 1048581, true, -1⟩] =
      ([⟨0, -5, false, 1⟩, ⟨-5, 1048581, true, -1⟩], false) := by
  refine ⟨by decide, by decide, by decide⟩

/-- C18 (amended): in every `MemoryManager` state reached from a fresh manager by allocations
of a positive size and deallocations, and for every `size`, `allocateBestFit(pid, size)`
returns true exactly when some free block has size `≥ size`. On success the block used is
free, large enough and no larger than any other free block that is large enough, and among
the blocks of that size it has the lowest address; it is replaced by the allocated block of
`size` bytes and, when larger, the free remainder. On failure the block list is unchanged. -/
theorem C18_best_fit (blocks : List MemoryManager.MemoryBlock) (pid size : Int)
    (hr : MemoryManager.Reachable blocks) :
    ((MemoryManager.allocateBestFit pid size blocks).2 = true ↔
      ∃ b ∈ blocks, b.isFree = true ∧ size ≤ b.size) ∧
    ((MemoryManager.allocateBestFit pid size blocks).2 = true →
      ∃ A b B, blocks = A ++ b :: B ∧ b.isFree = true ∧ size ≤ b.size ∧
        (∀ c ∈ blocks, c.isFree = true → size ≤ c.size → b.size ≤ c.size) ∧
        (∀ c ∈ blocks, c.isFree = true → size ≤ c.size → c.size = b.size →
          b.startAddress ≤ c.startAddress) ∧
        (MemoryManager.allocateBestFit pid size blocks).1 =
          A ++ ({ startAddress := b.startAddress, size := size, isFree := false,
                  processID := pid } ::
            ((if size < b.size then
                [{ startAddress := b.startAddress + size, size := b.size - size,
                   isFree := true, processID := -1 }]
              else []) ++ B))) ∧
    ((MemoryManager.allocateBestFit pid size blocks).2 = false →
      (MemoryManager.allocateBestFit pid size blocks).1 = blocks) := by
  have ht := MemoryManager.reachable_tiles blocks hr
  have hb := (MemoryManager.tiles_bounds blocks _ _ ht).2
  have hpw := MemoryManager.tiles_pairwise blocks _ _ ht
  rcases MemoryManager.bestFitLoop_spec size blocks [] (-1) (MemoryManager.TOTAL_MEMORY + 1)
      (Or.inl ⟨rfl, by simp⟩) with ⟨_, h1, h2⟩ | ⟨A, b, B, h1, h2, h3, h4, h5⟩
  · simp only [List.length_nil, List.nil_append] at h1 h2
    have hno : ∀ c ∈ blocks, ¬ (c.isFree = true ∧ size ≤ c.size) := by
      intro c hc hf
      have := h2 c hc hf
      have := hb c hc
      omega
    have hres : MemoryManager.allocateBestFit pid size blocks = (blocks, false) := by
      simp only [MemoryManager.allocateBestFit, h1, if_true]
    rw [hres]
    refine ⟨?_, fun h => by simp at h, fun _ => rfl⟩
    constructor
    · intro h; simp at h
    · rintro ⟨c, hc, hf⟩; exact absurd hf (hno c hc)
  · simp only [List.length_nil, List.nil_append] at h1 h2
    have hne : ¬ ((A.length : Int) = -1) := by omega
    have hres : MemoryManager.allocateBestFit pid size blocks =
        (A ++ (MemoryManager.allocateFrom b pid size ++ B), true) := by
      simp only [MemoryManager.allocateBestFit, h2, hne, if_false, Int.toNat_ofNat]
      rw [h1, MemoryManager.allocateAt_middle]
    rw [hres]
    refine ⟨⟨fun _ => ⟨b, by rw [h1]; simp, h3⟩, fun _ => rfl⟩, ?_,
      fun h => by simp at h⟩
    intro _
    refine ⟨A, b, B, h1, h3.1, h3.2, ?_, ?_, ?_⟩
    · intro c hc hcf hcs
      rw [h1, List.mem_append, List.mem_cons] at hc
      rcases hc with hc | hc | hc
      · exact le_of_lt (h4 c hc ⟨hcf, hcs⟩)
      · rw [hc]
      · exact h5 c hc ⟨hcf, hcs⟩
    · intro c hc hcf hcs heq
      rw [h1] at hpw
      rw [h1, List.mem_append, List.mem_cons] at hc
      rcases hc with hc | hc | hc
      · have := h4 c hc ⟨hcf, hcs⟩
        omega
      · rw [hc]
      · have h6 := (List.pairwise_append.mp hpw).2.1
        exact le_of_lt (List.rel_of_pairwise_cons h6 hc)
    · rw [MemoryManager.allocateFrom_eq b pid size h3.2]
      rfl

/-- Witness of C18: the best-fit test of `main`. After three allocations and `deallocate(2)`
the free blocks have 150000 and 398576 bytes; `allocateBestFit(4, 100000)` takes the block of
150000 bytes at address 200000. -/
theorem C18_best_fit_witness :
    MemoryManager.deallocate 2 (MemoryManager.allocateBestFit 3 300000
        (MemoryManager.allocateBestFit 2 150000
          (MemoryManager.allocateBestFit 1 200000 MemoryManager.new).1).1).1 =
      some [⟨0, 200000, false, 1⟩, ⟨200000, 150000, true, -1⟩, ⟨350000, 300000, false, 3⟩,
        ⟨650000, 398576, true, -1⟩] ∧
    MemoryManager.allocateBestFit 4 100000
        [⟨0, 200000, false, 1⟩, ⟨200000, 150000, true, -1⟩, ⟨350000, 300000, false, 3⟩,
          ⟨650000, 398576, true, -1⟩] =
      ([⟨0, 200000, false, 1⟩, ⟨200000, 100000, false, 4⟩, ⟨300000, 50000, true, -1⟩,
        ⟨350000, 300000, false, 3⟩, ⟨650000, 398576, true, -1⟩], true) ∧
    ((MemoryManager.allocateBestFit 4 100000
        [⟨0, 200000, false, 1⟩, ⟨200000, 150000, true, -1⟩, ⟨350000, 300000, false, 3⟩,
          ⟨650000, 398576, true, -1⟩]).2 = true ↔
      ∃ b ∈ ([⟨0, 200000, false, 1⟩, ⟨200000, 150000, true, -1⟩, ⟨350000, 300000, false, 3⟩,
          ⟨650000, 398576, true, -1⟩] : List MemoryManager.MemoryBlock),
        b.isFree = true ∧ (100000 : Int) ≤ b.size) :=
  ⟨by decide, by decide,
    (C18_best_fit _ 4 100000
      (MemoryManager.Reachable.dealloc _ _ 2
        (MemoryManager.Reachable.bestFit _ 3 300000
          (MemoryManager.Reachable.bestFit _ 2 150000
            (MemoryManager.Reachable.bestFit _ 1 200000 MemoryManager.Reachable.init
              (by decide)) (by decide)) (by decide))
        (by decide))).1⟩

/-! ### `MemoryManager::deallocate` -/

namespace MemoryManager

theorem mergeLoop_head (rest : List MemoryBlock) : ∀ b : MemoryBlock,
    ∃ h t, mergeLoop b rest = h :: t ∧ h.isFree = b.isFree := by
  induction rest with
  | nil => intro b; exact ⟨b, [], rfl, rfl⟩
  | cons c cs ih =>
    intro b
    by_cases hm : b.isFree = true ∧ c.isFree = true
    · obtain ⟨h, t, h1, h2⟩ := ih { b with size := b.size + c.size }
      have e : mergeLoop b (c :: cs) = mergeLoop { b with size := b.size + c.size } cs := by
        rw [mergeLoop]
        exact if_pos hm
      exact ⟨h, t, by rw [e, h1], h2⟩
    · exact ⟨b, mergeLoop c cs, by simp only [mergeLoop, hm, if_false], rfl⟩

theorem mergeLoop_chain (rest : List MemoryBlock) : ∀ b : MemoryBlock,
    (mergeLoop b rest).Chain' (fun x y => ¬ (x.isFree = true ∧ y.isFree = true)) := by
  induction rest with
  | nil => intro b; simp [mergeLoop]
  | cons c cs ih =>
    intro b
    by_cases hm : b.isFree = true ∧ c.isFree = true
    · simp only [mergeLoop, hm, and_self, if_true]
      exact ih _
    · simp only [mergeLoop, hm, if_false]
      obtain ⟨h, t, h1, h2⟩ := mergeLoop_head cs c
      have h3 := ih c
      rw [h1] at h3 ⊢
      rw [List.chain'_cons]
      exact ⟨by rw [h2]; exact hm, h3⟩

theorem mergeLoop_filter (rest : List MemoryBlock) : ∀ b : MemoryBlock,
    (mergeLoop b rest).filter (fun x => !x.isFree) =
      (b :: rest).filter (fun x => !x.isFree) := by
  induction rest with
  | nil => intro b; rfl
  | cons c cs ih =>
    intro b
    by_cases hm : b.isFree = true ∧ c.isFree = true
    · simp only [mergeLoop, hm, and_self, if_true]
      rw [ih]
      simp [List.filter_cons, hm.1, hm.2]
    · simp only [mergeLoop, hm, if_false]
      rw [List.filter_cons, ih]
      simp only [List.filter_cons]

theorem freeBlocks_filter (processID : Int) (l : List MemoryBlock) :
    (freeBlocks processID l).filter (fun x => !x.isFree) =
      l.filter (fun x => !x.isFree && decide (x.processID ≠ processID)) := by
  induction l with
  | nil => rfl
  | cons b rest ih =>
    unfold freeBlocks at ih ⊢
    rw [List.map_cons, List.filter_cons, List.filter_cons, ih]
    by_cases h1 : b.isFree = false
    · by_cases h2 : b.processID = processID
      · simp [h1, h2]
      · simp [h1, h2]
    · have h3 : b.isFree = true := by simpa using h1
      simp [h3]

theorem found_iff (processID : Int) (l : List MemoryBlock) :
    found processID l = true ↔ ∃ b ∈ l, b.isFree = false ∧ b.processID = processID := by
  simp [found, List.any_eq_true]

end MemoryManager

/-- C19: for every block list and every `pid` owning at least one block, `deallocate(pid)`
returns, and afterwards no allocated block belongs to `pid`, no two adjacent blocks are both
free, and the allocated blocks are exactly the blocks that were allocated to other processes,
in the same order and with the same start address, size and owner. -/
theorem C19_deallocate (blocks : List MemoryManager.MemoryBlock) (pid : Int)
    (h : ∃ b ∈ blocks, b.isFree = false ∧ b.processID = pid) :
    ∃ blocks1, MemoryManager.deallocate pid blocks = some blocks1 ∧
      (∀ b ∈ blocks1, ¬ (b.isFree = false ∧ b.processID = pid)) ∧
      blocks1.Chain' (fun x y => ¬ (x.isFree = true ∧ y.isFree = true)) ∧
      blocks1.filter (fun x => !x.isFree) =
        blocks.filter (fun x => !x.isFree && decide (x.processID ≠ pid)) := by
  have hf := (MemoryManager.found_iff pid blocks).mpr h
  cases hfb : MemoryManager.freeBlocks pid blocks with
  | nil =>
    obtain ⟨b, hb, _⟩ := h
    have h1 := congrArg List.length hfb
    simp only [MemoryManager.freeBlocks, List.length_map, List.length_nil] at h1
    rw [List.length_eq_zero.mp h1] at hb
    simp at hb
  | cons b rest =>
    have hfilter : (MemoryManager.mergeLoop b rest).filter (fun x => !x.isFree) =
        blocks.filter (fun x => !x.isFree && decide (x.processID ≠ pid)) := by
      rw [MemoryManager.mergeLoop_filter, ← hfb, MemoryManager.freeBlocks_filter]
    refine ⟨MemoryManager.mergeLoop b rest, ?_, ?_, MemoryManager.mergeLoop_chain rest b,
      hfilter⟩
    · simp only [MemoryManager.deallocate, hf, if_true, hfb,
        MemoryManager.mergeAdjacentFreeBlocks]
    · intro x hx hown
      have hx1 : x ∈ (MemoryManager.mergeLoop b rest).filter (fun x => !x.isFree) := by
        rw [List.mem_filter]
        exact ⟨hx, by simp [hown.1]⟩
      rw [hfilter, List.mem_filter] at hx1
      have hx2 := hx1.2
      simp only [Bool.and_eq_true, decide_eq_true_eq] at hx2
      exact hx2.2 hown.2

/-- Witness of C19: the first-fit test of `main`: processes 1, 2, 3 hold the first three
blocks and `deallocate(2)` frees the middle one. -/
theorem C19_deallocate_witness :
    (∃ b ∈ ([⟨0, 200000, false, 1⟩, ⟨200000, 150000, false, 2⟩, ⟨350000, 300000, false, 3⟩,
        ⟨650000, 398576, true, -1⟩] : List MemoryManager.MemoryBlock),
      b.isFree = false ∧ b.processID = 2) ∧
    MemoryManager.deallocate 3
        [⟨0, 200000, false, 1⟩, ⟨200000, 150000, true, -1⟩, ⟨350000, 300000, false, 3⟩,
          ⟨650000, 398576, true, -1⟩] =
      some [⟨0, 200000, false, 1⟩, ⟨200000, 848576, true, -1⟩] ∧
    ∃ blocks1, MemoryManager.deallocate 2
        [⟨0, 200000, false, 1⟩, ⟨200000, 150000, false, 2⟩, ⟨350000, 300000, false, 3⟩,
          ⟨650000, 398576, true, -1⟩] = some blocks1 ∧
      (∀ b ∈ blocks1, ¬ (b.isFree = false ∧ b.processID = 2)) ∧
      blocks1.Chain' (fun x y => ¬ (x.isFree = true ∧ y.isFree = true)) ∧
      blocks1.filter (fun x => !x.isFree) =
        ([⟨0, 200000, false, 1⟩, ⟨200000, 150000, false, 2⟩, ⟨350000, 300000, false, 3⟩,
          ⟨650000, 398576, true, -1⟩] : List MemoryManager.MemoryBlock).filter
          (fun x => !x.isFree && decide (x.processID ≠ 2)) :=
  ⟨⟨⟨200000, 150000, false, 2⟩, by simp, rfl, rfl⟩, by decide,
    C19_deallocate _ 2 ⟨⟨200000, 150000, false, 2⟩, by simp, rfl, rfl⟩⟩

/-! ### `WorkingSetSimulator::calculateWorkingSet` -/

namespace WorkingSetSimulator

theorem insertLoop_eq (refs : List Int) : ∀ (n i : Nat) (ws : Finset Int),
    i + n ≤ refs.length →
    insertLoop refs i n ws = some (ws ∪ ((refs.drop i).take n).toFinset) := by
  intro n
  induction n with
  | zero => intro i ws _; simp [insertLoop]
  | succ n ih =>
    intro i ws h
    have hi : i < refs.length := by omega
    have hd : refs.drop i = refs[i] :: refs.drop (i + 1) := List.drop_eq_getElem_cons hi
    simp only [insertLoop, List.getElem?_eq_getElem hi]
    rw [ih (i + 1) _ (by omega), hd, List.take_succ_cons, List.toFinset_cons]
    congr 1
    ext x
    simp only [Finset.mem_union, Finset.mem_insert]
    tauto

/-- What `calculateWorkingSet(t)` computes for `0 ≤ t < referenceString.size()` and a window
`windowSize ≥ 0`: the distinct pages at the positions `max(0, t - windowSize)` to `t`, which
are up to `windowSize + 1` references. -/
theorem calculateWorkingSet_eq (s : State) (t : Nat) (ht : t < s.referenceString.length)
    (hw : 0 ≤ s.windowSize) :
    calculateWorkingSet s (t : Int) =
      some (((s.referenceString.drop (t - s.windowSize.toNat)).take
        (t - (t - s.windowSize.toNat) + 1)).toFinset) ∧
    t - (t - s.windowSize.toNat) + 1 ≤ s.windowSize.toNat + 1 := by
  have h1 : (max 0 ((t : Int) - s.windowSize)).toNat = t - s.windowSize.toNat := by
    omega
  have h2 : ((t : Int) - max 0 ((t : Int) - s.windowSize) + 1).toNat =
      t - (t - s.windowSize.toNat) + 1 := by
    omega
  refine ⟨?_, by omega⟩
  simp only [calculateWorkingSet, h1, h2]
  rw [insertLoop_eq _ _ _ _ (by omega)]
  simp

end WorkingSetSimulator

/-- C20 (the code at the failing input): with window size `D = 2` and the reference string
1, 2, 3, `calculateWorkingSet(2)` is the set of the pages at positions 0 to 2, `{1, 2, 3}`,
of size 3 `> D`; the most recent `D` references (positions 1 to 2) hold only `{2, 3}`. -/
theorem C20_working_set_window_off_by_one :
    WorkingSetSimulator.calculateWorkingSet
      { windowSize := 2, referenceString := [1, 2, 3], workingSets := [],
        workingSetSizes := [] } 2 = some {1, 2, 3} ∧
    (WorkingSetSimulator.calculateWorkingSet
      { windowSize := 2, referenceString := [1, 2, 3], workingSets := [],
        workingSetSizes := [] } 2).map (fun ws => ws.card) = some 3 ∧
    (([1, 2, 3] : List Int).drop 1).take 2 = [2, 3] ∧
    ((WorkingSetSimulator.processReferenceString (WorkingSetSimulator.new 2) [1, 2, 3]).map
      (fun s => s.workingSetSizes)) = some [1, 2, 3] := by
  refine ⟨?_, by decide, by decide, by decide⟩
  have h : WorkingSetSimulator.calculateWorkingSet
      { windowSize := 2, referenceString := [1, 2, 3], workingSets := [],
        workingSetSizes := [] } 2 = some (insert 3 (insert 2 (insert 1 ∅))) := rfl
  rw [h]
  congr 1
  ext x
  simp only [Finset.mem_insert, Finset.mem_singleton, Finset.not_mem_empty, or_false]
  omega

/-! ### `MemoryMappedFile::read` -/

namespace MemoryMappedFile

theorem copyLoop_eq (content : List Char) : ∀ (n i : Nat) (acc : List Char),
    i + n ≤ content.length →
    copyLoop content (i : Int) n acc = some (acc ++ (content.drop i).take n) := by
  intro n
  induction n with
  | zero => intro i acc _; simp [copyLoop]
  | succ n ih =>
    intro i acc h
    have hi : i < content.length := by omega
    have hd : content.drop i = content[i] :: content.drop (i + 1) := List.drop_eq_getElem_cons hi
    have h0 : (0 : Int) ≤ (i : Int) := Int.ofNat_nonneg i
    have h1 : ((i : Int) + 1) = ((i + 1 : Nat) : Int) := by push_cast; rfl
    simp only [copyLoop, h0, if_true, Int.toNat_ofNat, List.getElem?_eq_getElem hi]
    rw [h1, ih (i + 1) _ (by omega), hd, List.take_succ_cons]
    simp

theorem copyLoop_some (content : List Char) (i : Int) (n : Nat) (acc : List Char)
    (h : n = 0 ∨ (0 ≤ i ∧ i + n ≤ content.length)) :
    ∃ r, copyLoop content i n acc = some r := by
  rcases h with h | ⟨h0, h1⟩
  · subst h; exact ⟨acc, rfl⟩
  · obtain ⟨k, hk⟩ := Int.eq_ofNat_of_zero_le h0
    subst hk
    exact ⟨_, copyLoop_eq content n k acc (by omega)⟩

theorem loadPage_spec (s : State) (p : Int) (hI : Inv s) :
    ∃ s1, loadPage s p = some s1 ∧ s1.fileContent = s.fileContent ∧
      s1.fileSize = s.fileSize ∧ s1.pageSize = s.pageSize ∧ s1.reads = s.reads ∧ Inv s1 := by
  obtain ⟨hps, hfs, hnp⟩ := hI
  unfold loadPage
  by_cases h1 : p < 0 ∨ p ≥ s.numPages
  · rw [if_pos h1]; exact ⟨s, rfl, rfl, rfl, rfl, rfl, hps, hfs, hnp⟩
  · rw [if_neg h1]
    by_cases h2 : p ∈ s.pagesInMemory
    · rw [if_pos h2]; exact ⟨s, rfl, rfl, rfl, rfl, rfl, hps, hfs, hnp⟩
    · rw [if_neg h2]
      have hp0 : 0 ≤ p := by omega
      have hc : ∃ r, copyLoop s.fileContent (p * s.pageSize)
          (min (p * s.pageSize + s.pageSize) s.fileSize - p * s.pageSize).toNat [] = some r := by
        apply copyLoop_some
        by_cases hpos : 0 < s.pageSize
        · have hm : 0 ≤ p * s.pageSize := Int.mul_nonneg hp0 (le_of_lt hpos)
          have hm2 := min_le_right (p * s.pageSize + s.pageSize) s.fileSize
          rcases le_or_lt (p * s.pageSize) (min (p * s.pageSize + s.pageSize) s.fileSize)
            with hm3 | hm3
          · right
            refine ⟨hm, ?_⟩
            rw [Int.toNat_of_nonneg (by omega)]
            omega
          · left
            exact Int.toNat_eq_zero.mpr (by omega)
        · left
          have hm := min_le_left (p * s.pageSize + s.pageSize) s.fileSize
          exact Int.toNat_eq_zero.mpr (by omega)
      obtain ⟨r, hr⟩ := hc
      have hlt : p.toNat < s.pages.length := by omega
      simp only [hr, hlt, if_true]
      exact ⟨_, rfl, rfl, rfl, rfl, rfl, hps, hfs, by simpa using hnp⟩

theorem loadLoop_spec : ∀ (n : Nat) (p : Int) (s : State), Inv s →
    ∃ s1, loadLoop p n s = some s1 ∧ s1.fileContent = s.fileContent ∧
      s1.fileSize = s.fileSize ∧ s1.pageSize = s.pageSize ∧ s1.reads = s.reads ∧ Inv s1 := by
  intro n
  induction n with
  | zero => intro p s hI; exact ⟨s, rfl, rfl, rfl, rfl, rfl, hI⟩
  | succ n ih =>
    intro p s hI
    obtain ⟨s1, h1, h2, h3, h4, h5, h6⟩ := loadPage_spec s p hI
    obtain ⟨s2, k1, k2, k3, k4, k5, k6⟩ :=
      ih (p + 1) { s1 with totalReadTime := s1.totalReadTime + MEMORY_ACCESS_TIME } h6
    refine ⟨s2, ?_, k2.trans h2, k3.trans h3, k4.trans h4, k5.trans h5, k6⟩
    simp only [loadLoop, h1]
    exact k1

/-- What `read` does on a state that satisfies the invariant. -/
theorem read_spec (s : State) (offset length : Int) (hI : Inv s) (h0 : 0 ≤ offset)
    (h1 : offset < s.fileSize) :
    ∃ s1, read s offset length =
        some (s1, (s.fileContent.drop offset.toNat).take
          (min length (s.fileSize - offset)).toNat) ∧
      s1.fileContent = s.fileContent ∧ s1.fileSize = s.fileSize ∧
      s1.reads = s.reads + 1 ∧ Inv s1 := by
  have hI1 : Inv { s with reads := s.reads + 1 } := hI
  obtain ⟨s2, k1, k2, k3, k4, k5, k6⟩ := loadLoop_spec
    (Int.tdiv (offset + min length (s.fileSize - offset) - 1) s.pageSize -
      Int.tdiv offset s.pageSize + 1).toNat
    (Int.tdiv offset s.pageSize) { s with reads := s.reads + 1 } hI1
  have hlen : offset.toNat + (min length (s.fileSize - offset)).toNat ≤
      s.fileContent.length := by
    have := hI.2.1
    omega
  have hc := copyLoop_eq s.fileContent (min length (s.fileSize - offset)).toNat offset.toNat []
    hlen
  rw [Int.toNat_of_nonneg h0] at hc
  refine ⟨s2, ?_, k2, k3, k5, k6⟩
  unfold read
  have hn : ¬ (offset < 0 ∨ offset ≥ s.fileSize) := by omega
  simp only [hn, if_false, hI.1, k1, k2, hc, List.nil_append]

theorem read_invalid (s : State) (offset length : Int)
    (h : offset < 0 ∨ s.fileSize ≤ offset) :
    read s offset length = some ({ s with reads := s.reads + 1 }, []) := by
  unfold read
  have hn : offset < 0 ∨ offset ≥ s.fileSize := h
  simp only [hn, if_true]

theorem length_resize (pages : List (List Char)) (n : Nat) : (resize pages n).length = n := by
  unfold resize
  simp only [List.length_append, List.length_take, List.length_replicate]
  omega

theorem initializeFile_inv (s s1 : State) (content : List Char) (file : Option (List Char))
    (h : initializeFile s content file = some s1) : Inv s1 := by
  unfold initializeFile at h
  simp only at h
  split_ifs at h with h1 h2 h3 h4
  have e := Option.some.inj h
  subst e
  refine ⟨h2, rfl, ?_⟩
  simp only [length_resize]
  omega

theorem initialised_inv (s : State) (h : Initialised s) : Inv s := by
  induction h with
  | first pgSize fileSize numPages content file s h => exact initializeFile_inv _ _ _ _ h
  | again s s1 content file _ h _ => exact initializeFile_inv _ _ _ _ h
  | read s s1 offset length r _ h ih =>
    by_cases hv : offset < 0 ∨ s.fileSize ≤ offset
    · rw [read_invalid s offset length hv] at h
      have e := (Prod.mk.inj (Option.some.inj h)).1
      rw [← e]
      exact ih
    · unfold read at h
      have hn : ¬ (offset < 0 ∨ offset ≥ s.fileSize) := hv
      simp only [hn, if_false, ih.1] at h
      have hI1 : Inv { s with reads := s.reads + 1 } := ih
      obtain ⟨s2, k1, _, _, _, _, k6⟩ := loadLoop_spec
        (Int.tdiv (offset + min length (s.fileSize - offset) - 1) s.pageSize -
          Int.tdiv offset s.pageSize + 1).toNat
        (Int.tdiv offset s.pageSize) { s with reads := s.reads + 1 } hI1
      rw [k1] at h
      simp only at h
      cases hc : copyLoop s2.fileContent offset (min length (s.fileSize - offset)).toNat [] with
      | none => rw [hc] at h; simp at h
      | some r1 =>
        rw [hc] at h
        have e := (Prod.mk.inj (Option.some.inj h)).1
        rw [← e]
        exact k6

end MemoryMappedFile

/-- C21: for every initialised `MemoryMappedFile` (any calls of `initialize` and `read` may
have come before), `fileSize` is the size of the file content; for `0 ≤ offset < fileSize`
and every `length`, `read(offset, length)` returns, and the string it returns is the content
from position `offset` up to `offset + min(length, fileSize - offset)` (nothing when
`length ≤ 0`), the content itself being unchanged. For `offset < 0` or `offset ≥ fileSize` it returns the empty string and
changes nothing but the counter `reads`, so no page is loaded. -/
theorem C21_read_returns_file_bytes (s : MemoryMappedFile.State) (offset length : Int)
    (hs : MemoryMappedFile.Initialised s) :
    s.fileSize = (s.fileContent.length : Int) ∧
    (0 ≤ offset → offset < s.fileSize →
      ∃ s1, MemoryMappedFile.read s offset length =
          some (s1, (s.fileContent.drop offset.toNat).take
            (min length (s.fileSize - offset)).toNat) ∧
        s1.fileContent = s.fileContent ∧ s1.fileSize = s.fileSize) ∧
    (offset < 0 ∨ s.fileSize ≤ offset →
      MemoryMappedFile.read s offset length = some ({ s with reads := s.reads + 1 }, [])) := by
  have hI := MemoryMappedFile.initialised_inv s hs
  refine ⟨hI.2.1, ?_, MemoryMappedFile.read_invalid s offset length⟩
  intro h0 h1
  obtain ⟨s1, k1, k2, k3, _, _⟩ := MemoryMappedFile.read_spec s offset length hI h0 h1
  exact ⟨s1, k1, k2, k3⟩

set_option maxRecDepth 20000

/-- Witness of C21: test 1 of `main` (`MemoryMappedFile mmf("sample.txt", 100)` initialised
with the text of 318 bytes). After `read(0, 50)`, `read(300, 60)` returns the last 18 bytes of
the file and `read(318, 10)` returns the empty string. -/
theorem C21_read_returns_file_bytes_witness :
    ∃ s s1 s2, MemoryMappedFile.initializeFile (MemoryMappedFile.new 100 0 0)
        MemoryMappedFile.mainContent none = some s ∧
      MemoryMappedFile.read s 0 50 =
        some (s1, "Memory-mapped files provide an efficient way to ac".toList) ∧
      MemoryMappedFile.read s1 300 60 = some (s2, "ram code and data.".toList) ∧
      MemoryMappedFile.read s1 318 10 = some ({ s1 with reads := s1.reads + 1 }, []) := by
  have h0 : MemoryMappedFile.initializeFile (MemoryMappedFile.new 100 0 0)
      MemoryMappedFile.mainContent none =
      some { fileContent := MemoryMappedFile.mainContent, fileSize := 318, pageSize := 100,
             numPages := 4, pagesInMemory := ∅, pages := [[], [], [], []], pageLoads := 0,
             reads := 0, totalReadTime := 0 } := rfl
  have hI0 := MemoryMappedFile.Initialised.first _ _ _ _ _ _ h0
  obtain ⟨s1, h1, h1c, h1s⟩ := (C21_read_returns_file_bytes _ 0 50 hI0).2.1 (by decide)
    (by decide)
  have hI1 := MemoryMappedFile.Initialised.read _ _ _ _ _ hI0 h1
  obtain ⟨_, hr, hv⟩ := C21_read_returns_file_bytes s1 300 60 hI1
  obtain ⟨s2, h2, _, _⟩ := hr (by decide) (by rw [h1s]; decide)
  have hv2 := C21_read_returns_file_bytes s1 318 10 hI1
  refine ⟨_, s1, s2, h0, ?_, ?_, hv2.2.2 (Or.inr (le_of_eq h1s))⟩
  · rw [h1]; rfl
  · rw [h2, h1c, h1s]; rfl

/-! ### `DiningPhilosophersWaiter`: mutual exclusion -/

theorem fin5_succ_ne (i : Fin 5) : i + 1 ≠ i := by revert i; decide

theorem fin5_add_four_ne (i : Fin 5) : i + 4 ≠ i := by revert i; decide

theorem fin5_add_four_eq (c i : Fin 5) : c + 4 = i ↔ c = i + 1 := by revert c i; decide

theorem fin5_succ_add_four (i : Fin 5) : i + 1 + 4 = i := by revert i; decide

theorem fin5_add_four_succ (i : Fin 5) : i + 4 + 1 = i := by revert i; decide

theorem fin5_succ_eq (c i : Fin 5) : c + 1 = i ↔ c = i + 4 := by revert c i; decide

namespace DiningPhilosophersWaiter

theorem waiter_init_inv : Inv init := by
  constructor
  · intro c; rfl
  · intro i h; simp [init] at h

theorem waiter_philosopher_inv (s s1 : State) (id : Fin 5) (hI : Inv s)
    (h : philosopher s id = some s1) : Inv s1 := by
  obtain ⟨hA, hE⟩ := hI
  unfold philosopher at h
  by_cases he : (s.threads id).eating = true
  · -- the step is `return_chopsticks(id)`
    simp only [he, if_true] at h
    have e := Option.some.inj h
    subst e
    have e1 : (s.threads (id + 1)).eating = false := by
      cases hx : (s.threads (id + 1)).eating
      · rfl
      · exact absurd ⟨he, hx⟩ (hE id)
    have e4 : (s.threads (id + 4)).eating = false := by
      cases hx : (s.threads (id + 4)).eating
      · rfl
      · exact absurd ⟨hx, by rw [fin5_add_four_succ]; exact he⟩ (hE (id + 4))
    constructor
    · intro c
      simp only [return_chopsticks, Function.update_apply]
      by_cases h1 : c = id + 1
      · subst h1
        simp [fin5_succ_ne, fin5_succ_add_four, e1]
      · by_cases h2 : c = id
        · subst h2
          simp [fin5_add_four_ne, e4]
        · have h3 : ¬ (c + 4 = id) := by rw [fin5_add_four_eq]; exact h1
          simp only [h1, h2, h3, if_false]
          exact hA c
    · intro i
      simp only [return_chopsticks, Function.update_apply]
      by_cases h1 : i = id
      · subst h1; simp
      · by_cases h2 : i + 1 = id
        · simp [h2]
        · simp only [h1, h2, if_false]
          exact hE i
  · -- the step is `request_chopsticks(id)`
    have he0 : (s.threads id).eating = false := by simpa using he
    simp only [he0, Bool.false_eq_true, if_false] at h
    by_cases hm : (s.threads id).meal < 3
    · simp only [hm, if_true, request_chopsticks] at h
      by_cases hc : can_eat s id = true
      · simp only [hc, if_true] at h
        have e := Option.some.inj h
        subst e
        unfold can_eat at hc
        rw [Bool.and_eq_true] at hc
        have a0 := hA id
        have a1 := hA (id + 1)
        rw [hc.1] at a0
        rw [hc.2, fin5_succ_add_four] at a1
        have e4 : (s.threads (id + 4)).eating = false := by
          cases hx : (s.threads (id + 4)).eating
          · rfl
          · rw [hx] at a0; simp at a0
        have e1 : (s.threads (id + 1)).eating = false := by
          cases hx : (s.threads (id + 1)).eating
          · rfl
          · rw [hx] at a1; simp at a1
        constructor
        · intro c
          simp only [Function.update_apply]
          by_cases h1 : c = id + 1
          · subst h1
            simp [fin5_succ_ne, fin5_succ_add_four]
          · by_cases h2 : c = id
            · subst h2
              simp
            · have h3 : ¬ (c + 4 = id) := by rw [fin5_add_four_eq]; exact h1
              simp only [h1, h2, h3, if_false]
              exact hA c
        · intro i
          simp only [Function.update_apply]
          by_cases h1 : i = id
          · subst h1
            simp [fin5_succ_ne, e1]
          · by_cases h2 : i + 1 = id
            · have h3 : i = id + 4 := (fin5_succ_eq i id).mp h2
              subst h3
              simp [fin5_add_four_ne, e4]
            · simp only [h1, h2, if_false]
              exact hE i
      · simp [hc] at h
    · simp [hm] at h

theorem waiter_run_inv (sched : List (Fin 5)) : ∀ (s s1 : State), Inv s → run s sched = some s1 →
    Inv s1 := by
  induction sched with
  | nil =>
    intro s s1 hI h
    have e := Option.some.inj h
    subst e
    exact hI
  | cons id rest ih =>
    intro s s1 hI h
    simp only [run] at h
    cases hp : philosopher s id with
    | none => rw [hp] at h; simp at h
    | some s2 =>
      rw [hp] at h
      exact ih s2 s1 (waiter_philosopher_inv s s2 id hI hp) h

end DiningPhilosophersWaiter

/-- C22: in every state that the waiter solution reaches from the start of `demonstrate()`
by atomic steps `request_chopsticks` and `return_chopsticks` of the five threads, in any
order, (1) no chopstick is reserved by two philosophers, where philosopher `i` reserves the
chopsticks `i` and `i + 1` while it is between a granted request and its return; (2) no two
neighbours are both in that phase; (3) `chopstick_available[c]` is false exactly when some
philosopher reserves chopstick `c`. -/
theorem C22_waiter_mutual_exclusion (sched : List (Fin 5)) (s : DiningPhilosophersWaiter.State)
    (h : DiningPhilosophersWaiter.run DiningPhilosophersWaiter.init sched = some s) :
    (∀ c i j : Fin 5, (s.threads i).eating = true ∧ (c = i ∨ c = i + 1) →
      (s.threads j).eating = true ∧ (c = j ∨ c = j + 1) → i = j) ∧
    (∀ i : Fin 5, ¬ ((s.threads i).eating = true ∧ (s.threads (i + 1)).eating = true)) ∧
    (∀ c : Fin 5, s.chopstick_available c = false ↔
      ∃ i : Fin 5, (s.threads i).eating = true ∧ (c = i ∨ c = i + 1)) := by
  obtain ⟨hA, hE⟩ := DiningPhilosophersWaiter.waiter_run_inv sched _ s
    DiningPhilosophersWaiter.waiter_init_inv h
  refine ⟨?_, hE, ?_⟩
  · rintro c i j ⟨hi, hci⟩ ⟨hj, hcj⟩
    rcases hci with hci | hci <;> rcases hcj with hcj | hcj
    · rw [← hci, ← hcj]
    · exfalso
      have e : i = j + 1 := by rw [← hci, hcj]
      rw [e] at hi
      exact hE j ⟨hj, hi⟩
    · exfalso
      have e : j = i + 1 := by rw [← hcj, hci]
      rw [e] at hj
      exact hE i ⟨hi, hj⟩
    · have e : i + 1 = j + 1 := by rw [← hci, ← hcj]
      exact add_right_cancel e
  · intro c
    rw [hA c]
    constructor
    · intro hx
      simp only [Bool.not_eq_false_eq_eq_true, Bool.not_eq_eq_eq_not, Bool.not_false,
        Bool.or_eq_true] at hx
      rcases hx with hx | hx
      · exact ⟨c, hx, Or.inl rfl⟩
      · exact ⟨c + 4, hx, Or.inr (fin5_add_four_succ c).symm⟩
    · rintro ⟨i, hi, hc | hc⟩
      · rw [hc, hi]; rfl
      · rw [hc, fin5_succ_add_four, hi]; simp

/-- Witness of C22: philosophers 0 and 2 are granted their chopsticks, then philosopher 0
returns them; chopsticks 2 and 3 are then unavailable, the other three available. -/
theorem C22_waiter_mutual_exclusion_witness :
    ∃ s, DiningPhilosophersWaiter.run DiningPhilosophersWaiter.init [0, 2, 0] = some s ∧
      (List.finRange 5).map s.chopstick_available = [true, true, false, false, true] ∧
      (List.finRange 5).map (fun i => (s.threads i).eating) =
        [false, false, true, false, false] ∧
      (∀ i : Fin 5, ¬ ((s.threads i).eating = true ∧ (s.threads (i + 1)).eating = true)) :=
  ⟨_, rfl, by decide, by decide, (C22_waiter_mutual_exclusion [0, 2, 0] _ rfl).2.1⟩

/-! ### `DiningPhilosophersTimeout`: attempts, meals and timeouts -/

theorem fin5_sum_update {α : Type} (f : Fin 5 → α) (id : Fin 5) (v : α) (g : α → Int) :
    ∑ i, g (Function.update f id v i) = ∑ i, g (f i) - g (f id) + g v := by
  rw [Fin.sum_univ_five, Fin.sum_univ_five]
  fin_cases id <;> simp [Function.update] <;> ring

namespace DiningPhilosophersTimeout

theorem timeout_init_inv : Inv init := by
  refine ⟨?_, ?_, ?_⟩
  · intro id; simp [init, pending]
  · simp [init]
  · simp [init, pending]

theorem pending_mk (pc : PC) (m a : Int) :
    pending { pc := pc, meals_eaten := m, attempts := a } =
      if pc = PC.first ∨ pc = PC.second then 1 else 0 := rfl

/-- A step that changes the thread `id` and the counters keeps the invariant when the new
local state is within the bounds and the counters move with it. -/
theorem timeout_inv_step (s s1 : State) (id : Fin 5) (hI : Inv s)
    (hthr : s1.threads = Function.update s.threads id (s1.threads id))
    (hb : 0 ≤ (s1.threads id).meals_eaten ∧ (s1.threads id).meals_eaten ≤ 3 ∧
      0 ≤ (s1.threads id).attempts ∧ (s1.threads id).attempts ≤ 10 ∧
      (pending (s1.threads id) = 1 → (s1.threads id).meals_eaten < 3))
    (hm : s1.successful_meals - s.successful_meals =
      (s1.threads id).meals_eaten - (s.threads id).meals_eaten)
    (ha : s1.successful_meals + s1.timeouts + pending (s1.threads id) -
        (s1.threads id).attempts =
      s.successful_meals + s.timeouts + pending (s.threads id) - (s.threads id).attempts) :
    Inv s1 := by
  obtain ⟨hT, hM, hC⟩ := hI
  refine ⟨?_, ?_, ?_⟩
  · intro j
    by_cases hj : j = id
    · subst hj; exact hb
    · rw [hthr, Function.update_noteq hj]; exact hT j
  · rw [hthr, fin5_sum_update s.threads id _ (fun t => t.meals_eaten)]
    omega
  · rw [hthr, fin5_sum_update s.threads id _ (fun t => t.attempts),
      fin5_sum_update s.threads id _ pending]
    omega

theorem timeout_philosopher_inv (s s1 : State) (id : Fin 5) (b : Bool) (hI : Inv s)
    (h : philosopher s id b = some s1) : Inv s1 := by
  obtain ⟨t1, t2, t3, t4, t5⟩ := hI.1 id
  unfold philosopher at h
  cases hpc : (s.threads id).pc <;> simp only [hpc] at h
  · -- loop
    have hp : pending (s.threads id) = 0 := by simp [pending, hpc]
    by_cases hg : (s.threads id).meals_eaten < 3 ∧ (s.threads id).attempts < 10
    · simp only [hg, and_self, if_true] at h
      have e := Option.some.inj h
      subst e
      apply timeout_inv_step s _ id hI
      all_goals simp [pending_mk, hp]
      all_goals omega
    · simp only [hg, if_false] at h
      have e := Option.some.inj h
      subst e
      apply timeout_inv_step s _ id hI
      all_goals simp [pending_mk, hp]
      all_goals omega
  · -- first
    have hp : pending (s.threads id) = 1 := by simp [pending, hpc]
    have hlt := t5 hp
    cases b
    · simp only [Bool.false_eq_true, if_false] at h
      have e := Option.some.inj h
      subst e
      apply timeout_inv_step s _ id hI
      all_goals simp [pending_mk, hp]
      all_goals omega
    · simp only [if_true] at h
      by_cases hl : s.chopsticks (left id) = true
      · simp [hl] at h
      · simp only [hl, Bool.false_eq_true, if_false] at h
        have e := Option.some.inj h
        subst e
        apply timeout_inv_step s _ id hI
        all_goals simp [pending_mk, hp]
        all_goals omega
  · -- second
    have hp : pending (s.threads id) = 1 := by simp [pending, hpc]
    have hlt := t5 hp
    cases b
    · simp only [Bool.false_eq_true, if_false] at h
      have e := Option.some.inj h
      subst e
      apply timeout_inv_step s _ id hI
      all_goals simp [pending_mk, hp]
      all_goals omega
    · simp only [if_true] at h
      by_cases hl : s.chopsticks (right id) = true
      · simp [hl] at h
      · simp only [hl, Bool.false_eq_true, if_false] at h
        have e := Option.some.inj h
        subst e
        apply timeout_inv_step s _ id hI
        all_goals simp [pending_mk, hp]
        all_goals omega
  · -- eat
    have hp : pending (s.threads id) = 0 := by simp [pending, hpc]
    have e := Option.some.inj h
    subst e
    apply timeout_inv_step s _ id hI
    all_goals simp [pending_mk, hp]
    all_goals omega
  · -- unlockLeft
    have hp : pending (s.threads id) = 0 := by simp [pending, hpc]
    have e := Option.some.inj h
    subst e
    apply timeout_inv_step s _ id hI
    all_goals simp [pending_mk, hp]
    all_goals omega
  · -- backoff
    have hp : pending (s.threads id) = 0 := by simp [pending, hpc]
    have e := Option.some.inj h
    subst e
    apply timeout_inv_step s _ id hI
    all_goals simp [pending_mk, hp]
    all_goals omega
  · -- done
    simp at h

theorem timeout_run_inv (sched : List (Fin 5 × Bool)) : ∀ (s s1 : State), Inv s →
    run s sched = some s1 → Inv s1 := by
  induction sched with
  | nil =>
    intro s s1 hI h
    have e := Option.some.inj h
    subst e
    exact hI
  | cons x rest ih =>
    intro s s1 hI h
    obtain ⟨id, b⟩ := x
    simp only [run] at h
    cases hp : philosopher s id b with
    | none => rw [hp] at h; simp at h
    | some s2 =>
      rw [hp] at h
      exact ih s2 s1 (timeout_philosopher_inv s s2 id b hI hp) h

end DiningPhilosophersTimeout

/-- C23: in every state that the timeout strategy reaches from the start of `demonstrate()`,
whatever the order of the steps of the five threads and whatever the outcomes of the calls of
`try_lock_with_timeout`, every philosopher has made at most 10 attempts and eaten at most 3
meals, `successful_meals` is the number of meals eaten, and `successful_meals + timeouts`
plus the number of attempts that are still trying to lock is the number of attempts made.
When all five threads have returned, `successful_meals + timeouts` is the total number of
attempts. In the run in which every lock attempt times out, all threads return and each
philosopher has made 10 attempts and eaten no meal. -/
theorem C23_timeout_attempts_accounted (sched : List (Fin 5 × Bool))
    (s : DiningPhilosophersTimeout.State)
    (h : DiningPhilosophersTimeout.run DiningPhilosophersTimeout.init sched = some s) :
    (∀ id, (s.threads id).attempts ≤ 10 ∧ (s.threads id).meals_eaten ≤ 3) ∧
    s.successful_meals = ∑ id, (s.threads id).meals_eaten ∧
    s.successful_meals + s.timeouts + ∑ id, DiningPhilosophersTimeout.pending (s.threads id) =
      ∑ id, (s.threads id).attempts ∧
    ((∀ id, (s.threads id).pc = DiningPhilosophersTimeout.PC.done) →
      s.successful_meals + s.timeouts = ∑ id, (s.threads id).attempts) ∧
    (DiningPhilosophersTimeout.run DiningPhilosophersTimeout.init
        DiningPhilosophersTimeout.allTimeouts).map
      (fun s1 => (s1.successful_meals, s1.timeouts,
        (List.finRange 5).map (fun id => ((s1.threads id).pc, (s1.threads id).meals_eaten,
          (s1.threads id).attempts)))) =
      some (0, 50, List.replicate 5 (DiningPhilosophersTimeout.PC.done, 0, 10)) := by
  obtain ⟨hT, hM, hC⟩ := DiningPhilosophersTimeout.timeout_run_inv sched _ s
    DiningPhilosophersTimeout.timeout_init_inv h
  refine ⟨fun id => ⟨(hT id).2.2.2.1, (hT id).2.1⟩, hM, hC, ?_, by decide⟩
  intro hd
  have hz : ∑ id, DiningPhilosophersTimeout.pending (s.threads id) = 0 := by
    apply Finset.sum_eq_zero
    intro id _
    simp [DiningPhilosophersTimeout.pending, hd id]
  omega

/-- Witness of C23: philosopher 0 locks both chopsticks and eats, philosopher 1 times out on
its first chopstick (chopstick 1, held by philosopher 0). -/
theorem C23_timeout_attempts_accounted_witness :
    ∃ s, DiningPhilosophersTimeout.run DiningPhilosophersTimeout.init
        [(0, true), (0, true), (0, true), (1, true), (1, false)] = some s ∧
      s.successful_meals = 1 ∧ s.timeouts = 1 ∧
      s.successful_meals = ∑ id, (s.threads id).meals_eaten ∧
      (List.finRange 5).map (fun id => (s.threads id).attempts) = [1, 1, 0, 0, 0] :=
  ⟨_, rfl, by decide, by decide,
    (C23_timeout_attempts_accounted
      [(0, true), (0, true), (0, true), (1, true), (1, false)] _ rfl).2.1, by decide⟩

/-! ### `DiningPhilosophersSemaphore`: no deadlock, bounded runs -/

namespace DiningPhilosophersSemaphore

theorem admitted_mk (pc : PC) (m : Nat) :
    admitted { pc := pc, meal := m } = if pc = PC.acquire then 0 else 1 := rfl

theorem holdsLeft_mk (pc : PC) (m : Nat) :
    holdsLeft { pc := pc, meal := m } =
      decide (pc = PC.lockRight ∨ pc = PC.unlockRight ∨ pc = PC.unlockLeft) := rfl

theorem holdsRight_mk (pc : PC) (m : Nat) :
    holdsRight { pc := pc, meal := m } = decide (pc = PC.unlockRight) := rfl

theorem semaphore_init_inv : Inv init := by
  refine ⟨by decide, by simp [init, admitted], ?_, ?_, ?_⟩
  · intro c; simp [init, holdsLeft, holdsRight]
  · intro c; simp [init, holdsLeft]
  · intro id; simp [init]

/-- A step of thread `id` keeps the invariant when the permits and the two chopsticks of the
thread are accounted for. -/
theorem semaphore_inv_step (s s1 : State) (id : Fin 5) (hI : Inv s)
    (hthr : s1.threads = Function.update s.threads id (s1.threads id))
    (hc0 : 0 ≤ s1.count)
    (hcnt : s1.count + admitted (s1.threads id) = s.count + admitted (s.threads id))
    (hL : s1.chopsticks id = (holdsLeft (s1.threads id) || holdsRight (s.threads (id + 4))))
    (hR : s1.chopsticks (id + 1) =
      (holdsLeft (s.threads (id + 1)) || holdsRight (s1.threads id)))
    (hO : ∀ c, c ≠ id → c ≠ id + 1 → s1.chopsticks c = s.chopsticks c)
    (hXL : ¬ (holdsLeft (s1.threads id) = true ∧ holdsRight (s.threads (id + 4)) = true))
    (hXR : ¬ (holdsLeft (s.threads (id + 1)) = true ∧ holdsRight (s1.threads id) = true))
    (hM1 : (s1.threads id).meal ≤ 3 ∧ ((s1.threads id).pc ≠ PC.acquire →
      (s1.threads id).meal < 3)) : Inv s1 := by
  obtain ⟨_, hcount, hA, hX, hM⟩ := hI
  have hne : ∀ c, c ≠ id → s1.threads c = s.threads c := by
    intro c hc
    rw [hthr, Function.update_noteq hc]
  refine ⟨hc0, ?_, ?_, ?_, ?_⟩
  · rw [hthr, fin5_sum_update s.threads id _ admitted]
    omega
  · intro c
    by_cases h1 : c = id
    · subst h1
      rw [hne (c + 4) (fin5_add_four_ne c)]
      exact hL
    · by_cases h2 : c = id + 1
      · subst h2
        rw [fin5_succ_add_four, hne (id + 1) (fin5_succ_ne id)]
        exact hR
      · have h3 : c + 4 ≠ id := by rw [Ne, fin5_add_four_eq]; exact h2
        rw [hO c h1 h2, hne c h1, hne (c + 4) h3]
        exact hA c
  · intro c
    by_cases h1 : c = id
    · subst h1
      rw [hne (c + 4) (fin5_add_four_ne c)]
      exact hXL
    · by_cases h2 : c = id + 1
      · subst h2
        rw [fin5_succ_add_four, hne (id + 1) (fin5_succ_ne id)]
        exact hXR
      · have h3 : c + 4 ≠ id := by rw [Ne, fin5_add_four_eq]; exact h2
        rw [hne c h1, hne (c + 4) h3]
        exact hX c
  · intro j
    by_cases hj : j = id
    · subst hj; exact hM1
    · rw [hne j hj]; exact hM j

theorem semaphore_philosopher_inv (s s1 : State) (id : Fin 5) (hI : Inv s)
    (h : philosopher s id = some s1) : Inv s1 := by
  have hI0 := hI
  obtain ⟨hc0, _, hA, hX, hM⟩ := hI
  have a0 := hA id
  have a1 := hA (id + 1)
  have x0 := hX id
  have x1 := hX (id + 1)
  rw [fin5_succ_add_four] at a1 x1
  obtain ⟨m1, m2⟩ := hM id
  unfold philosopher at h
  cases hpc : (s.threads id).pc <;> simp only [hpc] at h
  · -- acquire
    have hl : holdsLeft (s.threads id) = false := by simp [holdsLeft, hpc]
    have hr : holdsRight (s.threads id) = false := by simp [holdsRight, hpc]
    have had : admitted (s.threads id) = 0 := by simp [admitted, hpc]
    rw [hl] at a0 x0
    rw [hr] at a1 x1
    by_cases hm : (s.threads id).meal < 3
    · simp only [hm, if_true, Semaphore.acquire] at h
      by_cases hc : s.count > 0
      · simp only [hc, if_true] at h
        have e := Option.some.inj h
        subst e
        refine semaphore_inv_step s _ id hI0 (by simp) (by simp; omega)
          (by simp [admitted_mk, had]) (by simpa [holdsLeft_mk] using a0)
          (by simpa [holdsRight_mk] using a1) (fun c _ _ => rfl)
          (by simp [holdsLeft_mk]) (by simp [holdsRight_mk]) (by simp; omega)
      · simp [hc] at h
    · simp [hm] at h
  · -- lockLeft
    have hl : holdsLeft (s.threads id) = false := by simp [holdsLeft, hpc]
    have hr : holdsRight (s.threads id) = false := by simp [holdsRight, hpc]
    have had : admitted (s.threads id) = 1 := by simp [admitted, hpc]
    have hlt := m2 (by simp [hpc])
    rw [hl] at a0 x0
    rw [hr] at a1 x1
    by_cases hc : s.chopsticks id = true
    · simp [hc] at h
    · simp only [hc, Bool.false_eq_true, if_false] at h
      have e := Option.some.inj h
      subst e
      have hcf : s.chopsticks id = false := by simpa using hc
      rw [hcf] at a0
      have h4 : holdsRight (s.threads (id + 4)) = false := by
        cases hx : holdsRight (s.threads (id + 4))
        · rfl
        · rw [hx] at a0; simp at a0
      refine semaphore_inv_step s _ id hI0 (by simp) hc0 (by simp [admitted_mk, had])
        (by simp [holdsLeft_mk]) (by simpa [holdsRight_mk, fin5_succ_ne] using a1)
        (fun c h1 _ => by simp [Function.update_noteq h1])
        (by simp [h4]) (by simp [holdsRight_mk]) (by simp; omega)
  · -- lockRight
    have hl : holdsLeft (s.threads id) = true := by simp [holdsLeft, hpc]
    have hr : holdsRight (s.threads id) = false := by simp [holdsRight, hpc]
    have had : admitted (s.threads id) = 1 := by simp [admitted, hpc]
    have hlt := m2 (by simp [hpc])
    rw [hl] at a0 x0
    rw [hr] at a1 x1
    by_cases hc : s.chopsticks (id + 1) = true
    · simp [hc] at h
    · simp only [hc, Bool.false_eq_true, if_false] at h
      have e := Option.some.inj h
      subst e
      have hc1 : s.chopsticks (id + 1) = false := by simpa using hc
      rw [hc1] at a1
      have h1 : holdsLeft (s.threads (id + 1)) = false := by
        cases hx : holdsLeft (s.threads (id + 1))
        · rfl
        · rw [hx] at a1; simp at a1
      refine semaphore_inv_step s _ id hI0 (by simp) hc0 (by simp [admitted_mk, had])
        (by simpa [holdsLeft_mk, (fin5_succ_ne id).symm] using a0)
        (by simp [holdsRight_mk])
        (fun c _ h2 => by simp [Function.update_noteq h2])
        (by simpa [holdsLeft_mk] using x0) (by simp [h1]) (by simp; omega)
  · -- unlockRight
    have hl : holdsLeft (s.threads id) = true := by simp [holdsLeft, hpc]
    have hr : holdsRight (s.threads id) = true := by simp [holdsRight, hpc]
    have had : admitted (s.threads id) = 1 := by simp [admitted, hpc]
    have hlt := m2 (by simp [hpc])
    rw [hl] at a0 x0
    rw [hr] at a1 x1
    have e := Option.some.inj h
    subst e
    have h1 : holdsLeft (s.threads (id + 1)) = false := by
      cases hx : holdsLeft (s.threads (id + 1))
      · rfl
      · exact absurd ⟨hx, rfl⟩ x1
    refine semaphore_inv_step s _ id hI0 (by simp) hc0 (by simp [admitted_mk, had])
      (by simpa [holdsLeft_mk, (fin5_succ_ne id).symm] using a0)
      (by simp [holdsRight_mk, h1])
      (fun c _ h2 => by simp [Function.update_noteq h2])
      (by simpa [holdsLeft_mk] using x0) (by simp [h1]) (by simp; omega)
  · -- unlockLeft
    have hl : holdsLeft (s.threads id) = true := by simp [holdsLeft, hpc]
    have hr : holdsRight (s.threads id) = false := by simp [holdsRight, hpc]
    have had : admitted (s.threads id) = 1 := by simp [admitted, hpc]
    have hlt := m2 (by simp [hpc])
    rw [hl] at a0 x0
    rw [hr] at a1 x1
    have e := Option.some.inj h
    subst e
    have h4 : holdsRight (s.threads (id + 4)) = false := by
      cases hx : holdsRight (s.threads (id + 4))
      · rfl
      · exact absurd ⟨rfl, hx⟩ x0
    refine semaphore_inv_step s _ id hI0 (by simp) hc0 (by simp [admitted_mk, had])
      (by simp [holdsLeft_mk, h4]) (by simpa [holdsRight_mk, fin5_succ_ne] using a1)
      (fun c h1 _ => by simp [Function.update_noteq h1])
      (by simp [holdsLeft_mk]) (by simp [holdsRight_mk]) (by simp; omega)
  · -- release
    have hl : holdsLeft (s.threads id) = false := by simp [holdsLeft, hpc]
    have hr : holdsRight (s.threads id) = false := by simp [holdsRight, hpc]
    have had : admitted (s.threads id) = 1 := by simp [admitted, hpc]
    have hlt := m2 (by simp [hpc])
    rw [hl] at a0 x0
    rw [hr] at a1 x1
    have e := Option.some.inj h
    subst e
    refine semaphore_inv_step s _ id hI0 (by simp) (by simp [Semaphore.release]; omega)
      (by simp [admitted_mk, had, Semaphore.release]) (by simpa [holdsLeft_mk] using a0)
      (by simpa [holdsRight_mk] using a1) (fun c _ _ => rfl)
      (by simp [holdsLeft_mk]) (by simp [holdsRight_mk]) (by simp; omega)

end DiningPhilosophersSemaphore

theorem fin5_cover (i j : Fin 5) :
    j = i ∨ j = i + 1 ∨ j = i + 1 + 1 ∨ j = i + 1 + 1 + 1 ∨ j = i + 1 + 1 + 1 + 1 := by
  revert i j; decide

namespace DiningPhilosophersSemaphore

theorem semaphore_run_inv (sched : List (Fin 5)) : ∀ (s s1 : State), Inv s →
    run s sched = some s1 → Inv s1 := by
  induction sched with
  | nil =>
    intro s s1 hI h
    have e := Option.some.inj h
    subst e
    exact hI
  | cons id rest ih =>
    intro s s1 hI h
    simp only [run] at h
    cases hp : philosopher s id with
    | none => rw [hp] at h; simp at h
    | some s2 =>
      rw [hp] at h
      exact ih s2 s1 (semaphore_philosopher_inv s s2 id hI hp) h

theorem progress_mk (pc : PC) (m : Nat) :
    progress { pc := pc, meal := m } = 6 * (m : Int) +
      match pc with
      | PC.acquire => 0
      | PC.lockLeft => 1
      | PC.lockRight => 2
      | PC.unlockRight => 3
      | PC.unlockLeft => 4
      | PC.release => 5 := rfl

/-- Every step of a thread is one more step of the count. -/
theorem semaphore_step_progress (s s1 : State) (id : Fin 5)
    (h : philosopher s id = some s1) :
    ∑ i, progress (s1.threads i) = ∑ i, progress (s.threads i) + 1 := by
  unfold philosopher at h
  cases hpc : (s.threads id).pc <;> simp only [hpc] at h
  · have hp : progress (s.threads id) = 6 * ((s.threads id).meal : Int) := by
      simp [progress, hpc]
    by_cases hm : (s.threads id).meal < 3
    · simp only [hm, if_true, Semaphore.acquire] at h
      by_cases hc : s.count > 0
      · simp only [hc, if_true] at h
        have e := Option.some.inj h
        subst e
        simp only [fin5_sum_update s.threads id _ progress, progress_mk, hp]
        omega
      · simp [hc] at h
    · simp [hm] at h
  · have hp : progress (s.threads id) = 6 * ((s.threads id).meal : Int) + 1 := by
      simp [progress, hpc]
    by_cases hc : s.chopsticks id = true
    · simp [hc] at h
    · simp only [hc, Bool.false_eq_true, if_false] at h
      have e := Option.some.inj h
      subst e
      simp only [fin5_sum_update s.threads id _ progress, progress_mk, hp]
      omega
  · have hp : progress (s.threads id) = 6 * ((s.threads id).meal : Int) + 2 := by
      simp [progress, hpc]
    by_cases hc : s.chopsticks (id + 1) = true
    · simp [hc] at h
    · simp only [hc, Bool.false_eq_true, if_false] at h
      have e := Option.some.inj h
      subst e
      simp only [fin5_sum_update s.threads id _ progress, progress_mk, hp]
      omega
  · have hp : progress (s.threads id) = 6 * ((s.threads id).meal : Int) + 3 := by
      simp [progress, hpc]
    have e := Option.some.inj h
    subst e
    simp only [fin5_sum_update s.threads id _ progress, progress_mk, hp]
    omega
  · have hp : progress (s.threads id) = 6 * ((s.threads id).meal : Int) + 4 := by
      simp [progress, hpc]
    have e := Option.some.inj h
    subst e
    simp only [fin5_sum_update s.threads id _ progress, progress_mk, hp]
    omega
  · have hp : progress (s.threads id) = 6 * ((s.threads id).meal : Int) + 5 := by
      simp [progress, hpc]
    have e := Option.some.inj h
    subst e
    simp only [fin5_sum_update s.threads id _ progress, progress_mk, hp]
    push_cast
    omega

theorem semaphore_run_progress (sched : List (Fin 5)) : ∀ (s s1 : State),
    run s sched = some s1 →
    ∑ i, progress (s1.threads i) = ∑ i, progress (s.threads i) + (sched.length : Int) := by
  induction sched with
  | nil =>
    intro s s1 h
    have e := Option.some.inj h
    subst e
    simp
  | cons id rest ih =>
    intro s s1 h
    simp only [run] at h
    cases hp : philosopher s id with
    | none => rw [hp] at h; simp at h
    | some s2 =>
      rw [hp] at h
      rw [ih s2 s1 h, semaphore_step_progress s s2 id hp]
      simp only [List.length_cons]
      push_cast
      omega

theorem semaphore_progress_le (s : State) (hI : Inv s) :
    ∑ i, progress (s.threads i) ≤ 90 := by
  have hle : ∀ i ∈ (Finset.univ : Finset (Fin 5)), progress (s.threads i) ≤ 18 := by
    intro i _
    obtain ⟨m1, m2⟩ := hI.2.2.2.2 i
    unfold progress
    cases hpc : (s.threads i).pc
    · simp only
      omega
    all_goals
      have := m2 (by simp [hpc])
      simp only
      omega
  calc ∑ i, progress (s.threads i) ≤ ∑ _i : Fin 5, (18 : Int) := Finset.sum_le_sum hle
    _ = 90 := by simp

/-- What blocks a thread that cannot take a step. -/
theorem semaphore_blocked (s : State) (id : Fin 5) (h : philosopher s id = none) :
    ((s.threads id).pc = PC.acquire ∧ (3 ≤ (s.threads id).meal ∨ s.count ≤ 0)) ∨
    ((s.threads id).pc = PC.lockLeft ∧ s.chopsticks id = true) ∨
    ((s.threads id).pc = PC.lockRight ∧ s.chopsticks (id + 1) = true) := by
  unfold philosopher at h
  cases hpc : (s.threads id).pc <;> simp only [hpc] at h
  · left
    refine ⟨rfl, ?_⟩
    by_cases hm : (s.threads id).meal < 3
    · right
      simp only [hm, if_true, Semaphore.acquire] at h
      by_cases hc : s.count > 0
      · simp [hc] at h
      · omega
    · left; omega
  · right; left
    refine ⟨rfl, ?_⟩
    by_cases hc : s.chopsticks id = true
    · exact hc
    · simp [hc] at h
  · right; right
    refine ⟨rfl, ?_⟩
    by_cases hc : s.chopsticks (id + 1) = true
    · exact hc
    · simp [hc] at h
  · simp at h
  · simp at h
  · simp at h

/-- No deadlock: in a state of the invariant in which no thread can take a step, every
thread has left its loop after three meals. -/
theorem semaphore_no_deadlock (s : State) (hI : Inv s)
    (hb : ∀ id, philosopher s id = none) :
    ∀ id, (s.threads id).pc = PC.acquire ∧ (s.threads id).meal = 3 := by
  obtain ⟨hc0, hcount, hA, _, hM⟩ := hI
  have key := fun id => semaphore_blocked s id (hb id)
  have hnoR : ∀ id, holdsRight (s.threads id) = false := by
    intro id
    rcases key id with ⟨h, _⟩ | ⟨h, _⟩ | ⟨h, _⟩ <;> simp [holdsRight, h]
  have hnoLL : ∀ id, (s.threads id).pc ≠ PC.lockLeft := by
    intro id hpc
    rcases key id with ⟨h, _⟩ | ⟨_, h⟩ | ⟨h, _⟩
    · rw [hpc] at h; cases h
    · have a := hA id
      rw [h, hnoR (id + 4)] at a
      simp [holdsLeft, hpc] at a
    · rw [hpc] at h; cases h
  have hstep : ∀ id, (s.threads id).pc = PC.lockRight →
      (s.threads (id + 1)).pc = PC.lockRight := by
    intro id hpc
    rcases key id with ⟨h, _⟩ | ⟨h, _⟩ | ⟨_, h⟩
    · rw [hpc] at h; cases h
    · rw [hpc] at h; cases h
    · have a := hA (id + 1)
      rw [h, fin5_succ_add_four, hnoR id] at a
      rcases key (id + 1) with ⟨h1, _⟩ | ⟨h1, _⟩ | ⟨h1, _⟩
      · simp [holdsLeft, h1] at a
      · exact absurd h1 (hnoLL (id + 1))
      · exact h1
  have hall : ∀ id, (s.threads id).pc = PC.acquire := by
    by_contra hne
    push_neg at hne
    obtain ⟨i, hi⟩ := hne
    have hiR : (s.threads i).pc = PC.lockRight := by
      rcases key i with ⟨h, _⟩ | ⟨h, _⟩ | ⟨h, _⟩
      · exact absurd h hi
      · exact absurd h (hnoLL i)
      · exact h
    have h1 := hstep i hiR
    have h2 := hstep _ h1
    have h3 := hstep _ h2
    have h4 := hstep _ h3
    have hev : ∀ j, (s.threads j).pc = PC.lockRight := by
      intro j
      rcases fin5_cover i j with hj | hj | hj | hj | hj <;> rw [hj] <;> assumption
    have hsum : ∑ id, admitted (s.threads id) = 5 := by
      have : ∀ id ∈ (Finset.univ : Finset (Fin 5)), admitted (s.threads id) = 1 := by
        intro id _
        simp [admitted, hev id]
      rw [Finset.sum_congr rfl this]
      simp
    omega
  have hsum : ∑ id, admitted (s.threads id) = 0 := by
    apply Finset.sum_eq_zero
    intro id _
    simp [admitted, hall id]
  intro id
  refine ⟨hall id, ?_⟩
  rcases key id with ⟨_, h | h⟩ | ⟨h, _⟩ | ⟨h, _⟩
  · have := (hM id).1
    omega
  · omega
  · rw [hall id] at h; cases h
  · rw [hall id] at h; cases h

end DiningPhilosophersSemaphore

/-! ### `DiningPhilosophersWaiter`: no deadlock, bounded runs -/

namespace DiningPhilosophersWaiter

theorem waiter_init_mealInv : MealInv init := by
  intro id
  simp [init]

theorem waiter_philosopher_mealInv (s s1 : State) (id : Fin 5) (hI : MealInv s)
    (h : philosopher s id = some s1) : MealInv s1 := by
  obtain ⟨m1, m2⟩ := hI id
  unfold philosopher at h
  by_cases he : (s.threads id).eating = true
  · simp only [he, if_true] at h
    have e := Option.some.inj h
    subst e
    intro j
    by_cases hj : j = id
    · subst hj
      have := m2 he
      simp [return_chopsticks]
      omega
    · simpa [return_chopsticks, Function.update_noteq hj] using hI j
  · have he0 : (s.threads id).eating = false := by simpa using he
    simp only [he0, Bool.false_eq_true, if_false] at h
    by_cases hm : (s.threads id).meal < 3
    · simp only [hm, if_true, request_chopsticks] at h
      by_cases hc : can_eat s id = true
      · simp only [hc, if_true] at h
        have e := Option.some.inj h
        subst e
        intro j
        by_cases hj : j = id
        · subst hj
          simp
          omega
        · simpa [Function.update_noteq hj] using hI j
      · simp [hc] at h
    · simp [hm] at h

theorem waiter_progress_mk (m : Nat) (e : Bool) :
    progress { meal := m, eating := e } = 2 * (m : Int) + if e then 1 else 0 := rfl

theorem waiter_step_progress (s s1 : State) (id : Fin 5) (h : philosopher s id = some s1) :
    ∑ i, progress (s1.threads i) = ∑ i, progress (s.threads i) + 1 := by
  unfold philosopher at h
  by_cases he : (s.threads id).eating = true
  · simp only [he, if_true] at h
    have e := Option.some.inj h
    subst e
    have hp : progress (s.threads id) = 2 * ((s.threads id).meal : Int) + 1 := by
      simp [progress, he]
    simp only [return_chopsticks, fin5_sum_update s.threads id _ progress, hp,
      waiter_progress_mk, Bool.false_eq_true, if_false]
    push_cast
    omega
  · have he0 : (s.threads id).eating = false := by simpa using he
    simp only [he0, Bool.false_eq_true, if_false] at h
    by_cases hm : (s.threads id).meal < 3
    · simp only [hm, if_true, request_chopsticks] at h
      by_cases hc : can_eat s id = true
      · simp only [hc, if_true] at h
        have e := Option.some.inj h
        subst e
        have hp : progress (s.threads id) = 2 * ((s.threads id).meal : Int) := by
          simp [progress, he0]
        simp only [fin5_sum_update s.threads id _ progress, hp, waiter_progress_mk, if_true]
        omega
      · simp [hc] at h
    · simp [hm] at h

theorem waiter_run_all (sched : List (Fin 5)) : ∀ (s s1 : State), Inv s → MealInv s →
    run s sched = some s1 →
    Inv s1 ∧ MealInv s1 ∧
    ∑ i, progress (s1.threads i) = ∑ i, progress (s.threads i) + (sched.length : Int) := by
  induction sched with
  | nil =>
    intro s s1 hI hM h
    have e := Option.some.inj h
    subst e
    exact ⟨hI, hM, by simp⟩
  | cons id rest ih =>
    intro s s1 hI hM h
    simp only [run] at h
    cases hp : philosopher s id with
    | none => rw [hp] at h; simp at h
    | some s2 =>
      rw [hp] at h
      obtain ⟨k1, k2, k3⟩ := ih s2 s1 (waiter_philosopher_inv s s2 id hI hp)
        (waiter_philosopher_mealInv s s2 id hM hp) h
      refine ⟨k1, k2, ?_⟩
      rw [k3, waiter_step_progress s s2 id hp]
      simp only [List.length_cons]
      push_cast
      omega

theorem waiter_progress_le (s : State) (hM : MealInv s) :
    ∑ i, progress (s.threads i) ≤ 30 := by
  have hle : ∀ i ∈ (Finset.univ : Finset (Fin 5)), progress (s.threads i) ≤ 6 := by
    intro i _
    obtain ⟨m1, m2⟩ := hM i
    unfold progress
    cases he : (s.threads i).eating
    · simp
      omega
    · have := m2 he
      simp
      omega
  calc ∑ i, progress (s.threads i) ≤ ∑ _i : Fin 5, (6 : Int) := Finset.sum_le_sum hle
    _ = 30 := by simp

/-- No deadlock: in a state of the invariants in which no thread can take a step, every
thread has left its loop after three meals. -/
theorem waiter_no_deadlock (s : State) (hI : Inv s) (hM : MealInv s)
    (hb : ∀ id, philosopher s id = none) :
    ∀ id, (s.threads id).eating = false ∧ (s.threads id).meal = 3 := by
  have hne : ∀ id, (s.threads id).eating = false := by
    intro id
    cases he : (s.threads id).eating
    · rfl
    · have := hb id
      simp [philosopher, he] at this
  intro id
  refine ⟨hne id, ?_⟩
  have h := hb id
  have hc : can_eat s id = true := by
    unfold can_eat
    rw [hI.1 id, hI.1 (id + 1), hne id, hne (id + 4), hne (id + 1), fin5_succ_add_four,
      hne id]
    rfl
  by_cases hm : (s.threads id).meal < 3
  · simp [philosopher, hne id, hm, request_chopsticks, hc] at h
  · have := (hM id).1
    omega

end DiningPhilosophersWaiter

/-- C24: with the semaphore strategy and with the waiter strategy, 5 philosophers eating 3
meals each, every run from the start of `demonstrate()` is finite: a run of the semaphore
strategy has at most 90 steps (six for every meal), a run of the waiter strategy at most 30
(two for every meal). No run ends in a deadlock: when no thread can take a step, every thread
has left its loop after its third meal, so all 15 pair acquisitions were granted. The runs in
which the philosophers eat one after the other have exactly 90 and 30 steps. -/
theorem C24_semaphore_and_waiter_terminate
    (schedS : List (Fin 5)) (sS : DiningPhilosophersSemaphore.State)
    (schedW : List (Fin 5)) (sW : DiningPhilosophersWaiter.State)
    (hS : DiningPhilosophersSemaphore.run DiningPhilosophersSemaphore.init schedS = some sS)
    (hW : DiningPhilosophersWaiter.run DiningPhilosophersWaiter.init schedW = some sW) :
    schedS.length ≤ 90 ∧
    ((∀ id, DiningPhilosophersSemaphore.philosopher sS id = none) →
      (∀ id, (sS.threads id).pc = DiningPhilosophersSemaphore.PC.acquire ∧
        (sS.threads id).meal = 3) ∧ schedS.length = 90) ∧
    schedW.length ≤ 30 ∧
    ((∀ id, DiningPhilosophersWaiter.philosopher sW id = none) →
      (∀ id, (sW.threads id).eating = false ∧ (sW.threads id).meal = 3) ∧
        schedW.length = 30) ∧
    (DiningPhilosophersSemaphore.run DiningPhilosophersSemaphore.init
        DiningPhilosophersSemaphore.sequentialRun).map
      (fun s => (List.finRange 5).map (fun id => (s.threads id).meal)) = some [3, 3, 3, 3, 3] ∧
    (DiningPhilosophersWaiter.run DiningPhilosophersWaiter.init
        DiningPhilosophersWaiter.sequentialRun).map
      (fun s => (List.finRange 5).map (fun id => (s.threads id).meal)) = some [3, 3, 3, 3, 3] := by
  have hIS := DiningPhilosophersSemaphore.semaphore_run_inv schedS _ sS
    DiningPhilosophersSemaphore.semaphore_init_inv hS
  have hPS := DiningPhilosophersSemaphore.semaphore_run_progress schedS _ sS hS
  have hLS := DiningPhilosophersSemaphore.semaphore_progress_le sS hIS
  have h0S : ∑ i, DiningPhilosophersSemaphore.progress
      (DiningPhilosophersSemaphore.init.threads i) = 0 := by
    simp [DiningPhilosophersSemaphore.init, DiningPhilosophersSemaphore.progress]
  obtain ⟨hIW, hMW, hPW⟩ := DiningPhilosophersWaiter.waiter_run_all schedW _ sW
    DiningPhilosophersWaiter.waiter_init_inv DiningPhilosophersWaiter.waiter_init_mealInv hW
  have hLW := DiningPhilosophersWaiter.waiter_progress_le sW hMW
  have h0W : ∑ i, DiningPhilosophersWaiter.progress
      (DiningPhilosophersWaiter.init.threads i) = 0 := by
    simp [DiningPhilosophersWaiter.init, DiningPhilosophersWaiter.progress]
  refine ⟨by omega, ?_, by omega, ?_, by decide, by decide⟩
  · intro hb
    have hd := DiningPhilosophersSemaphore.semaphore_no_deadlock sS hIS hb
    refine ⟨hd, ?_⟩
    have hsum : ∑ i, DiningPhilosophersSemaphore.progress (sS.threads i) = 90 := by
      have : ∀ i ∈ (Finset.univ : Finset (Fin 5)),
          DiningPhilosophersSemaphore.progress (sS.threads i) = 18 := by
        intro i _
        simp [DiningPhilosophersSemaphore.progress, (hd i).1, (hd i).2]
      rw [Finset.sum_congr rfl this]
      simp
    omega
  · intro hb
    have hd := DiningPhilosophersWaiter.waiter_no_deadlock sW hIW hMW hb
    refine ⟨hd, ?_⟩
    have hsum : ∑ i, DiningPhilosophersWaiter.progress (sW.threads i) = 30 := by
      have : ∀ i ∈ (Finset.univ : Finset (Fin 5)),
          DiningPhilosophersWaiter.progress (sW.threads i) = 6 := by
        intro i _
        simp [DiningPhilosophersWaiter.progress, (hd i).1, (hd i).2]
      rw [Finset.sum_congr rfl this]
      simp
    omega

/-- Witness of C24: a run of four steps of each strategy. In the semaphore run philosopher 0
holds both chopsticks and philosopher 1 is blocked on chopstick 1; in the waiter run
philosophers 0 and 2 have eaten one meal each. -/
theorem C24_semaphore_and_waiter_terminate_witness :
    ∃ sS sW,
      DiningPhilosophersSemaphore.run DiningPhilosophersSemaphore.init [0, 1, 0, 0] =
        some sS ∧
      DiningPhilosophersWaiter.run DiningPhilosophersWaiter.init [0, 2, 0, 2] = some sW ∧
      (DiningPhilosophersSemaphore.philosopher sS 1).isNone = true ∧
      (List.finRange 5).map (fun id => (sW.threads id).meal) = [1, 0, 1, 0, 0] ∧
      [0, 1, 0, (0 : Fin 5)].length ≤ 90 ∧ [0, 2, 0, (2 : Fin 5)].length ≤ 30 :=
  ⟨_, _, rfl, rfl, by decide, by decide,
    (C24_semaphore_and_waiter_terminate [0, 1, 0, 0] _ [0, 2, 0, 2] _ rfl rfl).1,
    (C24_semaphore_and_waiter_terminate [0, 1, 0, 0] _ [0, 2, 0, 2] _ rfl rfl).2.2.1⟩

/-! ### `MemoryManager`: the tiling invariant in terms of the block list -/

namespace MemoryManager

theorem tiles_explicit (l : List MemoryBlock) : ∀ (a z : Int), Tiles a l z →
    (∀ b ∈ l.head?, b.startAddress = a) ∧
    l.Chain' (fun x y => y.startAddress = x.startAddress + x.size) ∧
    (∀ b ∈ l, 0 < b.size) ∧ a + (l.map (fun b => b.size)).sum = z := by
  induction l with
  | nil =>
    intro a z h
    simp only [Tiles] at h
    simp [h]
  | cons b rest ih =>
    intro a z h
    obtain ⟨h1, h2, h3⟩ := h
    obtain ⟨k1, k2, k3, k4⟩ := ih _ _ h3
    refine ⟨?_, ?_, ?_, ?_⟩
    · intro c hc
      simp only [List.head?_cons, Option.mem_def, Option.some.injEq] at hc
      rw [← hc]; exact h1
    · rw [List.chain'_cons']
      refine ⟨?_, k2⟩
      intro c hc
      rw [k1 c hc, h1]
    · intro c hc
      rw [List.mem_cons] at hc
      rcases hc with hc | hc
      · rw [hc]; exact h2
      · exact k3 c hc
    · simp only [List.map_cons, List.sum_cons]
      omega

theorem deallocate_some (processID : Int) (blocks : List MemoryBlock) :
    ∃ blocks1, deallocate processID blocks = some blocks1 := by
  unfold deallocate
  by_cases hf : found processID blocks = true
  · rw [if_pos hf]
    cases blocks with
    | nil => simp [found] at hf
    | cons b rest => exact ⟨_, rfl⟩
  · rw [if_neg hf]
    exact ⟨_, rfl⟩

end MemoryManager

/-- C25: in every state that a fresh `MemoryManager` reaches by calls of `allocateFirstFit`,
`allocateBestFit`, `allocateWorstFit` with `size > 0` and of `deallocate` (which always
returns), the block list is not empty, its first block starts at address 0, each block
starts where the previous one ends, every block has a positive size, and the sizes sum to
1048576. -/
theorem C25_blocks_tile_memory (blocks : List MemoryManager.MemoryBlock)
    (hr : MemoryManager.Reachable blocks) :
    (∃ b rest, blocks = b :: rest ∧ b.startAddress = 0) ∧
    blocks.Chain' (fun x y => y.startAddress = x.startAddress + x.size) ∧
    (∀ b ∈ blocks, 0 < b.size) ∧
    (blocks.map (fun b => b.size)).sum = 1048576 ∧
    (∀ processID, ∃ blocks1, MemoryManager.deallocate processID blocks = some blocks1 ∧
      MemoryManager.Reachable blocks1) := by
  have ht := MemoryManager.reachable_tiles blocks hr
  obtain ⟨k1, k2, k3, k4⟩ := MemoryManager.tiles_explicit blocks _ _ ht
  refine ⟨?_, k2, k3, ?_, ?_⟩
  · cases blocks with
    | nil =>
      simp only [MemoryManager.Tiles, MemoryManager.TOTAL_MEMORY] at ht
      omega
    | cons b rest => exact ⟨b, rest, rfl, k1 b rfl⟩
  · simp only [MemoryManager.TOTAL_MEMORY] at k4
    omega
  · intro processID
    obtain ⟨blocks1, h1⟩ := MemoryManager.deallocate_some processID blocks
    exact ⟨blocks1, h1, MemoryManager.Reachable.dealloc blocks blocks1 processID hr h1⟩

/-- Witness of C25: the first-fit test of `main`, three allocations and `deallocate(2)`. -/
theorem C25_blocks_tile_memory_witness :
    MemoryManager.deallocate 2 (MemoryManager.allocateFirstFit 3 300000
        (MemoryManager.allocateFirstFit 2 150000
          (MemoryManager.allocateFirstFit 1 200000 MemoryManager.new).1).1).1 =
      some [⟨0, 200000, false, 1⟩, ⟨200000, 150000, true, -1⟩, ⟨350000, 300000, false, 3⟩,
        ⟨650000, 398576, true, -1⟩] ∧
    (([⟨0, 200000, false, 1⟩, ⟨200000, 150000, true, -1⟩, ⟨350000, 300000, false, 3⟩,
        ⟨650000, 398576, true, -1⟩] : List MemoryManager.MemoryBlock).map
      (fun b => b.size)).sum = 1048576 :=
  ⟨by decide,
    (C25_blocks_tile_memory _
      (MemoryManager.Reachable.dealloc _ _ 2
        (MemoryManager.Reachable.firstFit _ 3 300000
          (MemoryManager.Reachable.firstFit _ 2 150000
            (MemoryManager.Reachable.firstFit _ 1 200000 MemoryManager.Reachable.init
              (by decide)) (by decide)) (by decide))
        (by decide))).2.2.2.1⟩

/-! ### The three FIFO simulators agree -/

namespace FIFOComparison

theorem neg_one_mem_iff (frames queue : List Int) (hP : (occupied frames).Perm queue) :
    (-1 : Int) ∈ frames ↔ queue.length < frames.length := by
  constructor
  · intro h
    have := LRUPageReplacement.occupied_length_lt frames h
    rw [hP.length_eq] at this
    exact this
  · intro h
    by_contra hn
    have e := LRUPageReplacement.occupied_eq_self frames hn
    rw [e] at hP
    have := hP.length_eq
    omega

theorem mem_frames_iff (frames queue : List Int) (page : Int) (hp : 0 ≤ page)
    (hP : (occupied frames).Perm queue) : page ∈ frames ↔ page ∈ queue := by
  rw [← hP.mem_iff, LRUPageReplacement.mem_occupied]
  constructor
  · intro h; exact ⟨h, by omega⟩
  · intro h; exact h.1

theorem occupied_replicate (k : Nat) : occupied (List.replicate k (-1)) = [] := by
  unfold occupied
  rw [List.filter_eq_nil_iff]
  intro a ha
  rw [List.eq_of_mem_replicate ha]
  simp

theorem agree_init (n : Int) (h1 : 1 ≤ n) :
    Agree n (PageReplacementFIFO.new n)
      { numFrames := n, frames := List.replicate n.toNat (-1), fifoQueue := [],
        pageFaults := 0, totalReferences := 0 }
      { numFrames := n, frames := List.replicate n.toNat (-1), insertOrder := [],
        pageFaults := 0 } := by
  refine ⟨rfl, ⟨?_, List.nodup_nil, rfl⟩, rfl, rfl, rfl, ?_, ?_, ?_, rfl, rfl⟩
  · simp only [PageReplacementFIFO.new, List.length_nil]
    omega
  · simp only [List.length_replicate]
    omega
  · rw [occupied_replicate]
    exact List.Perm.refl _
  · intro q hq
    simp [PageReplacementFIFO.new] at hq

/-- In agreeing states the three simulators classify a reference to a page `≥ 0` alike. -/
theorem agree_classify (n : Int) (s1 : PageReplacementFIFO.State)
    (s2 : FIFOPageReplacement.State) (s3 : State) (page : Int) (hp : 0 ≤ page)
    (hA : Agree n s1 s2 s3) :
    (page ∈ s1.frameSet ↔ FIFOPageReplacement.isPageInMemory s2 page = true) ∧
    (page ∈ s1.frameSet ↔ isPageInMemory s3 page = true) ∧
    s1.frameSet = (occupied s2.frames).toFinset ∧
    s1.frameSet = (occupied s3.frames).toFinset := by
  obtain ⟨_, ⟨_, _, hset⟩, _, _, hf3, _, hperm, _, _, _⟩ := hA
  have hm := mem_frames_iff s2.frames s1.frameQueue page hp hperm
  have e : s1.frameSet = (occupied s2.frames).toFinset := by
    rw [hset]
    exact (List.toFinset_eq_of_perm _ _ hperm).symm
  refine ⟨?_, ?_, e, by rw [hf3]; exact e⟩
  · rw [hset, List.mem_toFinset, ← hm]
    simp [FIFOPageReplacement.isPageInMemory]
  · rw [hset, List.mem_toFinset, ← hm]
    simp [isPageInMemory, hf3]

theorem agree_step (n : Int) (s1 : PageReplacementFIFO.State)
    (s2 : FIFOPageReplacement.State) (s3 : State) (page : Int) (h1 : 1 ≤ n)
    (h2 : n ≤ INT_MAX) (hp : 0 ≤ page) (hA : Agree n s1 s2 s3) :
    ∃ t1 t2 t3, PageReplacementFIFO.referencePage s1 page = some t1 ∧
      FIFOPageReplacement.referencePage s2 page = some t2 ∧
      referencePage s3 page = some t3 ∧ Agree n t1 t2 t3 := by
  obtain ⟨hn, hI, hq2, hq3, hf3, hlen, hperm, hnn, hpf2, hpf3⟩ := hA
  obtain ⟨u1, hu1, hun, hIu⟩ := PageReplacementFIFO.referencePage_inv s1 page
    (by omega) (by omega) hI
  obtain ⟨hIlen, hInd, hIset⟩ := hI
  have hsz := toSizeT_of_int_range s1.numFrames (by omega) (by omega)
  have hm2 := mem_frames_iff s2.frames s1.frameQueue page hp hperm
  have hneg := neg_one_mem_iff s2.frames s1.frameQueue hperm
  have hpne : page ≠ -1 := by omega
  by_cases hin : page ∈ s1.frameQueue
  · -- hit
    have hin1 : page ∈ s1.frameSet := by rw [hIset]; simpa using hin
    have hin2 : page ∈ s2.frames := hm2.mpr hin
    have e1 : PageReplacementFIFO.referencePage s1 page =
        some { s1 with frameHistory := s1.frameHistory ++ [s1.frameQueue] } := by
      simp only [PageReplacementFIFO.referencePage, hin1, if_true]
    have e2 : FIFOPageReplacement.referencePage s2 page =
        some { s2 with totalReferences := s2.totalReferences + 1 } := by
      simp [FIFOPageReplacement.referencePage, FIFOPageReplacement.isPageInMemory, hin2]
    have e3 : referencePage s3 page = some s3 := by
      simp [referencePage, isPageInMemory, hf3, hin2]
    exact ⟨_, _, _, e1, e2, e3, hn, ⟨hIlen, hInd, hIset⟩, hq2, hq3, hf3, hlen, hperm, hnn,
      hpf2, hpf3⟩
  · -- fault
    have hin1 : page ∉ s1.frameSet := by rw [hIset]; simpa using hin
    have hin2 : page ∉ s2.frames := fun h => hin (hm2.mp h)
    by_cases hfull : toSizeT s1.numFrames ≤ s1.frameQueue.length
    · -- every frame is used: the front of the queue is replaced
      have hlq : s1.frameQueue.length = s2.frames.length := by omega
      have hno : (-1 : Int) ∉ s2.frames := by rw [hneg]; omega
      have hocc := LRUPageReplacement.occupied_eq_self s2.frames hno
      rw [hocc] at hperm
      cases hq : s1.frameQueue with
      | nil => rw [hq] at hfull; simp at hfull; omega
      | cons v rest =>
        rw [hq] at hperm hnn
        have hv : v ∈ s2.frames := hperm.mem_iff.mpr (List.mem_cons_self v rest)
        have hrp := replaceFirst_perm v page s2.frames hv
        have hre : (s2.frames.erase v).Perm rest := by
          have := hperm.erase v
          rwa [List.erase_cons_head] at this
        have hnew : (replaceFirst v page s2.frames).Perm (rest ++ [page]) :=
          (hrp.trans (List.Perm.cons page hre)).trans (List.perm_append_singleton page rest).symm
        have hnn1 : ∀ q ∈ rest ++ [page], 0 ≤ q := by
          intro q hq1
          rw [List.mem_append, List.mem_singleton] at hq1
          rcases hq1 with hq1 | hq1
          · exact hnn q (List.mem_cons_of_mem v hq1)
          · rw [hq1]; exact hp
        have hno1 : (-1 : Int) ∉ replaceFirst v page s2.frames := by
          intro hx
          have := hnn1 (-1) (hnew.mem_iff.mp hx)
          omega
        have e1 : PageReplacementFIFO.referencePage s1 page =
            some { numFrames := s1.numFrames
                   frameQueue := rest ++ [page]
                   frameSet := insert page (s1.frameSet.erase v)
                   pageFaults := s1.pageFaults + 1
                   frameHistory := s1.frameHistory ++ [rest ++ [page]] } := by
          have hfull2 : toSizeT s1.numFrames ≤ (v :: rest).length := hq ▸ hfull
          simp only [PageReplacementFIFO.referencePage, hin1, if_false, hq, hfull2, if_true]
        have e2 : FIFOPageReplacement.referencePage s2 page =
            some { numFrames := s2.numFrames
                   frames := replaceFirst v page s2.frames
                   fifoQueue := rest ++ [page]
                   pageFaults := s2.pageFaults + 1
                   totalReferences := s2.totalReferences + 1 } := by
          have hfe := findEmptyFrameFrom_none s2.frames 0 hno
          simp [FIFOPageReplacement.referencePage, FIFOPageReplacement.isPageInMemory, hin2,
            FIFOPageReplacement.findEmptyFrame, hfe, hq2, hq]
        have e3 : referencePage s3 page =
            some { numFrames := s3.numFrames
                   frames := replaceFirst v page s2.frames
                   insertOrder := rest ++ [page]
                   pageFaults := s3.pageFaults + 1 } := by
          have hfe := findEmptyFrameFrom_none s2.frames 0 hno
          simp [referencePage, isPageInMemory, hf3, hin2, findEmptyFrame, hfe, hq3, hq]
        rw [e1] at hu1
        have eu := Option.some.inj hu1
        refine ⟨_, _, _, e1, e2, e3, hn, by rw [eu]; exact hIu, rfl, rfl, rfl, ?_, ?_, hnn1,
          by simp [hpf2], by simp [hpf3]⟩
        · simp only [replaceFirst_length]
          exact hlen
        · simp only
          rw [LRUPageReplacement.occupied_eq_self _ hno1]
          exact hnew
    · -- a frame is empty: the page goes into the first empty frame
      have hlt : s1.frameQueue.length < s2.frames.length := by omega
      have hmem : (-1 : Int) ∈ s2.frames := hneg.mpr hlt
      obtain ⟨k, hk, hkp⟩ := findEmptyFrameFrom_some s2.frames page hpne 0 hmem
      simp only [Nat.zero_add] at hk
      have hnew : (occupied (s2.frames.set k page)).Perm (s1.frameQueue ++ [page]) :=
        (hkp.trans (List.Perm.cons page hperm)).trans
          (List.perm_append_singleton page s1.frameQueue).symm
      have hnn1 : ∀ q ∈ s1.frameQueue ++ [page], 0 ≤ q := by
        intro q hq1
        rw [List.mem_append, List.mem_singleton] at hq1
        rcases hq1 with hq1 | hq1
        · exact hnn q hq1
        · rw [hq1]; exact hp
      have hkne : ¬ ((k : Int) = -1) := by omega
      have e1 : PageReplacementFIFO.referencePage s1 page =
          some { numFrames := s1.numFrames
                 frameQueue := s1.frameQueue ++ [page]
                 frameSet := insert page s1.frameSet
                 pageFaults := s1.pageFaults + 1
                 frameHistory := s1.frameHistory ++ [s1.frameQueue ++ [page]] } := by
        simp only [PageReplacementFIFO.referencePage, hin1, if_false, hfull]
      have e2 : FIFOPageReplacement.referencePage s2 page =
          some { numFrames := s2.numFrames
                 frames := s2.frames.set k page
                 fifoQueue := s1.frameQueue ++ [page]
                 pageFaults := s2.pageFaults + 1
                 totalReferences := s2.totalReferences + 1 } := by
        simp [FIFOPageReplacement.referencePage, FIFOPageReplacement.isPageInMemory, hin2,
          FIFOPageReplacement.findEmptyFrame, hk, hkne, hq2]
      have e3 : referencePage s3 page =
          some { numFrames := s3.numFrames
                 frames := s2.frames.set k page
                 insertOrder := s1.frameQueue ++ [page]
                 pageFaults := s3.pageFaults + 1 } := by
        simp [referencePage, isPageInMemory, hf3, hin2, findEmptyFrame, hk, hkne, hq3]
      rw [e1] at hu1
      have eu := Option.some.inj hu1
      refine ⟨_, _, _, e1, e2, e3, hn, by rw [eu]; exact hIu, rfl, rfl, rfl, ?_, hnew, hnn1,
        by simp [hpf2], by simp [hpf3]⟩
      simp only [List.length_set]
      exact hlen

theorem agree_run (n : Int) (h1 : 1 ≤ n) (h2 : n ≤ INT_MAX) (refs : List Int) :
    ∀ (s1 : PageReplacementFIFO.State) (s2 : FIFOPageReplacement.State) (s3 : State),
    (∀ p ∈ refs, 0 ≤ p) → Agree n s1 s2 s3 →
    ∃ t1 t2 t3, PageReplacementFIFO.simulate s1 refs = some t1 ∧
      FIFOPageReplacement.processReferenceString s2 refs = some t2 ∧
      processReferenceString s3 refs = some t3 ∧ Agree n t1 t2 t3 := by
  induction refs with
  | nil => intro s1 s2 s3 _ hA; exact ⟨s1, s2, s3, rfl, rfl, rfl, hA⟩
  | cons p rest ih =>
    intro s1 s2 s3 hnn hA
    obtain ⟨u1, u2, u3, e1, e2, e3, hU⟩ := agree_step n s1 s2 s3 p h1 h2
      (hnn p (List.mem_cons_self p rest)) hA
    obtain ⟨t1, t2, t3, k1, k2, k3, hT⟩ := ih u1 u2 u3
      (fun q hq => hnn q (List.mem_cons_of_mem p hq)) hU
    refine ⟨t1, t2, t3, ?_, ?_, ?_, hT⟩
    · simp [PageReplacementFIFO.simulate, e1, k1]
    · simp [FIFOPageReplacement.processReferenceString, e2, k2]
    · simp [processReferenceString, e3, k3]

end FIFOComparison

/-- C26: for every `numFrames` from 1 to `INT_MAX` and every reference string of pages
`≥ 0`, the three FIFO simulators (`PageReplacementFIFO`, `FIFOPageReplacement`,
`FIFOComparison`) process the string without failure and end with the same fault count, the
same queue of resident pages and the same set of resident pages; the two frame vectors are
equal, and a next reference to a page `≥ 0` is a hit in one of them exactly when it is a hit
in the others. As the string is arbitrary, this holds after each of its references. -/
theorem C26_fifo_implementations_agree (numFrames : Int) (refs : List Int)
    (h1 : 1 ≤ numFrames) (h2 : numFrames ≤ INT_MAX) (hnn : ∀ p ∈ refs, 0 ≤ p) :
    ∃ s1 s2 s3,
      PageReplacementFIFO.simulate (PageReplacementFIFO.new numFrames) refs = some s1 ∧
      (FIFOPageReplacement.new numFrames).bind
        (fun s => FIFOPageReplacement.processReferenceString s refs) = some s2 ∧
      (FIFOComparison.new numFrames).bind
        (fun s => FIFOComparison.processReferenceString s refs) = some s3 ∧
      s2.pageFaults = s1.pageFaults ∧ s3.pageFaults = s1.pageFaults ∧
      s2.fifoQueue = s1.frameQueue ∧ s3.insertOrder = s1.frameQueue ∧
      s3.frames = s2.frames ∧
      s1.frameSet = (occupied s2.frames).toFinset ∧
      s1.frameSet = (occupied s3.frames).toFinset ∧
      ∀ page, 0 ≤ page →
        (page ∈ s1.frameSet ↔ FIFOPageReplacement.isPageInMemory s2 page = true) ∧
        (page ∈ s1.frameSet ↔ FIFOComparison.isPageInMemory s3 page = true) := by
  obtain ⟨s1, s2, s3, e1, e2, e3, hA⟩ := FIFOComparison.agree_run numFrames h1 h2 refs _ _ _
    hnn (FIFOComparison.agree_init numFrames h1)
  have hneg : ¬ (numFrames < 0) := by omega
  refine ⟨s1, s2, s3, e1, ?_, ?_, hA.2.2.2.2.2.2.2.2.1, hA.2.2.2.2.2.2.2.2.2, hA.2.2.1,
    hA.2.2.2.1, hA.2.2.2.2.1,
    (FIFOComparison.agree_classify numFrames s1 s2 s3 0 (le_refl 0) hA).2.2.1,
    (FIFOComparison.agree_classify numFrames s1 s2 s3 0 (le_refl 0) hA).2.2.2, ?_⟩
  · simp only [FIFOPageReplacement.new, hneg, if_false, Option.some_bind]
    exact e2
  · simp only [FIFOComparison.new, hneg, if_false, Option.some_bind]
    exact e3
  · intro page hp
    have := FIFOComparison.agree_classify numFrames s1 s2 s3 page hp hA
    exact ⟨this.1, this.2.1⟩

/-- Witness of C26: the reference string of test 2 of `LAB9-3.cpp` with 4 frames; each of the
three simulators counts 10 page faults. -/
theorem C26_fifo_implementations_agree_witness :
    (PageReplacementFIFO.simulate (PageReplacementFIFO.new 4)
        [1, 2, 3, 4, 1, 2, 5, 1, 2, 3, 4, 5]).map (fun s => s.pageFaults) = some 10 ∧
    ((FIFOComparison.new 4).bind (fun s => FIFOComparison.processReferenceString s
        [1, 2, 3, 4, 1, 2, 5, 1, 2, 3, 4, 5])).map (fun s => (s.pageFaults, s.frames)) =
      some (10, [4, 5, 2, 3]) ∧
    ∃ s1 s2 s3,
      PageReplacementFIFO.simulate (PageReplacementFIFO.new 4)
        [1, 2, 3, 4, 1, 2, 5, 1, 2, 3, 4, 5] = some s1 ∧
      (FIFOPageReplacement.new 4).bind (fun s => FIFOPageReplacement.processReferenceString s
        [1, 2, 3, 4, 1, 2, 5, 1, 2, 3, 4, 5]) = some s2 ∧
      (FIFOComparison.new 4).bind (fun s => FIFOComparison.processReferenceString s
        [1, 2, 3, 4, 1, 2, 5, 1, 2, 3, 4, 5]) = some s3 ∧
      s2.pageFaults = s1.pageFaults ∧ s3.pageFaults = s1.pageFaults := by
  refine ⟨by decide, by decide, ?_⟩
  obtain ⟨s1, s2, s3, e1, e2, e3, k1, k2, _⟩ := C26_fifo_implementations_agree 4
    [1, 2, 3, 4, 1, 2, 5, 1, 2, 3, 4, 5] (by decide) (by decide) (by decide)
  exact ⟨s1, s2, s3, e1, e2, e3, k1, k2⟩

/-! ### `PageReplacementFIFO`: bounds on the fault count -/

namespace PageReplacementFIFO

end PageReplacementFIFO

namespace AddressPageTable

/-- When every frame is used, the `do ... while` loop does not end. -/
theorem findFrame_all_used (rand : Nat → Nat) (usedFrames : Nat → Bool)
    (h : ∀ f, f < NUM_FRAMES → usedFrames f = true) :
    ∀ (fuel k : Nat), findFrame rand usedFrames fuel k = none := by
  intro fuel
  induction fuel with
  | zero => intro k; rfl
  | succ fuel ih =>
    intro k
    have hu : usedFrames (rand k % NUM_FRAMES) = true :=
      h _ (Nat.mod_lt _ (by decide))
    simp only [findFrame, hu, if_true]
    exact ih (k + 1)

theorem draws_even (i : Nat) : draws (2 * i) = 0 := by
  unfold draws
  have : 2 * i % 2 = 0 := by omega
  simp [this]

theorem draws_odd (i : Nat) : draws (2 * i + 1) = i := by
  unfold draws
  have h1 : ¬ ((2 * i + 1) % 2 = 0) := by omega
  have h2 : (2 * i + 1) / 2 = i := by omega
  simp [h1, h2]

/-- On the stream `draws`, page `i < 32` takes the free frame `i`. -/
theorem pageStep_after (fuel i : Nat) (hi : i < 32) :
    pageStep draws (fuel + 1) (after i) = some (after (i + 1)) := by
  have hm : i % NUM_FRAMES = i := Nat.mod_eq_of_lt hi
  simp only [pageStep, after, draws_even, draws_odd, findFrame, hm, Nat.zero_mod,
    Nat.lt_irrefl, decide_False, Bool.false_eq_true, if_false]
  simp only [show (0 : Nat) < 75 from by decide, if_true]
  congr 1
  have e1 : (List.range (i + 1)).map (fun (j : Nat) => (j : Int)) =
      (List.range i).map (fun (j : Nat) => (j : Int)) ++ [(i : Int)] := by
    rw [List.range_succ, List.map_append]
    rfl
  have e2 : List.replicate (i + 1) true = List.replicate i true ++ [true] := by
    rw [List.replicate_succ']
  have e3 : (fun f => if f = i then true else decide (f < i)) =
      (fun f => decide (f < i + 1)) := by
    funext f
    by_cases hf : f = i
    · subst hf; simp
    · have : (f < i + 1) ↔ (f < i) := by omega
      simp [hf, this]
  rw [e1, e2, e3]
  have e4 : 2 * i + 1 + 1 = 2 * (i + 1) := by omega
  rw [e4]

theorem fillFrom_after (fuel : Nat) : ∀ (i : Nat), i ≤ 32 → ∀ n : Nat,
    fillFrom draws (fuel + 1) (i + n) init = fillFrom draws (fuel + 1) n (after i) := by
  intro i
  induction i with
  | zero =>
    intro _ n
    rw [Nat.zero_add]
    rfl
  | succ i ih =>
    intro hi n
    have e : i + 1 + n = i + (n + 1) := by omega
    rw [e, ih (by omega) (n + 1)]
    simp only [fillFrom, pageStep_after fuel i (by omega)]

/-- On the stream `draws` the 33rd page is valid and finds every frame used. -/
theorem pageStep_after_32 (fuel : Nat) : pageStep draws fuel (after 32) = none := by
  have hf := findFrame_all_used draws (after 32).usedFrames
    (fun f hf => by simpa [after, NUM_FRAMES] using hf) fuel ((after 32).calls + 1)
  have hd : draws (after 32).calls = 0 := draws_even 32
  simp only [pageStep, hd, Nat.zero_mod, show (0 : Nat) < 75 from by decide, if_true, hf]

end AddressPageTable

/-- C28 (the code at the failing input): on the stream of draws in which every page is drawn
valid and page `i` draws the frame `i % 32`, the constructor of the `PageTable` of
`LAB-8.1ADDRESS.cpp` does not return: the first 32 pages take the 32 frames, and for page 32
the loop `do { frame = rand() % NUM_FRAMES; } while (usedFrames[frame]);` has not ended after
any number `fuel` of iterations. On the stream that is constantly 75 (no page is valid) the
constructor returns with 64 invalid pages. -/
theorem C28_constructor_diverges :
    (∀ fuel, AddressPageTable.construct AddressPageTable.draws fuel = none) ∧
    (∀ fuel, (AddressPageTable.fillFrom AddressPageTable.draws (fuel + 1) 32
        AddressPageTable.init).map (fun s => (s.pageTable, s.valid)) =
      some ((List.range 32).map (fun (j : Nat) => (j : Int)), List.replicate 32 true)) ∧
    (AddressPageTable.construct (fun _ => 75) 0).map (fun s => (s.pageTable, s.valid)) =
      some (List.replicate 64 (-1), List.replicate 64 false) := by
  refine ⟨?_, ?_, by decide⟩
  · intro fuel
    cases fuel with
    | zero => rfl
    | succ fuel =>
      unfold AddressPageTable.construct
      have e : AddressPageTable.NUM_PAGES = 32 + 32 := rfl
      rw [e, AddressPageTable.fillFrom_after fuel 32 (le_refl 32) 32]
      simp only [AddressPageTable.fillFrom, AddressPageTable.pageStep_after_32]
  · intro fuel
    have h := AddressPageTable.fillFrom_after fuel 32 (le_refl 32) 0
    rw [Nat.add_zero] at h
    rw [h]
    rfl

/-! ### `SchedulingAlgorithms::RoundRobin` terminates with every process completed -/

namespace SchedulingAlgorithms

theorem sum_range_update (n cur : Nat) (hc : cur < n) (f : Nat → Int) (v : Int)
    (g : Int → Int) :
    ∑ idx ∈ Finset.range n, g (Function.update f cur v idx) =
      ∑ idx ∈ Finset.range n, g (f idx) - g (f cur) + g v := by
  have hm : cur ∈ Finset.range n := Finset.mem_range.mpr hc
  have h1 : g v + ∑ idx ∈ (Finset.range n).erase cur, g (Function.update f cur v idx) =
      ∑ idx ∈ Finset.range n, g (Function.update f cur v idx) := by
    have := Finset.add_sum_erase (Finset.range n)
      (fun idx => g (Function.update f cur v idx)) hm
    simpa using this
  have h2 : g (f cur) + ∑ idx ∈ (Finset.range n).erase cur, g (f idx) =
      ∑ idx ∈ Finset.range n, g (f idx) :=
    Finset.add_sum_erase (Finset.range n) (fun idx => g (f idx)) hm
  have h3 : ∑ idx ∈ (Finset.range n).erase cur, g (Function.update f cur v idx) =
      ∑ idx ∈ (Finset.range n).erase cur, g (f idx) := by
    apply Finset.sum_congr rfl
    intro x hx
    rw [Function.update_noteq (Finset.ne_of_mem_erase hx)]
  omega

theorem arrivalOf_modify (ps : List Process) (t : Int) (cur idx : Nat) :
    arrivalOf (ps.modify (complete t) cur) idx = arrivalOf ps idx ∧
    burstOf (ps.modify (complete t) cur) idx = burstOf ps idx := by
  unfold arrivalOf burstOf
  rw [List.getElem?_modify]
  cases h : ps[idx]? with
  | none => simp
  | some p =>
    by_cases hc : cur = idx
    · simp [hc, complete]
    · simp [hc]

theorem arrivalOf_getElem? (ps : List Process) (idx : Nat) (p : Process)
    (h : ps[idx]? = some p) : arrivalOf ps idx = p.arrival_time ∧
      burstOf ps idx = p.burst_time := by
  simp [arrivalOf, burstOf, h]

/-- The loop that queues the arrived processes: it keeps the queue free of duplicates and the
flags in step with it, adds only arrived unfinished processes other than the current one,
and adds every such process of the list. -/
theorem addArrived_spec (ps : List Process) (rem : Nat → Int) (t : Int) (cur : Nat)
    (L : List Nat) : ∀ (acc : List Nat × (Nat → Bool)),
    acc.1.Nodup → (∀ idx, acc.2 idx = true ↔ idx ∈ acc.1) →
    (addArrived ps rem t cur L acc).1.Nodup ∧
    (∀ idx, (addArrived ps rem t cur L acc).2 idx = true ↔
      idx ∈ (addArrived ps rem t cur L acc).1) ∧
    (∀ idx ∈ (addArrived ps rem t cur L acc).1,
      idx ∈ acc.1 ∨ (idx ∈ L ∧ 0 < rem idx ∧ arrivalOf ps idx ≤ t ∧ idx ≠ cur)) ∧
    (∀ idx ∈ acc.1, idx ∈ (addArrived ps rem t cur L acc).1) ∧
    (∀ idx ∈ L, 0 < rem idx → arrivalOf ps idx ≤ t → idx ≠ cur →
      idx ∈ (addArrived ps rem t cur L acc).1) := by
  induction L with
  | nil =>
    intro acc hnd hfl
    refine ⟨hnd, hfl, fun idx h => Or.inl h, fun idx h => h, ?_⟩
    intro idx h
    simp at h
  | cons x rest ih =>
    intro acc hnd hfl
    by_cases hx : acc.2 x = false ∧ rem x > 0 ∧ arrivalOf ps x ≤ t ∧ x ≠ cur
    · have hxn : x ∉ acc.1 := by
        intro hm
        have := (hfl x).mpr hm
        rw [hx.1] at this
        cases this
      have hnd1 : (acc.1 ++ [x]).Nodup := by
        rw [List.nodup_append]
        refine ⟨hnd, List.nodup_singleton x, ?_⟩
        intro a ha hb
        rw [List.mem_singleton] at hb
        rw [hb] at ha
        exact hxn ha
      have hfl1 : ∀ idx, Function.update acc.2 x true idx = true ↔ idx ∈ acc.1 ++ [x] := by
        intro idx
        by_cases hi : idx = x
        · subst hi; simp
        · rw [Function.update_noteq hi, hfl idx, List.mem_append, List.mem_singleton]
          constructor
          · intro h; exact Or.inl h
          · rintro (h | h)
            · exact h
            · exact absurd h hi
      obtain ⟨k1, k2, k3, k4, k5⟩ := ih (acc.1 ++ [x], Function.update acc.2 x true) hnd1 hfl1
      have e : addArrived ps rem t cur (x :: rest) acc =
          addArrived ps rem t cur rest (acc.1 ++ [x], Function.update acc.2 x true) := by
        rw [addArrived]
        exact if_pos hx
      rw [e]
      refine ⟨k1, k2, ?_, ?_, ?_⟩
      · intro idx hidx
        rcases k3 idx hidx with h | ⟨h1, h2⟩
        · rw [List.mem_append, List.mem_singleton] at h
          rcases h with h | h
          · exact Or.inl h
          · right
            rw [h]
            exact ⟨List.mem_cons_self x rest, hx.2.1, hx.2.2.1, hx.2.2.2⟩
        · exact Or.inr ⟨List.mem_cons_of_mem x h1, h2⟩
      · intro idx hidx
        exact k4 idx (List.mem_append_left _ hidx)
      · intro idx hidx h1 h2 h3
        rw [List.mem_cons] at hidx
        rcases hidx with hidx | hidx
        · rw [hidx]
          exact k4 x (List.mem_append_right _ (List.mem_singleton_self x))
        · exact k5 idx hidx h1 h2 h3
    · obtain ⟨k1, k2, k3, k4, k5⟩ := ih acc hnd hfl
      have e : addArrived ps rem t cur (x :: rest) acc = addArrived ps rem t cur rest acc := by
        rw [addArrived]
        exact if_neg hx
      rw [e]
      refine ⟨k1, k2, ?_, k4, ?_⟩
      · intro idx hidx
        rcases k3 idx hidx with h | ⟨h1, h2⟩
        · exact Or.inl h
        · exact Or.inr ⟨List.mem_cons_of_mem x h1, h2⟩
      · intro idx hidx h1 h2 h3
        rw [List.mem_cons] at hidx
        rcases hidx with hidx | hidx
        · subst hidx
          have hf : ¬ (acc.2 idx = false) := fun hf => hx ⟨hf, h1, h2, h3⟩
          have ht : acc.2 idx = true := by simpa using hf
          exact k4 idx ((hfl idx).mp ht)
        · exact k5 idx hidx h1 h2 h3

theorem mem_arrival_order (P0 : List Process) (order : List Nat)
    (ho : IsArrivalOrder P0 order) (idx : Nat) : idx ∈ order ↔ idx < P0.length := by
  rw [ho.1.mem_iff, List.mem_range]

end SchedulingAlgorithms

namespace SchedulingAlgorithms

theorem count_all_zero (n : Nat) (f : Nat → Int) (h : ∀ idx, idx < n → f idx = 0) :
    ∑ idx ∈ Finset.range n, (if f idx = 0 then (1 : Int) else 0) = n := by
  have e : ∀ idx ∈ Finset.range n, (if f idx = 0 then (1 : Int) else 0) = 1 := by
    intro idx hidx
    rw [if_pos (h idx (Finset.mem_range.mp hidx))]
  rw [Finset.sum_congr rfl e]
  simp

theorem count_lt (n : Nat) (f : Nat → Int) (i : Nat) (hi : i < n) (hf : f i ≠ 0) :
    ∑ idx ∈ Finset.range n, (if f idx = 0 then (1 : Int) else 0) < n := by
  have hm : i ∈ Finset.range n := Finset.mem_range.mpr hi
  have h1 : (if f i = 0 then (1 : Int) else 0) +
      ∑ idx ∈ (Finset.range n).erase i, (if f idx = 0 then (1 : Int) else 0) =
      ∑ idx ∈ Finset.range n, (if f idx = 0 then (1 : Int) else 0) :=
    Finset.add_sum_erase (Finset.range n) (fun idx => if f idx = 0 then (1 : Int) else 0) hm
  have h2 : ∑ idx ∈ (Finset.range n).erase i, (if f idx = 0 then (1 : Int) else 0) ≤
      ∑ _idx ∈ (Finset.range n).erase i, (1 : Int) := by
    apply Finset.sum_le_sum
    intro idx _
    split_ifs <;> decide
  have h3 : ∑ _idx ∈ (Finset.range n).erase i, (1 : Int) = (n : Int) - 1 := by
    rw [Finset.sum_const, Finset.card_erase_of_mem hm, Finset.card_range]
    simp
    omega
  rw [if_neg hf] at h1
  omega

theorem work_nonneg (P0 : List Process) (s : State) (hI : Inv P0 s) :
    0 ≤ work P0.length s := by
  unfold work
  apply Finset.sum_nonneg
  intro idx hidx
  exact (hI.bounds idx (Finset.mem_range.mp hidx)).1

/-- The handling of an empty queue keeps the invariant and leaves a queue that is not
empty. -/
theorem nextArrival_inv (P0 : List Process) (order : List Nat) (s : State)
    (ho : IsArrivalOrder P0 order) (hI : Inv P0 s)
    (hc : s.ready_queue ≠ [] ∨ s.completed < (P0.length : Int)) :
    Inv P0 (nextArrival order s) ∧ (nextArrival order s).ready_queue ≠ [] ∧
    (nextArrival order s).remaining_time = s.remaining_time := by
  unfold nextArrival
  by_cases hq : s.ready_queue = []
  · rw [if_pos hq]
    have hlt : s.completed < (P0.length : Int) := by
      rcases hc with hc | hc
      · exact absurd hq hc
      · exact hc
    have hex : ∃ idx, idx < P0.length ∧ s.remaining_time idx ≠ 0 := by
      by_contra hno
      push_neg at hno
      have := count_all_zero P0.length s.remaining_time hno
      rw [← hI.count] at this
      omega
    obtain ⟨i, hi, hri⟩ := hex
    have hri0 : 0 < s.remaining_time i := by
      have := (hI.bounds i hi).1
      omega
    have hwi := hI.waiting hq i hi hri0
    cases hfind : order.find? (fun idx =>
        decide (s.remaining_time idx > 0 ∧ arrivalOf s.processes idx > s.current_time)) with
    | none =>
      exfalso
      rw [List.find?_eq_none] at hfind
      have := hfind i ((mem_arrival_order P0 order ho i).mpr hi)
      simp only [decide_eq_true_eq, not_and] at this
      have h2 := this hri0
      rw [(hI.same i).1] at h2
      omega
    | some idx0 =>
      have hp := List.find?_some hfind
      simp only [decide_eq_true_eq] at hp
      have hmem : idx0 < P0.length :=
        (mem_arrival_order P0 order ho idx0).mp (List.mem_of_find?_eq_some hfind)
      have hA := (hI.same idx0).1
      simp only [hq, List.nil_append]
      refine ⟨?_, by simp⟩
      exact {
        len := hI.len
        same := hI.same
        nodup := List.nodup_singleton idx0
        queued := by
          intro idx hidx
          rw [List.mem_singleton] at hidx
          subst hidx
          exact ⟨hmem, hp.1, by simp only; omega⟩
        flag := by
          intro idx
          by_cases hi0 : idx = idx0
          · subst hi0; simp
          · simp only [Function.update_noteq hi0, List.mem_singleton, hi0, iff_false]
            intro ht
            have := (hI.flag idx).mp ht
            rw [hq] at this
            simp at this
        bounds := hI.bounds
        ran := by
          intro idx hidx hlt1
          have := hI.ran idx hidx hlt1
          simp only
          omega
        finished := hI.finished
        count := hI.count
        waiting := by
          intro h
          simp at h }
  · rw [if_neg hq]
    exact ⟨hI, hq, rfl⟩

theorem runSlice_done (order : List Nat) (quantum : Int) (s : State) (cur : Nat)
    (rest : List Nat)
    (hz : s.remaining_time cur - min quantum (s.remaining_time cur) = 0) :
    runSlice order quantum s cur rest =
      { processes := s.processes.modify
          (complete (s.current_time + min quantum (s.remaining_time cur))) cur
        ready_queue := (addArrived s.processes
          (Function.update s.remaining_time cur
            (s.remaining_time cur - min quantum (s.remaining_time cur)))
          (s.current_time + min quantum (s.remaining_time cur)) cur order
          (rest, Function.update s.in_queue cur false)).1
        remaining_time := Function.update s.remaining_time cur
          (s.remaining_time cur - min quantum (s.remaining_time cur))
        in_queue := (addArrived s.processes
          (Function.update s.remaining_time cur
            (s.remaining_time cur - min quantum (s.remaining_time cur)))
          (s.current_time + min quantum (s.remaining_time cur)) cur order
          (rest, Function.update s.in_queue cur false)).2
        current_time := s.current_time + min quantum (s.remaining_time cur)
        completed := s.completed + 1 } := by
  simp only [runSlice, Function.update_same, hz, if_true]

theorem runSlice_more (order : List Nat) (quantum : Int) (s : State) (cur : Nat)
    (rest : List Nat)
    (hz : ¬ (s.remaining_time cur - min quantum (s.remaining_time cur) = 0)) :
    runSlice order quantum s cur rest =
      { processes := s.processes
        ready_queue := (addArrived s.processes
          (Function.update s.remaining_time cur
            (s.remaining_time cur - min quantum (s.remaining_time cur)))
          (s.current_time + min quantum (s.remaining_time cur)) cur order
          (rest, Function.update s.in_queue cur false)).1 ++ [cur]
        remaining_time := Function.update s.remaining_time cur
          (s.remaining_time cur - min quantum (s.remaining_time cur))
        in_queue := Function.update (addArrived s.processes
          (Function.update s.remaining_time cur
            (s.remaining_time cur - min quantum (s.remaining_time cur)))
          (s.current_time + min quantum (s.remaining_time cur)) cur order
          (rest, Function.update s.in_queue cur false)).2 cur true
        current_time := s.current_time + min quantum (s.remaining_time cur)
        completed := s.completed } := by
  simp only [runSlice, Function.update_same, hz, if_false]

end SchedulingAlgorithms

namespace SchedulingAlgorithms

/-- The queue after the arrived processes were added, in a state of the invariant whose
queue is `cur :: rest`: it holds, each once, processes other than `cur` that are unfinished
and have arrived, and it holds every such process. -/
theorem addArrived_slice (P0 : List Process) (order : List Nat) (s : State) (cur : Nat)
    (rest : List Nat) (e : Int) (ho : IsArrivalOrder P0 order) (hI : Inv P0 s)
    (hQ : s.ready_queue = cur :: rest) (he1 : 1 ≤ e) :
    (addArrived s.processes
      (Function.update s.remaining_time cur (s.remaining_time cur - e))
      (s.current_time + e) cur order (rest, Function.update s.in_queue cur false)).1.Nodup ∧
    (∀ idx, (addArrived s.processes
      (Function.update s.remaining_time cur (s.remaining_time cur - e))
      (s.current_time + e) cur order (rest, Function.update s.in_queue cur false)).2 idx =
        true ↔
      idx ∈ (addArrived s.processes
        (Function.update s.remaining_time cur (s.remaining_time cur - e))
        (s.current_time + e) cur order (rest, Function.update s.in_queue cur false)).1) ∧
    (∀ idx ∈ (addArrived s.processes
        (Function.update s.remaining_time cur (s.remaining_time cur - e))
        (s.current_time + e) cur order (rest, Function.update s.in_queue cur false)).1,
      idx ≠ cur ∧ idx < P0.length ∧ 0 < s.remaining_time idx ∧
        arrivalOf P0 idx ≤ s.current_time + e) ∧
    (∀ idx, idx < P0.length → idx ≠ cur → 0 < s.remaining_time idx →
      arrivalOf P0 idx ≤ s.current_time + e →
      idx ∈ (addArrived s.processes
        (Function.update s.remaining_time cur (s.remaining_time cur - e))
        (s.current_time + e) cur order (rest, Function.update s.in_queue cur false)).1) := by
  have hnd := hI.nodup
  rw [hQ, List.nodup_cons] at hnd
  have hfl0 : ∀ idx, Function.update s.in_queue cur false idx = true ↔ idx ∈ rest := by
    intro idx
    by_cases hi : idx = cur
    · subst hi
      simp only [Function.update_same, Bool.false_eq_true, false_iff]
      exact hnd.1
    · rw [Function.update_noteq hi, hI.flag idx, hQ, List.mem_cons]
      constructor
      · rintro (h | h)
        · exact absurd h hi
        · exact h
      · intro h; exact Or.inr h
  obtain ⟨a1, a2, a3, _, a5⟩ := addArrived_spec s.processes
    (Function.update s.remaining_time cur (s.remaining_time cur - e))
    (s.current_time + e) cur order (rest, Function.update s.in_queue cur false) hnd.2 hfl0
  refine ⟨a1, a2, ?_, ?_⟩
  · intro idx hidx
    rcases a3 idx hidx with h | ⟨h1, h2, h3, h4⟩
    · have hne : idx ≠ cur := fun e1 => hnd.1 (e1 ▸ h)
      obtain ⟨q1, q2, q3⟩ := hI.queued idx (by rw [hQ]; exact List.mem_cons_of_mem cur h)
      exact ⟨hne, q1, q2, by omega⟩
    · rw [Function.update_noteq h4] at h2
      rw [(hI.same idx).1] at h3
      exact ⟨h4, (mem_arrival_order P0 order ho idx).mp h1, h2, h3⟩
  · intro idx hidx hne hr ha
    apply a5 idx ((mem_arrival_order P0 order ho idx).mpr hidx)
    · rw [Function.update_noteq hne]; exact hr
    · rw [(hI.same idx).1]; exact ha
    · exact hne

/-- One time slice keeps the invariant and does at least one unit of work. -/
theorem runSlice_inv (P0 : List Process) (order : List Nat) (quantum : Int) (s : State)
    (cur : Nat) (rest : List Nat) (ho : IsArrivalOrder P0 order) (hq : 1 ≤ quantum)
    (hI : Inv P0 s) (hQ : s.ready_queue = cur :: rest) :
    Inv P0 (runSlice order quantum s cur rest) ∧
    work P0.length (runSlice order quantum s cur rest) + 1 ≤ work P0.length s := by
  obtain ⟨hcn, hcr, hca⟩ := hI.queued cur (by rw [hQ]; exact List.mem_cons_self cur rest)
  have he1 : 1 ≤ min quantum (s.remaining_time cur) := le_min hq (by omega)
  have he2 : min quantum (s.remaining_time cur) ≤ s.remaining_time cur := min_le_right _ _
  obtain ⟨hb1, hb2⟩ := hI.bounds cur hcn
  have hran : arrivalOf P0 cur + (burstOf P0 cur - s.remaining_time cur) ≤ s.current_time := by
    by_cases hlt : s.remaining_time cur < burstOf P0 cur
    · exact hI.ran cur hcn hlt
    · omega
  by_cases hz : s.remaining_time cur - min quantum (s.remaining_time cur) = 0
  · rw [runSlice_done order quantum s cur rest hz]
    obtain ⟨a1, a2, a3, a4⟩ := addArrived_slice P0 order s cur rest
      (min quantum (s.remaining_time cur)) ho hI hQ he1
    generalize addArrived s.processes
      (Function.update s.remaining_time cur
        (s.remaining_time cur - min quantum (s.remaining_time cur)))
      (s.current_time + min quantum (s.remaining_time cur)) cur order
      (rest, Function.update s.in_queue cur false) = added at a1 a2 a3 a4 ⊢
    generalize min quantum (s.remaining_time cur) = e at he1 he2 hz a3 a4 ⊢
    constructor
    · exact {
        len := by simp only [List.length_modify]; exact hI.len
        same := by
          intro idx
          obtain ⟨m1, m2⟩ := arrivalOf_modify s.processes (s.current_time + e) cur idx
          simp only
          rw [m1, m2]
          exact hI.same idx
        nodup := a1
        queued := by
          intro idx hidx
          obtain ⟨b1, b2, b3, b4⟩ := a3 idx hidx
          simp only at hidx ⊢
          rw [Function.update_noteq b1]
          exact ⟨b2, b3, b4⟩
        flag := a2
        bounds := by
          intro idx hidx
          simp only
          by_cases hi : idx = cur
          · subst hi
            rw [Function.update_same]
            omega
          · rw [Function.update_noteq hi]
            exact hI.bounds idx hidx
        ran := by
          intro idx hidx
          simp only
          by_cases hi : idx = cur
          · subst hi
            rw [Function.update_same]
            intro _
            omega
          · rw [Function.update_noteq hi]
            intro hlt
            have := hI.ran idx hidx hlt
            omega
        finished := by
          intro idx hidx
          simp only
          by_cases hi : idx = cur
          · subst hi
            intro _
            have hlen : idx < s.processes.length := by rw [hI.len]; exact hidx
            obtain ⟨m1, m2⟩ := arrivalOf_getElem? s.processes idx s.processes[idx]
              (List.getElem?_eq_getElem hlen)
            rw [(hI.same idx).1] at m1
            rw [(hI.same idx).2] at m2
            refine ⟨complete (s.current_time + e) s.processes[idx], ?_, ?_, ?_, ?_⟩
            · rw [List.getElem?_modify_eq, List.getElem?_eq_getElem hlen]
              rfl
            · simp only [complete]
              omega
            · simp only [complete]
              omega
            · simp only [complete]
              omega
          · rw [Function.update_noteq hi]
            intro hr
            obtain ⟨p, p1, p2⟩ := hI.finished idx hidx hr
            exact ⟨p, by rw [List.getElem?_modify_ne _ _ (Ne.symm hi)]; exact p1, p2⟩
        count := by
          simp only
          rw [sum_range_update P0.length cur hcn s.remaining_time _
            (fun v => if v = 0 then (1 : Int) else 0), ← hI.count]
          have hne : ¬ (s.remaining_time cur = 0) := by omega
          simp only [hz, if_true, hne, if_false]
          omega
        waiting := by
          intro hempty idx hidx
          simp only at hempty ⊢
          by_cases hi : idx = cur
          · subst hi
            rw [Function.update_same]
            omega
          · rw [Function.update_noteq hi]
            intro hr
            by_contra hle
            have := a4 idx hidx hi hr (by omega)
            rw [hempty] at this
            simp at this }
    · simp only [work]
      rw [sum_range_update P0.length cur hcn s.remaining_time _ (fun v => v)]
      omega
  · rw [runSlice_more order quantum s cur rest hz]
    obtain ⟨a1, a2, a3, a4⟩ := addArrived_slice P0 order s cur rest
      (min quantum (s.remaining_time cur)) ho hI hQ he1
    generalize addArrived s.processes
      (Function.update s.remaining_time cur
        (s.remaining_time cur - min quantum (s.remaining_time cur)))
      (s.current_time + min quantum (s.remaining_time cur)) cur order
      (rest, Function.update s.in_queue cur false) = added at a1 a2 a3 a4 ⊢
    generalize min quantum (s.remaining_time cur) = e at he1 he2 hz a3 a4 ⊢
    have hcn1 : cur ∉ added.1 := fun h => (a3 cur h).1 rfl
    constructor
    · exact {
        len := hI.len
        same := hI.same
        nodup := by
          simp only
          rw [List.nodup_append]
          refine ⟨a1, List.nodup_singleton cur, ?_⟩
          intro a ha hb
          rw [List.mem_singleton] at hb
          rw [hb] at ha
          exact hcn1 ha
        queued := by
          intro idx hidx
          simp only at hidx ⊢
          rw [List.mem_append, List.mem_singleton] at hidx
          rcases hidx with hidx | hidx
          · obtain ⟨b1, b2, b3, b4⟩ := a3 idx hidx
            rw [Function.update_noteq b1]
            exact ⟨b2, b3, b4⟩
          · subst hidx
            rw [Function.update_same]
            exact ⟨hcn, by omega, by omega⟩
        flag := by
          intro idx
          simp only
          by_cases hi : idx = cur
          · subst hi; simp
          · rw [Function.update_noteq hi, a2 idx, List.mem_append, List.mem_singleton]
            constructor
            · intro h; exact Or.inl h
            · rintro (h | h)
              · exact h
              · exact absurd h hi
        bounds := by
          intro idx hidx
          simp only
          by_cases hi : idx = cur
          · subst hi
            rw [Function.update_same]
            omega
          · rw [Function.update_noteq hi]
            exact hI.bounds idx hidx
        ran := by
          intro idx hidx
          simp only
          by_cases hi : idx = cur
          · subst hi
            rw [Function.update_same]
            intro _
            omega
          · rw [Function.update_noteq hi]
            intro hlt
            have := hI.ran idx hidx hlt
            omega
        finished := by
          intro idx hidx
          simp only
          by_cases hi : idx = cur
          · subst hi
            rw [Function.update_same]
            intro h0
            exact absurd h0 hz
          · rw [Function.update_noteq hi]
            exact hI.finished idx hidx
        count := by
          simp only
          rw [sum_range_update P0.length cur hcn s.remaining_time _
            (fun v => if v = 0 then (1 : Int) else 0), ← hI.count]
          have hne : ¬ (s.remaining_time cur = 0) := by omega
          simp only [hz, hne, if_false]
          omega
        waiting := by
          intro hempty
          simp at hempty }
    · simp only [work]
      rw [sum_range_update P0.length cur hcn s.remaining_time _ (fun v => v)]
      omega

theorem burstOf_pos (P0 : List Process) (hb : ∀ p ∈ P0, 0 < p.burst_time) (idx : Nat)
    (hidx : idx < P0.length) : 0 < burstOf P0 idx := by
  obtain ⟨_, m2⟩ := arrivalOf_getElem? P0 idx P0[idx] (List.getElem?_eq_getElem hidx)
  rw [m2]
  exact hb _ (List.getElem_mem hidx)

/-- The state before the first test of the loop satisfies the invariant. -/
theorem start_inv (P0 : List Process) (order : List Nat) (ho : IsArrivalOrder P0 order)
    (hb : ∀ p ∈ P0, 0 < p.burst_time) : Inv P0 (start order P0) := by
  have hcount : (0 : Int) = ∑ idx ∈ Finset.range P0.length,
      (if burstOf P0 idx = 0 then (1 : Int) else 0) := by
    symm
    apply Finset.sum_eq_zero
    intro idx hidx
    have := burstOf_pos P0 hb idx (Finset.mem_range.mp hidx)
    rw [if_neg (by omega)]
  have hfin : ∀ idx, idx < P0.length → burstOf P0 idx = 0 → Completed P0 P0 idx := by
    intro idx hidx h0
    have := burstOf_pos P0 hb idx hidx
    omega
  cases horder : order with
  | nil =>
    have hn : P0.length = 0 := by
      have := ho.1.length_eq
      rw [horder] at this
      simpa using this.symm
    exact {
      len := rfl
      same := fun idx => ⟨rfl, rfl⟩
      nodup := List.nodup_nil
      queued := by intro idx hidx; simp [start] at hidx
      flag := by intro idx; simp [start]
      bounds := by intro idx hidx; omega
      ran := by intro idx hidx; omega
      finished := hfin
      count := hcount
      waiting := by intro _ idx hidx; omega }
  | cons first tl =>
    have hfirst : first < P0.length :=
      (mem_arrival_order P0 order ho first).mp (by rw [horder]; exact List.mem_cons_self _ _)
    have hne : P0 ≠ [] := by
      intro h
      rw [h] at hfirst
      simp at hfirst
    by_cases hcond : P0 ≠ [] ∧ arrivalOf P0 first ≤ 0
    · have e : start (first :: tl) P0 =
          { processes := P0, ready_queue := [first], remaining_time := burstOf P0,
            in_queue := Function.update (fun _ => false) first true, current_time := 0,
            completed := 0 } := by
        simp only [start, hcond, ne_eq, not_false_eq_true, and_self, if_true]
      rw [e]
      exact {
        len := rfl
        same := fun idx => ⟨rfl, rfl⟩
        nodup := List.nodup_singleton first
        queued := by
          intro idx hidx
          rw [List.mem_singleton] at hidx
          subst hidx
          exact ⟨hfirst, burstOf_pos P0 hb idx hfirst, hcond.2⟩
        flag := by
          intro idx
          by_cases hi : idx = first
          · subst hi; simp
          · simp [Function.update_noteq hi, hi]
        bounds := by
          intro idx hidx
          have := burstOf_pos P0 hb idx hidx
          simp only
          omega
        ran := by
          intro idx hidx hlt
          simp only at hlt
          omega
        finished := hfin
        count := hcount
        waiting := by
          intro h
          simp at h }
    · have e : start (first :: tl) P0 =
          { processes := P0, ready_queue := [], remaining_time := burstOf P0,
            in_queue := fun _ => false, current_time := 0, completed := 0 } := by
        simp only [start, hcond, if_false]
      have hpos : 0 < arrivalOf P0 first := by
        by_contra hle
        exact hcond ⟨hne, by omega⟩
      rw [e]
      exact {
        len := rfl
        same := fun idx => ⟨rfl, rfl⟩
        nodup := List.nodup_nil
        queued := by intro idx hidx; simp at hidx
        flag := by intro idx; simp
        bounds := by
          intro idx hidx
          have := burstOf_pos P0 hb idx hidx
          simp only
          omega
        ran := by
          intro idx hidx hlt
          simp only at hlt
          omega
        finished := hfin
        count := hcount
        waiting := by
          intro _ idx hidx _
          simp only
          have hmem := (mem_arrival_order P0 order ho idx).mpr hidx
          rw [horder, List.mem_cons] at hmem
          rcases hmem with hmem | hmem
          · rw [hmem]; exact hpos
          · have hpw := ho.2
            rw [horder, List.pairwise_cons] at hpw
            have := hpw.1 idx hmem
            omega }

theorem work_start (P0 : List Process) (order : List Nat) :
    work P0.length (start order P0) = ∑ idx ∈ Finset.range P0.length, burstOf P0 idx := by
  unfold work start
  cases order with
  | nil => rfl
  | cons first tl =>
    simp only
    split_ifs <;> rfl

theorem sum_burstOf (P0 : List Process) :
    ∑ idx ∈ Finset.range P0.length, burstOf P0 idx = (P0.map (fun p => p.burst_time)).sum := by
  induction P0 with
  | nil => simp
  | cons p rest ih =>
    rw [List.length_cons, Finset.sum_range_succ', List.map_cons, List.sum_cons, ← ih]
    have e : ∀ idx, burstOf (p :: rest) (idx + 1) = burstOf rest idx := by
      intro idx
      simp [burstOf]
    simp only [e]
    have e0 : burstOf (p :: rest) 0 = p.burst_time := by simp [burstOf]
    rw [e0]
    omega

end SchedulingAlgorithms

namespace SchedulingAlgorithms

theorem work_le_total (P0 : List Process) (s : State) (hI : Inv P0 s) :
    work P0.length s ≤ ∑ idx ∈ Finset.range P0.length, burstOf P0 idx := by
  unfold work
  apply Finset.sum_le_sum
  intro idx hidx
  exact (hI.bounds idx (Finset.mem_range.mp hidx)).2

theorem remaining_le_work (P0 : List Process) (s : State) (hI : Inv P0 s) (cur : Nat)
    (hc : cur < P0.length) : s.remaining_time cur ≤ work P0.length s := by
  unfold work
  exact Finset.single_le_sum (f := fun idx => s.remaining_time idx)
    (fun idx hidx => (hI.bounds idx (Finset.mem_range.mp hidx)).1) (Finset.mem_range.mpr hc)

theorem count_nonneg (n : Nat) (f : Nat → Int) :
    0 ≤ ∑ idx ∈ Finset.range n, (if f idx = 0 then (1 : Int) else 0) := by
  apply Finset.sum_nonneg
  intro idx _
  split_ifs <;> decide

/-- The handling of an empty queue keeps the clock in range. -/
theorem nextArrival_clock (P0 : List Process) (order : List Nat) (s : State)
    (ho : IsArrivalOrder P0 order) (hI : Inv P0 s) (hC : ClockInv P0 s)
    (ha : ∀ idx, idx < P0.length → 0 ≤ arrivalOf P0 idx)
    (hr : ∀ idx, idx < P0.length →
      arrivalOf P0 idx + ∑ j ∈ Finset.range P0.length, burstOf P0 j ≤ INT_MAX) :
    ClockInv P0 (nextArrival order s) := by
  unfold nextArrival
  by_cases hq : s.ready_queue = []
  · rw [if_pos hq]
    cases hfind : order.find? (fun idx =>
        decide (s.remaining_time idx > 0 ∧ arrivalOf s.processes idx > s.current_time)) with
    | none => exact hC
    | some idx0 =>
      have hmem : idx0 < P0.length :=
        (mem_arrival_order P0 order ho idx0).mp (List.mem_of_find?_eq_some hfind)
      have hA := (hI.same idx0).1
      have h1 := ha idx0 hmem
      have h2 := hr idx0 hmem
      have h3 := work_le_total P0 s hI
      refine ⟨?_, ?_⟩
      · simp only
        omega
      · have hw : work P0.length
            { s with current_time := arrivalOf s.processes idx0
                     ready_queue := s.ready_queue ++ [idx0]
                     in_queue := (Function.update s.in_queue idx0 true) } =
            work P0.length s := rfl
        rw [hw]
        simp only
        omega
  · rw [if_neg hq]
    exact hC

/-- A slice moves `exec_time` units from the work left to the clock. -/
theorem runSlice_clock (P0 : List Process) (order : List Nat) (quantum : Int) (s : State)
    (cur : Nat) (rest : List Nat) (hc : cur < P0.length) :
    (runSlice order quantum s cur rest).current_time =
      s.current_time + min quantum (s.remaining_time cur) ∧
    work P0.length (runSlice order quantum s cur rest) =
      work P0.length s - min quantum (s.remaining_time cur) := by
  by_cases hz : s.remaining_time cur - min quantum (s.remaining_time cur) = 0
  · rw [runSlice_done order quantum s cur rest hz]
    refine ⟨rfl, ?_⟩
    simp only [work]
    rw [sum_range_update P0.length cur hc s.remaining_time _ (fun v => v)]
    omega
  · rw [runSlice_more order quantum s cur rest hz]
    refine ⟨rfl, ?_⟩
    simp only [work]
    rw [sum_range_update P0.length cur hc s.remaining_time _ (fun v => v)]
    omega

/-- In a state of the invariants no `int` of the loop body overflows. -/
theorem sliceFits_of_inv (P0 : List Process) (quantum : Int) (s : State) (cur : Nat)
    (rest : List Nat) (hq : 1 ≤ quantum) (hI : Inv P0 s) (hC : ClockInv P0 s)
    (hQ : s.ready_queue = cur :: rest)
    (ha : ∀ idx, idx < P0.length → 0 ≤ arrivalOf P0 idx)
    (hn : (P0.length : Int) ≤ INT_MAX) :
    sliceFits quantum s cur = true := by
  obtain ⟨hcn, hcr, hca⟩ := hI.queued cur (by rw [hQ]; exact List.mem_cons_self cur rest)
  have he1 : 1 ≤ min quantum (s.remaining_time cur) := le_min hq (by omega)
  have he2 : min quantum (s.remaining_time cur) ≤ s.remaining_time cur := min_le_right _ _
  obtain ⟨hb1, hb2⟩ := hI.bounds cur hcn
  have hran : arrivalOf P0 cur + (burstOf P0 cur - s.remaining_time cur) ≤ s.current_time := by
    by_cases hlt : s.remaining_time cur < burstOf P0 cur
    · exact hI.ran cur hcn hlt
    · omega
  have hw := remaining_le_work P0 s hI cur hcn
  have hcount := count_lt P0.length s.remaining_time cur hcn (by omega)
  have hcount0 := count_nonneg P0.length s.remaining_time
  rw [← hI.count] at hcount hcount0
  have ha0 := ha cur hcn
  obtain ⟨hc0, hc1⟩ := hC
  have hA := (hI.same cur).1
  have hB := (hI.same cur).2
  have hmax : INT_MAX = 2147483647 := rfl
  have hmin : INT_MIN = -2147483648 := rfl
  simp only [sliceFits, fitsInt, hA, hB, Bool.and_eq_true, decide_eq_true_eq]
  generalize min quantum (s.remaining_time cur) = e at he1 he2
  refine ⟨⟨⟨by omega, by omega⟩, ⟨by omega, by omega⟩⟩, ?_⟩
  split_ifs with hz
  · simp only [Bool.and_eq_true, decide_eq_true_eq]
    refine ⟨⟨⟨by omega, by omega⟩, ⟨by omega, by omega⟩⟩, ⟨by omega, by omega⟩⟩
  · rfl

/-- With more fuel than work left, the loop ends, in a state of the invariant with an empty
queue and `completed` not below the number of processes. -/
theorem loop_terminates (P0 : List Process) (order : List Nat) (quantum : Int)
    (ho : IsArrivalOrder P0 order) (hq : 1 ≤ quantum)
    (ha : ∀ idx, idx < P0.length → 0 ≤ arrivalOf P0 idx)
    (hr : ∀ idx, idx < P0.length →
      arrivalOf P0 idx + ∑ j ∈ Finset.range P0.length, burstOf P0 j ≤ INT_MAX)
    (hn : (P0.length : Int) ≤ INT_MAX) : ∀ (fuel : Nat) (s : State),
    Inv P0 s → ClockInv P0 s → work P0.length s < (fuel : Int) →
    ∃ s1, loop order quantum fuel s = some s1 ∧ Inv P0 s1 ∧ ClockInv P0 s1 ∧
      s1.ready_queue = [] ∧ ¬ (s1.completed < (P0.length : Int)) := by
  intro fuel
  induction fuel with
  | zero =>
    intro s hI _ hw
    have := work_nonneg P0 s hI
    simp at hw
    omega
  | succ fuel ih =>
    intro s hI hC hw
    by_cases hc : s.ready_queue ≠ [] ∨ s.completed < (s.processes.length : Int)
    · have hc1 : s.ready_queue ≠ [] ∨ s.completed < (P0.length : Int) := by
        rw [← hI.len]; exact hc
      obtain ⟨hI1, hne, hrem⟩ := nextArrival_inv P0 order s ho hI hc1
      have hC1 := nextArrival_clock P0 order s ho hI hC ha hr
      have hwork : work P0.length (nextArrival order s) = work P0.length s := by
        simp only [work, hrem]
      cases hq1 : (nextArrival order s).ready_queue with
      | nil => exact absurd hq1 hne
      | cons cur rest =>
        obtain ⟨hcn, hcr, _⟩ := hI1.queued cur (by rw [hq1]; exact List.mem_cons_self cur rest)
        obtain ⟨hI2, hw2⟩ := runSlice_inv P0 order quantum (nextArrival order s) cur rest ho hq
          hI1 hq1
        have hfit := sliceFits_of_inv P0 quantum (nextArrival order s) cur rest hq hI1 hC1 hq1
          ha hn
        obtain ⟨g1, g2⟩ := runSlice_clock P0 order quantum (nextArrival order s) cur rest hcn
        have hC2 : ClockInv P0 (runSlice order quantum (nextArrival order s) cur rest) := by
          have he1 : 1 ≤ min quantum ((nextArrival order s).remaining_time cur) :=
            le_min hq (by omega)
          obtain ⟨c0, c1⟩ := hC1
          refine ⟨?_, ?_⟩
          · rw [g1]; omega
          · rw [g1, g2]; omega
        obtain ⟨s1, k1, k2, k3, k4, k5⟩ :=
          ih (runSlice order quantum (nextArrival order s) cur rest) hI2 hC2
            (by push_cast at hw; omega)
        refine ⟨s1, ?_, k2, k3, k4, k5⟩
        rw [loop, if_pos hc]
        simp only [hq1, hfit, if_true]
        exact k1
    · refine ⟨s, ?_, hI, hC, ?_, ?_⟩
      · rw [loop, if_neg hc]
      · by_contra hne
        exact hc (Or.inl hne)
      · intro hlt
        apply hc
        right
        rw [hI.len]
        exact hlt

theorem length_le_sum_burstOf (P0 : List Process) (hb : ∀ p ∈ P0, 0 < p.burst_time) :
    (P0.length : Int) ≤ ∑ idx ∈ Finset.range P0.length, burstOf P0 idx := by
  have h : ∑ _idx ∈ Finset.range P0.length, (1 : Int) ≤
      ∑ idx ∈ Finset.range P0.length, burstOf P0 idx := by
    apply Finset.sum_le_sum
    intro idx hidx
    have := burstOf_pos P0 hb idx (Finset.mem_range.mp hidx)
    omega
  simpa using h

theorem clock_start (P0 : List Process) (order : List Nat)
    (hT : ∑ idx ∈ Finset.range P0.length, burstOf P0 idx ≤ INT_MAX) :
    ClockInv P0 (start order P0) := by
  refine ⟨?_, ?_⟩
  · unfold start
    cases order with
    | nil => exact le_refl _
    | cons first tl =>
      simp only
      split_ifs <;> exact le_refl _
  · have hc : (start order P0).current_time = 0 := by
      unfold start
      cases order with
      | nil => rfl
      | cons first tl =>
        simp only
        split_ifs <;> rfl
    rw [hc, work_start]
    omega

end SchedulingAlgorithms

/-- C29: for every process list with non-negative arrival times and positive burst times in
which every arrival time plus the sum of all burst times is a value of an `int` (so that the
clock does not overflow), for every quantum `≥ 1`, whatever order `std::sort` gives to the
indices of equal arrival times, and for every `fuel` above the sum of the burst times,
`RoundRobin` returns (its loop ends within `fuel` iterations, and no `int` overflows) with an
empty ready queue and `completed == processes.size()`. Every process then has
`remaining_time[idx] == 0`, keeps its arrival and burst time, and has
`completion_time ≥ arrival_time + burst_time`, `turnaround_time = completion_time -
arrival_time` and `waiting_time = turnaround_time - burst_time ≥ 0`. -/
theorem C29_round_robin_completes (processes : List SchedulingAlgorithms.Process)
    (arrival_order : List Nat) (quantum : Int) (fuel : Nat)
    (ho : SchedulingAlgorithms.IsArrivalOrder processes arrival_order)
    (ha : ∀ p ∈ processes, 0 ≤ p.arrival_time)
    (hb : ∀ p ∈ processes, 0 < p.burst_time)
    (hr : ∀ p ∈ processes,
      p.arrival_time + (processes.map (fun p => p.burst_time)).sum ≤ INT_MAX)
    (hq : 1 ≤ quantum)
    (hf : (processes.map (fun p => p.burst_time)).sum < (fuel : Int)) :
    ∃ s, SchedulingAlgorithms.RoundRobin arrival_order fuel processes quantum = some s ∧
      s.ready_queue = [] ∧ s.completed = (processes.length : Int) ∧
      s.processes.length = processes.length ∧
      ∀ idx p, processes[idx]? = some p →
        s.remaining_time idx = 0 ∧
        ∃ r, s.processes[idx]? = some r ∧
          r.arrival_time = p.arrival_time ∧ r.burst_time = p.burst_time ∧
          p.arrival_time + p.burst_time ≤ r.completion_time ∧
          r.turnaround_time = r.completion_time - r.arrival_time ∧
          r.waiting_time = r.turnaround_time - r.burst_time ∧ 0 ≤ r.waiting_time := by
  have hI0 := SchedulingAlgorithms.start_inv processes arrival_order ho hb
  have hw : SchedulingAlgorithms.work processes.length
      (SchedulingAlgorithms.start arrival_order processes) < (fuel : Int) := by
    rw [SchedulingAlgorithms.work_start, SchedulingAlgorithms.sum_burstOf]
    exact hf
  have ha1 : ∀ idx, idx < processes.length →
      0 ≤ SchedulingAlgorithms.arrivalOf processes idx := by
    intro idx hidx
    rw [(SchedulingAlgorithms.arrivalOf_getElem? processes idx processes[idx]
      (List.getElem?_eq_getElem hidx)).1]
    exact ha _ (List.getElem_mem hidx)
  have hr1 : ∀ idx, idx < processes.length →
      SchedulingAlgorithms.arrivalOf processes idx +
        ∑ j ∈ Finset.range processes.length, SchedulingAlgorithms.burstOf processes j ≤
      INT_MAX := by
    intro idx hidx
    rw [(SchedulingAlgorithms.arrivalOf_getElem? processes idx processes[idx]
      (List.getElem?_eq_getElem hidx)).1, SchedulingAlgorithms.sum_burstOf]
    exact hr _ (List.getElem_mem hidx)
  have hlen := SchedulingAlgorithms.length_le_sum_burstOf processes hb
  have hT : ∑ idx ∈ Finset.range processes.length,
      SchedulingAlgorithms.burstOf processes idx ≤ INT_MAX := by
    by_cases h0 : 0 < processes.length
    · have h1 := ha1 0 h0
      have h2 := hr1 0 h0
      omega
    · have h1 : processes.length = 0 := by omega
      rw [h1, Finset.range_zero, Finset.sum_empty]
      decide
  have hn : (processes.length : Int) ≤ INT_MAX := le_trans hlen hT
  have hC0 := SchedulingAlgorithms.clock_start processes arrival_order hT
  obtain ⟨s, k1, hI, hC, k3, k4⟩ := SchedulingAlgorithms.loop_terminates processes
    arrival_order quantum ho hq ha1 hr1 hn fuel _ hI0 hC0 hw
  have hall : ∀ idx, idx < processes.length → s.remaining_time idx = 0 := by
    intro idx hidx
    by_contra hne
    have := SchedulingAlgorithms.count_lt processes.length s.remaining_time idx hidx hne
    rw [← hI.count] at this
    exact k4 this
  refine ⟨s, k1, k3, ?_, hI.len, ?_⟩
  · rw [hI.count]
    exact SchedulingAlgorithms.count_all_zero processes.length s.remaining_time hall
  · intro idx p hp
    have hidx : idx < processes.length := by
      by_contra hge
      rw [List.getElem?_eq_none (by omega)] at hp
      cases hp
    obtain ⟨m1, m2⟩ := SchedulingAlgorithms.arrivalOf_getElem? processes idx p hp
    refine ⟨hall idx hidx, ?_⟩
    obtain ⟨r, r1, r2, r3, r4⟩ := hI.finished idx hidx (hall idx hidx)
    obtain ⟨n1, n2⟩ := SchedulingAlgorithms.arrivalOf_getElem? s.processes idx r r1
    rw [(hI.same idx).1, m1] at n1
    rw [(hI.same idx).2, m2] at n2
    rw [m1, m2] at r2
    rw [m1] at r3
    rw [m2] at r4
    exact ⟨r, r1, n1.symm, n2.symm, r2, by omega, by omega, by omega⟩

/-- Witness of C29: the round-robin test of `main`, four processes and quantum 2; the loop
ends within 17 iterations with the completion times 16, 9, 7 and 15. -/
theorem C29_round_robin_completes_witness :
    (SchedulingAlgorithms.RoundRobin [0, 1, 2, 3] 17 SchedulingAlgorithms.mainProcesses 2).map
      (fun s => s.processes.map
        (fun p => (p.completion_time, p.turnaround_time, p.waiting_time))) =
      some [(16, 16, 9), (9, 7, 3), (7, 3, 2), (15, 10, 6)] ∧
    ∃ s, SchedulingAlgorithms.RoundRobin [0, 1, 2, 3] 17 SchedulingAlgorithms.mainProcesses 2 =
        some s ∧ s.ready_queue = [] ∧ s.completed = 4 := by
  refine ⟨by decide, ?_⟩
  obtain ⟨s, k1, k2, k3, _⟩ := C29_round_robin_completes SchedulingAlgorithms.mainProcesses
    [0, 1, 2, 3] 2 17 ⟨by decide, by decide⟩ (by decide) (by decide) (by decide) (by decide)
    (by decide)
  exact ⟨s, k1, k2, k3⟩

/-! ### `DiningPhilosophersOriginalEnhanced`: the priority read is always 1 -/

namespace DiningPhilosophersOriginalEnhanced

theorem enhanced_init_inv : Inv init := by
  intro id
  simp [init]

/-- A step of thread `id` that leaves the priorities and the logs of the other threads alone
keeps the invariant when it keeps it for the thread `id`. -/
theorem enhanced_inv_step (s s1 : State) (id : Fin 5) (hI : Inv s)
    (hthr : s1.threads = Function.update s.threads id (s1.threads id))
    (hpri : s1.philosopher_priority =
      Function.update s.philosopher_priority id (s1.philosopher_priority id))
    (hid : s1.philosopher_priority id =
        (if (s1.threads id).pc = PC.increment then 0 else 1) ∧
      ∀ e ∈ (s1.threads id).log, e = ((1 : Int), (80 : Int))) : Inv s1 := by
  intro j
  by_cases hj : j = id
  · subst hj; exact hid
  · rw [hthr, hpri, Function.update_noteq hj, Function.update_noteq hj]
    exact hI j

theorem enhanced_philosopher_inv (s s1 : State) (id : Fin 5) (hI : Inv s)
    (h : philosopher s id = some s1) : Inv s1 := by
  obtain ⟨hp, hl⟩ := hI id
  unfold philosopher at h
  cases hpc : (s.threads id).pc <;> simp only [hpc] at h hp
  · -- increment
    by_cases hi : (s.threads id).i < 3
    · simp only [hi, if_true] at h
      have e := Option.some.inj h
      subst e
      refine enhanced_inv_step s _ id hI (by simp) (by simp) ⟨?_, ?_⟩
      · simp [hp]
      · simpa using hl
    · simp [hi] at h
  · -- load
    have e := Option.some.inj h
    subst e
    refine enhanced_inv_step s _ id hI (by simp) (by simp) ⟨?_, ?_⟩
    · simp [hp]
    · intro x hx
      simp only [Function.update_same, List.mem_append, List.mem_singleton] at hx
      rcases hx with hx | hx
      · exact hl x hx
      · rw [hx, hp]
        simp
  · -- lockLeft
    by_cases hc : s.chopsticks (left id) = true
    · simp [hc] at h
    · simp only [hc, Bool.false_eq_true, if_false] at h
      have e := Option.some.inj h
      subst e
      refine enhanced_inv_step s _ id hI (by simp) (by simp) ⟨?_, ?_⟩
      · simp [hp]
      · simpa using hl
  · -- lockRight
    by_cases hc : s.chopsticks (right id) = true
    · simp [hc] at h
    · simp only [hc, Bool.false_eq_true, if_false] at h
      have e := Option.some.inj h
      subst e
      refine enhanced_inv_step s _ id hI (by simp) (by simp) ⟨?_, ?_⟩
      · simp [hp]
      · simpa using hl
  · -- unlockRight
    have e := Option.some.inj h
    subst e
    refine enhanced_inv_step s _ id hI (by simp) (by simp) ⟨?_, ?_⟩
    · simp [hp]
    · simpa using hl
  · -- unlockLeft
    have e := Option.some.inj h
    subst e
    refine enhanced_inv_step s _ id hI (by simp) (by simp) ⟨?_, ?_⟩
    · simp [hp]
    · simpa using hl
  · -- reset
    have e := Option.some.inj h
    subst e
    refine enhanced_inv_step s _ id hI (by simp) (by simp) ⟨?_, ?_⟩
    · simp
    · simpa using hl

theorem enhanced_run_inv (sched : List (Fin 5)) : ∀ (s s1 : State), Inv s →
    run s sched = some s1 → Inv s1 := by
  induction sched with
  | nil =>
    intro s s1 hI h
    have e := Option.some.inj h
    subst e
    exact hI
  | cons id rest ih =>
    intro s s1 hI h
    simp only [run] at h
    cases hp : philosopher s id with
    | none => rw [hp] at h; simp at h
    | some s2 =>
      rw [hp] at h
      exact ih s2 s1 (enhanced_philosopher_inv s s2 id hI hp) h

end DiningPhilosophersOriginalEnhanced

/-- C30: in every state that the priority-aging strategy reaches from the start of
`demonstrate()` (all priorities 0), whatever the order of the steps of the five threads, every
pair of `priority` and `delay` that a philosopher has computed is `(1, 80)`: each iteration
reads the priority 1 and sleeps `max(0, 100 - 20 * 1) = 80` ms. When a thread is about to
read its priority, the priority is 1. In the run in which the philosophers eat one after the
other, each of them has computed the pair three times. -/
theorem C30_priority_read_is_one (sched : List (Fin 5))
    (s : DiningPhilosophersOriginalEnhanced.State)
    (h : DiningPhilosophersOriginalEnhanced.run DiningPhilosophersOriginalEnhanced.init sched =
      some s) :
    (∀ id, ∀ e ∈ (s.threads id).log, e = ((1 : Int), (80 : Int))) ∧
    (∀ id, (s.threads id).pc = DiningPhilosophersOriginalEnhanced.PC.load →
      s.philosopher_priority id = 1 ∧
      max 0 (100 - s.philosopher_priority id * 20) = 80) ∧
    (DiningPhilosophersOriginalEnhanced.run DiningPhilosophersOriginalEnhanced.init
        DiningPhilosophersOriginalEnhanced.sequentialRun).map
      (fun s1 => (List.finRange 5).map (fun id => ((s1.threads id).i, (s1.threads id).log))) =
      some (List.replicate 5 (3, [(1, 80), (1, 80), (1, 80)])) := by
  have hI := DiningPhilosophersOriginalEnhanced.enhanced_run_inv sched _ s
    DiningPhilosophersOriginalEnhanced.enhanced_init_inv h
  refine ⟨fun id => (hI id).2, ?_, by decide⟩
  intro id hpc
  have hp := (hI id).1
  rw [hpc] at hp
  simp only [reduceCtorEq, if_false] at hp
  rw [hp]
  exact ⟨rfl, by decide⟩

/-- Witness of C30: philosopher 0 runs its first iteration up to the lock of its first
chopstick while philosopher 1 increments its priority in between. -/
theorem C30_priority_read_is_one_witness :
    ∃ s, DiningPhilosophersOriginalEnhanced.run DiningPhilosophersOriginalEnhanced.init
        [0, 1, 0, 0] = some s ∧
      (s.threads 0).log = [(1, 80)] ∧ (s.threads 1).log = [] ∧
      (List.finRange 5).map s.philosopher_priority = [1, 1, 0, 0, 0] ∧
      ∀ e ∈ (s.threads 0).log, e = ((1 : Int), (80 : Int)) :=
  ⟨_, rfl, by decide, by decide, by decide,
    (C30_priority_read_is_one [0, 1, 0, 0] _ rfl).1 0⟩
